import Mathlib

/-!
# SiteBoss / MonsterCore: lead qualification and quotation

A shallow embedding of `src/src/monsterCore.js` (the rules and pricing engine)
and `src/src/sitebossHooks.js` (text extraction and the reply orchestrator).

Modelling conventions
* A JavaScript number is an IEEE 754 binary64 value (`JsNumber`): a finite
  value, written as the rational it is, or one of `NaN`, `+Infinity`,
  `-Infinity`.  Products, quotients and the reading of a decimal literal round
  to the nearest binary64 value, a tie going to the even significand
  (`roundDouble`), with gradual underflow and with overflow to an infinity.
  Comparison, `Math.min`, `Math.max` and `Math.round` are exact.  The two zeros
  `+0` and `-0` are one value `0`: the source never divides by a computed value
  and prints no zero, so the sign of a zero is not observable in it.
* The numeric fields of the configuration that the source uses in comparisons
  and as factors are finite numbers; a decimal such as `0.9` stands there for
  the binary64 value nearest to it (`double`).
* A JavaScript string is a `String`; the functions below work on its list of
  characters.  `toLowerCase` folds the letters `A`..`Z`.  Where the source
  counts UTF-16 code units (the repetition `{0,10}`), a character outside the
  basic plane counts twice.
* A lead (`Lead`) has the field types of the record that `buildLeadFromText`
  builds: strings, numbers and a boolean.  A missing (`undefined`) string field
  behaves like `""` in every place the source reads one (`x || ""`), and a
  missing number like `NaN` (`Number(undefined)`).  An input object whose
  fields hold arbitrary primitive values is an `Input`; on it `priceRange` may
  throw (`priceRangeOf`).
* A JSON object used as a table is an association list looked up by key.
* The globals `MonsterCore` and `MONSTER_CORE` that `sitebossHooks.js` reads are
  explicit arguments, `none` when the global is not set.
-/

namespace SiteBoss

/-! ## Numbers -/

/-- A JavaScript number: a finite value, `NaN`, or one of the two infinities. -/
inductive JsNumber where
  | fin (q : ℚ)
  | nan
  | posInf
  | negInf
  deriving DecidableEq

/-- `Number.isFinite(x)`. -/
def JsNumber.isFinite : JsNumber → Bool
  | .fin _ => true
  | _ => false

/-- Truthiness of a number: everything but `0` and `NaN`. -/
def JsNumber.truthy : JsNumber → Bool
  | .fin q => decide (q ≠ 0)
  | .nan => false
  | _ => true

/-- The power `2^e` of an integer exponent. -/
def pow2 (e : ℤ) : ℚ :=
  if 0 ≤ e then ((2 ^ e.toNat : ℕ) : ℚ) else 1 / ((2 ^ (-e).toNat : ℕ) : ℚ)

/-- The number of binary digits of `n`, found by halving `n` at most `fuel`
times. -/
def bitLength : ℕ → ℕ → ℕ
  | 0, _ => 0
  | fuel + 1, n => if n = 0 then 0 else bitLength fuel (n / 2) + 1

/-- The binary exponent of a positive number: `2^e ≤ a < 2^(e+1)`.  The
difference of the bit lengths of numerator and denominator is `e` or `e + 1`. -/
def ilog2 (a : ℚ) : ℤ :=
  let k : ℤ := (bitLength a.num.natAbs a.num.natAbs : ℤ) - (bitLength a.den a.den : ℤ)
  if a < pow2 k then k - 1 else k

/-- Round to the nearest integer, a tie going to the even one. -/
def roundHalfEven (m : ℚ) : ℤ :=
  let f := ⌊m⌋
  let r := m - f
  if r < 1 / 2 then f
  else if 1 / 2 < r then f + 1
  else if f % 2 = 0 then f else f + 1

/-- The exponent of the spacing of the binary64 numbers around `a > 0`: 52 below
the binary exponent of `a`, and `-1074` throughout the subnormal range. -/
def quantumExp (a : ℚ) : ℤ := max (ilog2 a) (-1022) - 52

/-- The binary64 number nearest to `x`, a tie going to the even significand,
before overflow is looked at. -/
def roundQ (x : ℚ) : ℚ :=
  if x = 0 then 0
  else
    let q := pow2 (quantumExp |x|)
    let r := (roundHalfEven (|x| / q) : ℚ) * q
    if x < 0 then -r else r

/-- The JavaScript number of a real value: the nearest binary64 number, or an
infinity when that is `2^1024` or beyond in magnitude. -/
def roundDouble (x : ℚ) : JsNumber :=
  let r := roundQ x
  if pow2 1024 ≤ r then .posInf
  else if r ≤ -pow2 1024 then .negInf
  else .fin r

/-- The finite binary64 number that a decimal literal denotes. -/
def double (q : ℚ) : ℚ := roundQ q

/-- The product `a * b` of two numbers. -/
def JsNumber.mul : JsNumber → JsNumber → JsNumber
  | .fin a, .fin b => roundDouble (a * b)
  | .fin a, .posInf => if a = 0 then .nan else if 0 < a then .posInf else .negInf
  | .fin a, .negInf => if a = 0 then .nan else if 0 < a then .negInf else .posInf
  | .posInf, .fin b => if b = 0 then .nan else if 0 < b then .posInf else .negInf
  | .negInf, .fin b => if b = 0 then .nan else if 0 < b then .negInf else .posInf
  | .posInf, .posInf => .posInf
  | .posInf, .negInf => .negInf
  | .negInf, .posInf => .negInf
  | .negInf, .negInf => .posInf
  | .nan, _ => .nan
  | _, .nan => .nan

/-- The quotient `a / b` of two numbers.  A zero divisor is taken as `+0`; the
source divides by the constants `10` and `1000` only. -/
def JsNumber.div : JsNumber → JsNumber → JsNumber
  | .fin a, .fin b =>
    if b = 0 then (if a = 0 then .nan else if 0 < a then .posInf else .negInf)
    else roundDouble (a / b)
  | .fin _, .posInf => .fin 0
  | .fin _, .negInf => .fin 0
  | .posInf, .fin b => if 0 ≤ b then .posInf else .negInf
  | .negInf, .fin b => if 0 ≤ b then .negInf else .posInf
  | .posInf, .posInf => .nan
  | .posInf, .negInf => .nan
  | .negInf, .posInf => .nan
  | .negInf, .negInf => .nan
  | .nan, _ => .nan
  | _, .nan => .nan

/-- `Math.round(x)` of a finite `x`: the nearest integer, a tie going to the
larger one.  The result is exact: a binary64 number of magnitude `2^52` or more
is an integer already. -/
def mathRound (x : ℚ) : ℤ := ⌊x + 1 / 2⌋

/-- `Math.round(x)`. -/
def JsNumber.round : JsNumber → JsNumber
  | .fin x => .fin (mathRound x)
  | n => n

/-- The comparison `a <= b`, which is false when either side is `NaN`. -/
def JsNumber.le : JsNumber → JsNumber → Prop
  | .nan, _ => False
  | _, .nan => False
  | .negInf, _ => True
  | _, .posInf => True
  | .fin a, .fin b => a ≤ b
  | .fin _, .negInf => False
  | .posInf, .fin _ => False
  | .posInf, .negInf => False

/-- `clampNumber(n, min, max)`:
`if (!Number.isFinite(x)) return min; return Math.min(Math.max(x, min), max)`. -/
def clampNumber (n : JsNumber) (lo hi : ℚ) : ℚ :=
  match n with
  | .fin x => min (max x lo) hi
  | _ => lo

/-! ## Strings -/

/-- White space and line terminators of ECMAScript (`trim`, `\s`). -/
def isJsSpace (c : Char) : Bool :=
  let n := c.toNat
  n = 0x09 || n = 0x0A || n = 0x0B || n = 0x0C || n = 0x0D || n = 0x20 ||
  n = 0xA0 || n = 0x1680 || (0x2000 ≤ n && n ≤ 0x200A) ||
  n = 0x2028 || n = 0x2029 || n = 0x202F || n = 0x205F || n = 0x3000 || n = 0xFEFF

/-- `s.trim()` on a list of characters. -/
def trimChars (s : List Char) : List Char :=
  ((s.dropWhile isJsSpace).reverse.dropWhile isJsSpace).reverse

/-- `s.trim()`. -/
def jsTrim (s : String) : String := ⟨trimChars s.data⟩

/-- `s.toLowerCase()`. -/
def jsLower (s : String) : String := ⟨s.data.map Char.toLower⟩

/-- `s.includes(k)`: `k` occurs in `s` as a contiguous run. -/
def includesChars (s k : List Char) : Bool :=
  match s with
  | [] => k.isEmpty
  | c :: rest => k.isPrefixOf (c :: rest) || includesChars rest k

/-- `s.includes(k)`. -/
def jsIncludes (s k : String) : Bool := includesChars s.data k.data

/-- `s.endsWith(k)`. -/
def jsEndsWith (s k : String) : Bool := k.data.reverse.isPrefixOf s.data.reverse

/-! ## Configuration, leads, decisions -/

/-- Section `business_rules` of the configuration. -/
structure BusinessRules where
  supported_services : List String
  minimum_job_value : ℚ
  tight_access_minimum : ℚ
  wet_season_multiplier : ℚ
  deposit_percentage_default : JsNumber
  block_new_work_if_overdue : Bool

/-- Section `pricing_engine.multipliers`: three tables from key to factor. -/
structure Multipliers where
  height : List (String × ℚ)
  access : List (String × ℚ)
  ground : List (String × ℚ)

/-- Section `pricing_engine.range`. -/
structure RangeFactors where
  low_factor : ℚ
  high_factor : ℚ

/-- Section `pricing_engine`.  An entry of `base_rates` may be any number;
an entry that is not a number at all behaves like `NaN` under
`Number.isFinite`. -/
structure PricingEngine where
  base_rates : List (String × JsNumber)
  multipliers : Multipliers
  range : RangeFactors

/-- One entry of `lead_filtering.rules`. -/
structure Rule where
  id : String
  message : String

/-- Section `lead_filtering`. -/
structure LeadFiltering where
  rules : List Rule

/-- The configuration object (`core`, `global.MONSTER_CORE`). -/
structure Core where
  business_rules : BusinessRules
  pricing_engine : PricingEngine
  lead_filtering : LeadFiltering

/-- The lead record built by `buildLeadFromText` and read by the engine. -/
structure Lead where
  service : String
  budget : JsNumber
  qty : JsNumber
  height : String
  access : String
  ground : String
  wet_season : Bool

/-- The result of `evaluateLead`: `{allowed: false, ruleId, action, message}`
or `{allowed: true}`. -/
inductive Decision where
  | declined (ruleId action message : String)
  | allowed
  deriving DecidableEq

/-- Field `allowed` of a decision. -/
def Decision.isAllowed : Decision → Bool
  | .allowed => true
  | .declined _ _ _ => false

/-- Field `message` of a decision (`undefined`, here `none`, when allowed). -/
def Decision.message : Decision → Option String
  | .allowed => none
  | .declined _ _ m => some m

/-- Field `ruleId` of a decision. -/
def Decision.ruleId : Decision → Option String
  | .allowed => none
  | .declined r _ _ => some r

/-! ## The rules engine (`monsterCore.js`) -/

/-- `normalizeAccess(access)`. -/
def normalizeAccess (access : String) : String :=
  let a := jsTrim (jsLower access)
  if a ∈ ["tight"] then "tight"
  else if a ∈ ["restricted", "limited"] then "restricted"
  else "easy"

/-- `normalizeGround(ground)`. -/
def normalizeGround (ground : String) : String :=
  let g := jsTrim (jsLower ground)
  if g ∈ ["rocky", "rock", "stone"] then "rocky"
  else if g ∈ ["soft", "sand", "sandy"] then "soft"
  else "unknown"

/-- `isServiceSupported(core, service)`. -/
def isServiceSupported (core : Core) (service : String) : Bool :=
  decide (service ∈ core.business_rules.supported_services)

/-- `getRuleMessage(core, ruleId)`: the message of the first rule with that id,
or the generic text when there is no such rule or its message is empty. -/
def getRuleMessage (core : Core) (ruleId : String) : String :=
  match core.lead_filtering.rules.find? (fun r => decide (r.id = ruleId)) with
  | some rule => if rule.message = "" then "Thanks for reaching out." else rule.message
  | none => "Thanks for reaching out."

/-- `evaluateLead(core, lead)`. -/
def evaluateLead (core : Core) (lead : Lead) : Decision :=
  let budget := clampNumber lead.budget 0 1000000000
  let service := jsTrim lead.service
  let access := normalizeAccess lead.access
  if !isServiceSupported core service then
    .declined "unsupported_service" "auto_decline" (getRuleMessage core "unsupported_service")
  else if budget < core.business_rules.minimum_job_value then
    .declined "min_job_value" "auto_decline" (getRuleMessage core "min_job_value")
  else if access = "tight" ∧ budget < core.business_rules.tight_access_minimum then
    .declined "tight_access_min" "auto_decline" (getRuleMessage core "tight_access_min")
  else
    .allowed

/-- `depositAmount(core, total)`. -/
def depositAmount (core : Core) (total : JsNumber) : JsNumber :=
  let t := clampNumber total 0 1000000000000
  let pct := clampNumber core.business_rules.deposit_percentage_default 0 1
  ((JsNumber.fin t).mul (.fin pct)).round

/-! ## Number to string and string to number -/

/-- The decimal digits of a natural number. -/
def natDigits (n : ℕ) : List Char := Nat.toDigits 10 n

/-- Drop the zeros at the end of a digit string. -/
def stripZeros (ds : List Char) : List Char :=
  (ds.reverse.dropWhile (fun c => c = '0')).reverse

/-- The power `10^e` of an integer exponent. -/
def pow10 (e : ℤ) : ℚ :=
  if 0 ≤ e then ((10 ^ e.toNat : ℕ) : ℚ) else 1 / ((10 ^ (-e).toNat : ℕ) : ℚ)

/-- Lower an estimate `g` of the decimal exponent of `a` until `10^g ≤ a`. -/
def decExpDown (a : ℚ) : ℕ → ℤ → ℤ
  | 0, g => g
  | fuel + 1, g => if a < pow10 g then decExpDown a fuel (g - 1) else g

/-- Raise an estimate `g` of the decimal exponent of `a` until `a < 10^(g+1)`. -/
def decExpUp (a : ℚ) : ℕ → ℤ → ℤ
  | 0, g => g
  | fuel + 1, g => if pow10 (g + 1) ≤ a then decExpUp a fuel (g + 1) else g

/-- The decimal exponent of a positive number: `10^E ≤ a < 10^(E+1)`.  The
estimate from the binary exponent is off by one at most. -/
def ilog10 (a : ℚ) : ℤ :=
  decExpUp a 3 (decExpDown a 3 (ilog2 a * 1233 / 4096))

/-- The shortest decimal that reads back as the binary64 number `x > 0` of
decimal exponent `E`.  The search tries `k = 1, 2, ...` digits; with `k` digits
the two candidates are the `k`-digit decimals next to `x`; of two candidates
that read back as `x` the one nearer to `x` wins, the even one on a tie.  The
result is the digit number `s` and the position `n` of the decimal point: the
decimal is `s * 10^(n - k)`.  Seventeen digits always suffice. -/
def shortestDecimal (x : ℚ) (E : ℤ) : ℕ → ℕ → ℕ × ℤ
  | 0, k => ((⌊x / pow10 (E - k + 1)⌋).toNat, E + 1)
  | fuel + 1, k =>
    let scale := pow10 (E - k + 1)
    let lo := (⌊x / scale⌋).toNat
    let hi := lo + 1
    let okLo := decide (roundDouble (lo * scale) = .fin x)
    let okHi := decide (roundDouble (hi * scale) = .fin x)
    let nHi : ℤ := if hi = 10 ^ k then E + 2 else E + 1
    if okLo && okHi then
      if x - lo * scale < hi * scale - x then (lo, E + 1)
      else if hi * scale - x < x - lo * scale then (hi, nHi)
      else if lo % 2 = 0 then (lo, E + 1) else (hi, nHi)
    else if okLo then (lo, E + 1)
    else if okHi then (hi, nHi)
    else shortestDecimal x E fuel (k + 1)

/-- The text of `Number::toString` from the significant digits `ds` and the
position `n` of the decimal point: plain digits up to `10^21`, a leading `0.`
down to `10^-6`, exponent form beyond. -/
def formatDecimal (ds : List Char) (n : ℤ) : List Char :=
  let k : ℤ := ds.length
  if k ≤ n ∧ n ≤ 21 then ds ++ List.replicate (n - k).toNat '0'
  else if 0 < n ∧ n ≤ 21 then ds.take n.toNat ++ '.' :: ds.drop n.toNat
  else if -6 < n ∧ n ≤ 0 then '0' :: '.' :: (List.replicate (-n).toNat '0' ++ ds)
  else
    let e := n - 1
    let tail := 'e' :: (if e < 0 then '-' else '+') :: natDigits e.natAbs
    match ds with
    | [] => '0' :: tail
    | [d] => d :: tail
    | d :: rest => d :: '.' :: (rest ++ tail)

/-- `Number::toString(x)` for a finite `x > 0`. -/
def positiveToString (x : ℚ) : List Char :=
  let r := shortestDecimal x (ilog10 x) 17 1
  formatDecimal (stripZeros (natDigits r.1)) r.2

/-- `Number::toString(x)`, the text a template literal inserts for a number. -/
def numberToString : JsNumber → String
  | .nan => "NaN"
  | .posInf => "Infinity"
  | .negInf => "-Infinity"
  | .fin x =>
    if x = 0 then "0"
    else if x < 0 then ⟨'-' :: positiveToString (-x)⟩
    else ⟨positiveToString x⟩

/-- `x.toFixed(1)`: for a finite `x` below `10^21` in magnitude the decimal with
one digit after the point nearest to the exact value of `x`, the larger one on
a tie; `Number::toString(x)` otherwise. -/
def toFixed1 : JsNumber → String
  | .fin x =>
    let a := |x|
    let body :=
      if pow10 21 ≤ a then positiveToString a
      else
        let n := (mathRound (a * 10)).toNat
        natDigits (n / 10) ++ '.' :: natDigits (n % 10)
    ⟨if x < 0 then '-' :: body else body⟩
  | n => numberToString n

/-- The value of a run of digits in base `b`, each digit read by `val`. -/
def digitsValue (b : ℕ) (val : Char → ℕ) (ds : List Char) : ℕ :=
  ds.foldl (fun acc c => acc * b + val c) 0

/-- The value of a hexadecimal digit. -/
def hexVal (c : Char) : ℕ :=
  if c.isDigit then c.toNat - 48
  else if 'a'.toNat ≤ c.toNat ∧ c.toNat ≤ 'f'.toNat then c.toNat - 87
  else c.toNat - 55

/-- A hexadecimal digit. -/
def isHexDigit (c : Char) : Bool :=
  c.isDigit || ('a'.toNat ≤ c.toNat && c.toNat ≤ 'f'.toNat) ||
    ('A'.toNat ≤ c.toNat && c.toNat ≤ 'F'.toNat)

/-- A non-empty run of digits accepted by `ok`, read in base `b`. -/
def radixLiteral (b : ℕ) (ok : Char → Bool) (ds : List Char) : Option ℕ :=
  if ds ≠ [] ∧ ds.all ok then some (digitsValue b hexVal ds) else none

/-- `ExponentPart` at the end of a literal: nothing, or `e`/`E`, an optional
sign and at least one digit.  The result is the decimal exponent. -/
def exponentPart (s : List Char) : Option ℤ :=
  match s with
  | [] => some 0
  | c :: rest =>
    if c = 'e' ∨ c = 'E' then
      match rest with
      | '+' :: ds => (radixLiteral 10 Char.isDigit ds).map Int.ofNat
      | '-' :: ds => (radixLiteral 10 Char.isDigit ds).map (fun n => -Int.ofNat n)
      | ds => (radixLiteral 10 Char.isDigit ds).map Int.ofNat
    else none

/-- `StrUnsignedDecimalLiteral` without `Infinity`: digits, an optional point
and digits (at least one digit in all), an optional exponent. -/
def unsignedDecimal (s : List Char) : Option ℚ :=
  let ip := s.takeWhile Char.isDigit
  let r1 := s.dropWhile Char.isDigit
  let fp := match r1 with
    | '.' :: r => r.takeWhile Char.isDigit
    | _ => []
  let r2 := match r1 with
    | '.' :: r => r.dropWhile Char.isDigit
    | _ => r1
  if ip = [] ∧ fp = [] then none
  else
    match exponentPart r2 with
    | none => none
    | some e =>
      let m : ℚ := digitsValue 10 hexVal ip + (digitsValue 10 hexVal fp : ℚ) / 10 ^ fp.length
      some (m * 10 ^ e)

/-- The mathematical value of a `StrDecimalLiteral`: an optional sign, then
`Infinity` or a decimal. -/
def strDecimalLiteral (s : List Char) : JsNumber :=
  let neg := s.head? = some '-'
  let body := match s with
    | '+' :: r => r
    | '-' :: r => r
    | _ => s
  if body = "Infinity".data then (if neg then .negInf else .posInf)
  else
    match unsignedDecimal body with
    | some q => .fin (if neg then -q else q)
    | none => .nan

/-- The mathematical value of a string read as a numeric literal: white space
around the literal is ignored, the empty string is `0`, a `0x`, `0o` or `0b`
literal is an unsigned integer, anything that is not a numeric literal is
`NaN`. -/
def literalValue (s : String) : JsNumber :=
  match trimChars s.data with
  | [] => .fin 0
  | '0' :: 'x' :: ds | '0' :: 'X' :: ds =>
    match radixLiteral 16 isHexDigit ds with
    | some n => .fin n
    | none => .nan
  | '0' :: 'o' :: ds | '0' :: 'O' :: ds =>
    match radixLiteral 8 (fun c => '0'.toNat ≤ c.toNat && c.toNat ≤ '7'.toNat) ds with
    | some n => .fin n
    | none => .nan
  | '0' :: 'b' :: ds | '0' :: 'B' :: ds =>
    match radixLiteral 2 (fun c => c = '0' || c = '1') ds with
    | some n => .fin n
    | none => .nan
  | t => strDecimalLiteral t

/-- The number of a mathematical value: the nearest binary64 number. -/
def JsNumber.rounded : JsNumber → JsNumber
  | .fin q => roundDouble q
  | n => n

/-- `Number(s)` for a string `s` (`StringToNumber`): the value of the literal,
rounded to the nearest binary64 number. -/
def stringToNumber (s : String) : JsNumber := (literalValue s).rounded

/-! ## The pricing engine (`monsterCore.js`) -/

/-- `normalizeHeight(height)`. -/
def normalizeHeight (height : String) : String :=
  let h := jsTrim (jsLower height)
  if jsEndsWith h "m" then h
  else
    match stringToNumber h with
    | .fin num =>
      if num > 100 then toFixed1 ((JsNumber.fin num).div (.fin 1000)) ++ "m"
      else toFixed1 (.fin num) ++ "m"
    | _ => "1.8m"

/-- The rounding `round10` of `priceRange`: `Math.round(n / 10) * 10`. -/
def round10 (n : JsNumber) : JsNumber := ((n.div (.fin 10)).round).mul (.fin 10)

/-- Field `factors` of a quote. -/
structure Factors where
  heightKey : String
  heightFactor : ℚ
  accessKey : String
  accessFactor : ℚ
  groundKey : String
  groundFactor : ℚ
  seasonFactor : ℚ
  deriving DecidableEq

/-- The result of `priceRange`: `{ok: true, service, qty, factors, raw, low,
high}` or `{ok: false, reason}`. -/
inductive Quote where
  | ok (service : String) (qty : ℚ) (factors : Factors) (raw low high : JsNumber)
  | notOk (reason : String)
  deriving DecidableEq

/-- Field `ok` of a quote. -/
def Quote.isOk : Quote → Bool
  | .ok _ _ _ _ _ _ => true
  | .notOk _ => false

/-- `table[key] ?? 1.0`. -/
def factorOf (table : List (String × ℚ)) (key : String) : ℚ :=
  (table.lookup key).getD 1

/-- `priceRange(core, input)`. -/
def priceRange (core : Core) (input : Lead) : Quote :=
  let service := jsTrim input.service
  let metresOrUnits := clampNumber input.qty 0 1000000
  let heightKey := normalizeHeight input.height
  let accessKey := normalizeAccess input.access
  let groundKey := normalizeGround input.ground
  let wetSeason := input.wet_season
  if !isServiceSupported core service then .notOk "unsupported_service"
  else
    match core.pricing_engine.base_rates.lookup service with
    | some (.fin baseRate) =>
      let heightFactor := factorOf core.pricing_engine.multipliers.height heightKey
      let accessFactor := factorOf core.pricing_engine.multipliers.access accessKey
      let groundFactor := factorOf core.pricing_engine.multipliers.ground groundKey
      let seasonFactor := if wetSeason then core.business_rules.wet_season_multiplier else 1
      let raw := (((((JsNumber.fin metresOrUnits).mul (.fin baseRate)).mul
        (.fin heightFactor)).mul (.fin accessFactor)).mul (.fin groundFactor)).mul
        (.fin seasonFactor)
      let low := raw.mul (.fin core.pricing_engine.range.low_factor)
      let high := raw.mul (.fin core.pricing_engine.range.high_factor)
      .ok service metresOrUnits
        ⟨heightKey, heightFactor, accessKey, accessFactor, groundKey, groundFactor, seasonFactor⟩
        (round10 raw) (round10 low) (round10 high)
    | _ => .notOk "missing_base_rate"

/-- A primitive JavaScript value, as a field of an input object may hold one. -/
inductive JsValue where
  | undefined
  | null
  | bool (b : Bool)
  | num (n : JsNumber)
  | str (s : String)
  deriving DecidableEq

/-- Truthiness of a value: everything but `undefined`, `null`, `false`, `0`,
`NaN` and `""`. -/
def JsValue.truthy : JsValue → Bool
  | .undefined => false
  | .null => false
  | .bool b => b
  | .num n => n.truthy
  | .str s => decide (s ≠ "")

/-- `Number(v)`. -/
def JsValue.toNumber : JsValue → JsNumber
  | .undefined => .nan
  | .null => .fin 0
  | .bool b => .fin (if b then 1 else 0)
  | .num n => n
  | .str s => stringToNumber s

/-- An exception thrown by a call. -/
inductive JsError where
  | typeError
  deriving DecidableEq

/-- The way an evaluation completes: normally, with a value, or abruptly, by
throwing an exception. -/
inductive Completion (α : Type) where
  | normal (value : α)
  | throw (error : JsError)
  deriving DecidableEq

/-- The receiver of a string method in `(v || "").trim()` and
`(v || "").toLowerCase()`: the text `v`, the empty text for a falsy `v`, and a
`TypeError` for a truthy `v` that is not a string, which has no such method. -/
def stringReceiver (v : JsValue) : Completion String :=
  match v with
  | .str s => .normal s
  | v => if v.truthy then .throw .typeError else .normal ""

/-- The input object of `priceRange` with fields of any primitive type;
`undefined` is a missing field. -/
structure Input where
  service : JsValue
  qty : JsValue
  height : JsValue
  access : JsValue
  ground : JsValue
  wet_season : JsValue

/-- `priceRange(core, input)` on an input object with fields of any primitive
type.  The source converts the six fields before its first `return`
(`monsterCore.js`, lines 73 to 78): each of the four text fields is the
receiver of a string method and throws when it is a truthy value that is not a
string; the quantity goes through `Number`, the season flag through `Boolean`.
When nothing is thrown the call goes on as `priceRange` on the converted
fields. -/
def priceRangeOf (core : Core) (input : Input) : Completion Quote :=
  match stringReceiver input.service, stringReceiver input.height,
    stringReceiver input.access, stringReceiver input.ground with
  | .normal service, .normal height, .normal access, .normal ground =>
    .normal (priceRange core
      ⟨service, .nan, input.qty.toNumber, height, access, ground, input.wet_season.truthy⟩)
  | _, _, _, _ => .throw .typeError

/-! ## Text extraction (`sitebossHooks.js`)

The four regular expressions of the file are written out as matchers.  Each
tries every start position from the left (`scanFrom`) and, at a start position,
follows the one path a backtracking matcher can succeed on: a greedy run of
digits or white space is always followed by a character outside that run, so a
shorter run never lets the rest of the expression match. -/

/-- A word character of `\b` and `\w`: `[A-Za-z0-9_]`. -/
def isWordChar (c : Char) : Bool := c.isAlphanum || c = '_'

/-- `\b` in front of a word character: the start of the text or a non-word
character precedes. -/
def boundaryBefore (prev : Option Char) : Bool :=
  match prev with
  | none => true
  | some c => !isWordChar c

/-- `\b` behind a word character: the end of the text or a non-word character
follows. -/
def boundaryAfter (rest : List Char) : Bool :=
  match rest with
  | [] => true
  | c :: _ => !isWordChar c

/-- The literal `k` followed by `\b`, at the head of `s`. -/
def wordAt (k : String) (s : List Char) : Bool :=
  k.data.isPrefixOf s && boundaryAfter (s.drop k.data.length)

/-- Leftmost match: try `f` at every position, `prev` being the character in
front of it. -/
def scanFrom {α : Type} (f : Option Char → List Char → Option α) :
    Option Char → List Char → Option α
  | prev, [] => f prev []
  | prev, c :: rest =>
    match f prev (c :: rest) with
    | some r => some r
    | none => scanFrom f (some c) rest

/-- The group `(\d+(?:\.\d+)?)` at the head of `s`: the text it captures and
the text left after it. -/
def numberPrefix (s : List Char) : Option (List Char × List Char) :=
  let ip := s.takeWhile Char.isDigit
  let r1 := s.dropWhile Char.isDigit
  if ip = [] then none
  else
    match r1 with
    | '.' :: r =>
      let fp := r.takeWhile Char.isDigit
      if fp = [] then some (ip, r1) else some (ip ++ '.' :: fp, r.dropWhile Char.isDigit)
    | _ => some (ip, r1)

/-- `pickServiceFromText(text)`. -/
def pickServiceFromText (text : String) : String :=
  let t := jsLower text
  if jsIncludes t "pressure" || jsIncludes t "wash" then "pressure_washing"
  else if jsIncludes t "retaining" || jsIncludes t "sleeper" then "retaining_walls"
  else if jsIncludes t "excav" || jsIncludes t "digger" || jsIncludes t "bobcat" then "excavation"
  else if jsIncludes t "landscap" || jsIncludes t "turf" || jsIncludes t "garden" then
    "landscaping"
  else if jsIncludes t "colorbond" || jsIncludes t "colourbond" then "colorbond_fencing"
  else if jsIncludes t "aluminium" || jsIncludes t "aluminum" || jsIncludes t "pool fence" then
    "aluminium_fencing"
  else if jsIncludes t "timber" || jsIncludes t "paling" || jsIncludes t "pailing" then
    "timber_fencing"
  else if jsIncludes t "fence" || jsIncludes t "fencing" then "colorbond_fencing"
  else ""

/-- `/(\d+(?:\.\d+)?)\s*(m|metre|metres)\b/` at one start position: group 1. -/
def metresAt (_prev : Option Char) (s : List Char) : Option (List Char) :=
  match numberPrefix s with
  | none => none
  | some (num, rest) =>
    let r := rest.dropWhile isJsSpace
    if wordAt "m" r || wordAt "metre" r || wordAt "metres" r then some num else none

/-- `extractMetres(text)`: `none` is the source's `null`. -/
def extractMetres (text : String) : Option JsNumber :=
  let t := jsLower text
  match scanFrom metresAt none t.data with
  | some num => some (stringToNumber ⟨num⟩)
  | none => none

/-- `/\b(1\.2|1\.5|1\.8|2\.1)\s*m\b/` at one start position: group 1. -/
def heightAt (prev : Option Char) (s : List Char) : Option (List Char) :=
  let tok := s.take 3
  if boundaryBefore prev ∧ tok ∈ ["1.2".data, "1.5".data, "1.8".data, "2.1".data] ∧
      wordAt "m" ((s.drop 3).dropWhile isJsSpace) then some tok
  else none

/-- `extractHeight(text)`. -/
def extractHeight (text : String) : String :=
  let t := jsLower text
  match scanFrom heightAt none t.data with
  | some tok => ⟨tok⟩ ++ "m"
  | none => "1.8m"

/-- `extractAccess(text)`. -/
def extractAccess (text : String) : String :=
  let t := jsLower text
  if jsIncludes t "tight access" || jsIncludes t "no access" || jsIncludes t "behind shed" ||
      jsIncludes t "narrow" then "tight"
  else if jsIncludes t "restricted" || jsIncludes t "limited" || jsIncludes t "stairs" ||
      jsIncludes t "steep" then "restricted"
  else "easy"

/-- The greedy group `(?:,\d{3})*` at the head of `s`: the text it consumes. -/
def commaGroups : List Char → List Char
  | c :: d1 :: d2 :: d3 :: rest =>
    if c = ',' ∧ d1.isDigit ∧ d2.isDigit ∧ d3.isDigit then
      c :: d1 :: d2 :: d3 :: commaGroups rest
    else []
  | _ => []

/-- `/\$\s*(\d+(?:,\d{3})*)(?:\.\d{2})?/` at one start position: group 1. -/
def dollarAt (_prev : Option Char) (s : List Char) : Option (List Char) :=
  match s with
  | c :: r =>
    let r1 := r.dropWhile isJsSpace
    let ds := r1.takeWhile Char.isDigit
    if c = '$' ∧ ds ≠ [] then some (ds ++ commaGroups (r1.dropWhile Char.isDigit)) else none
  | [] => none

/-- `raw.match(/\$\s*(\d+(?:,\d{3})*)(?:\.\d{2})?/)`: group 1 of the match. -/
def matchDollar (raw : String) : Option (List Char) :=
  scanFrom dollarAt none raw.data

/-- The number of UTF-16 code units of a run of characters, which is what the
counted repetition `{0,10}` counts. -/
def utf16Length (s : List Char) : ℕ :=
  (s.map fun c => if c.toNat < 0x10000 then 1 else 2).sum

/-- `/\bbudget\b[^0-9]{0,10}(\d+(?:\.\d+)?)\s*(k|grand)\b/` at one start
position: groups 1 and 2. -/
def budgetAt (prev : Option Char) (s : List Char) : Option (List Char × String) :=
  let r := s.drop 6
  let gap := r.takeWhile fun c => !c.isDigit
  if boundaryBefore prev ∧ "budget".data.isPrefixOf s ∧ boundaryAfter r ∧
      utf16Length gap ≤ 10 then
    match numberPrefix (r.dropWhile fun c => !c.isDigit) with
    | none => none
    | some (num, rest) =>
      let u := rest.dropWhile isJsSpace
      if wordAt "k" u then some (num, "k")
      else if wordAt "grand" u then some (num, "grand")
      else none
  else none

/-- `t.match(/\bbudget\b[^0-9]{0,10}(\d+(?:\.\d+)?)\s*(k|grand)\b/)`: groups 1
and 2 of the match. -/
def matchBudget (t : String) : Option (List Char × String) :=
  scanFrom budgetAt none t.data

/-- `budget <= 0` for the running budget. -/
def JsNumber.nonPositive : JsNumber → Bool
  | .fin q => decide (q ≤ 0)
  | .negInf => true
  | _ => false

/-- The budget after the `$` stage of `buildLeadFromText`. -/
def dollarBudget (raw : String) : JsNumber :=
  if jsIncludes raw "$" then
    match matchDollar raw with
    | some m1 => stringToNumber ⟨m1.filter fun c => c ≠ ','⟩
    | none => .fin 0
  else .fin 0

/-- The budget after the `budget 5k` / `3 grand` stage of `buildLeadFromText`. -/
def suffixBudget (raw : String) : JsNumber :=
  let t := jsLower raw
  let budget := dollarBudget raw
  if budget.nonPositive && (jsIncludes t "budget" || jsIncludes t "k" || jsIncludes t "grand") then
    match matchBudget t with
    | some (mk1, mk2) =>
      match stringToNumber ⟨mk1⟩ with
      | .fin n =>
        let mult : ℚ := if mk2 = "k" then 1000 else 1000
        ((JsNumber.fin n).mul (.fin mult)).round
      | _ => budget
    | none => budget
  else budget

/-- The fallback budget of `buildLeadFromText`: the configured
`minimum_job_value` when `global.MONSTER_CORE` is set and that value is truthy,
and `1500` otherwise. -/
def fallbackBudget (MONSTER_CORE : Option Core) : ℚ :=
  match MONSTER_CORE with
  | some core =>
    if core.business_rules.minimum_job_value ≠ 0 then core.business_rules.minimum_job_value
    else 1500
  | none => 1500

/-- `buildLeadFromText(text)`, reading the global `MONSTER_CORE`. -/
def buildLeadFromText (MONSTER_CORE : Option Core) (text : String) : Lead :=
  let service := pickServiceFromText text
  let raw := text
  let t := jsLower raw
  let hasBudgetWord := jsIncludes t "budget"
  let hasDollar := jsIncludes raw "$"
  let budget := suffixBudget raw
  let qty : JsNumber :=
    match extractMetres raw with
    | some n => if n.truthy then n else .fin 0
    | none => .fin 0
  let budget :=
    if !hasDollar && !hasBudgetWord && budget.nonPositive then .fin (fallbackBudget MONSTER_CORE)
    else budget
  { service := service
    budget := budget
    qty := qty
    height := extractHeight raw
    access := extractAccess raw
    ground := "unknown"
    wet_season := false }

/-! ## The reply orchestrator (`sitebossHooks.js`) -/

/-- The engine object `global.MonsterCore`: the two functions the orchestrator
calls on it. -/
structure Engine where
  evaluateLead : Core → Lead → Decision
  priceRange : Core → Lead → Quote

/-- The engine of `monsterCore.js`. -/
def monsterCore : Engine := ⟨evaluateLead, priceRange⟩

/-- The result of `decideReplyFromText`. -/
inductive Reply where
  | decline (message : String)
  | range (message : String)
  | pass
  deriving DecidableEq

/-- The message of a `range` reply, from the quote's `low` and `high`. -/
def rangeMessage (low high : JsNumber) : String :=
  "Typical price range: $" ++ numberToString low ++ "â€“$" ++ numberToString high ++
    ". Final price confirmed once we see photos/site conditions."

/-- `decideReplyFromText(text)`, reading the globals `MonsterCore` and
`MONSTER_CORE`. -/
def decideReplyFromText (MonsterCore : Option Engine) (MONSTER_CORE : Option Core)
    (text : String) : Reply :=
  match MonsterCore, MONSTER_CORE with
  | some engine, some core =>
    let lead := buildLeadFromText MONSTER_CORE text
    if lead.service = "" ∨ lead.qty.truthy = false then .pass
    else
      match engine.evaluateLead core lead with
      | .declined _ _ message => .decline message
      | .allowed =>
        match engine.priceRange core lead with
        | .ok _ _ _ _ low high => .range (rangeMessage low high)
        | .notOk _ => .pass
  | _, _ => .pass

/-! ## Example data -/

/-- The configuration of the spec's scenarios: minimum job value 1500, tight
access minimum 3000, base rate 80 for colorbond fencing, every multiplier 1.0,
range factors 0.9 and 1.2. -/
def scenarioCore : Core where
  business_rules := {
    supported_services := ["colorbond_fencing", "timber_fencing"]
    minimum_job_value := 1500
    tight_access_minimum := 3000
    wet_season_multiplier := double (115 / 100)
    deposit_percentage_default := .fin (double (2 / 10))
    block_new_work_if_overdue := true }
  pricing_engine := {
    base_rates := [("colorbond_fencing", .fin 80)]
    multipliers := {
      height := [("1.8m", 1)]
      access := [("easy", 1)]
      ground := [("unknown", 1)] }
    range := { low_factor := double (9 / 10), high_factor := double (12 / 10) } }
  lead_filtering := {
    rules := [
      ⟨"min_job_value", "That job is below our minimum."⟩,
      ⟨"tight_access_min", "Access is too tight for that budget."⟩] }

/-- A lead whose service name carries a leading blank. -/
def paddedLead : Lead :=
  ⟨" colorbond_fencing", .fin 5000, .fin 20, "1.8m", "easy", "unknown", false⟩

/-- A lead whose access is written in capitals. -/
def capitalAccessLead : Lead :=
  ⟨"colorbond_fencing", .fin 2000, .fin 20, "1.8m", "TIGHT", "unknown", false⟩

/-- The lead of scenario A: colorbond fencing, 20 metres, 1.8m, easy access. -/
def scenarioALead : Lead :=
  ⟨"colorbond_fencing", .fin 1500, .fin 20, "1.8m", "easy", "unknown", false⟩

/-- The text of scenario A. -/
def scenarioAText : String := "Need colorbond fencing, 20m, 1.8m height, easy access"

/-- The text of scenario B. -/
def scenarioBText : String := "fence quote, tight access, no budget mentioned"

/-- The scenario configuration with `minimum_job_value` set to `0`. -/
def zeroMinimumCore : Core :=
  { scenarioCore with
    business_rules := { scenarioCore.business_rules with minimum_job_value := 0 } }

/-- A text with no `$`, no `budget`, no `k` and no `grand`. -/
def plainText : String := "timber fence, 20m"

/-- A text with a `$` and the word `budget` from which no amount parses. -/
def noAmountText : String := "colorbond fence 20m, $x budget 2kg"

/-- The scenario configuration with the message of rule `tight_access_min`
left empty. -/
def emptyMessageCore : Core :=
  { scenarioCore with
    lead_filtering := {
      rules := [
        ⟨"min_job_value", "That job is below our minimum."⟩,
        ⟨"tight_access_min", ""⟩] } }

/-- A lead below the minimum job value of the scenario configuration. -/
def smallLead : Lead :=
  ⟨"colorbond_fencing", .fin 1000, .fin 20, "1.8m", "easy", "unknown", false⟩

/-- A tight-access lead between the two minimums of the scenario
configuration. -/
def tightLead : Lead :=
  ⟨"colorbond_fencing", .fin 2000, .fin 20, "1.8m", "tight", "unknown", false⟩

/-- The lead of scenario A with a budget of 5000. -/
def largerBudgetLead : Lead :=
  ⟨"colorbond_fencing", .fin 5000, .fin 20, "1.8m", "easy", "unknown", false⟩

/-- The keyword groups of service detection in their fixed order, each with
the category it stands for; the generic `fence`/`fencing` group comes last and
stands for colorbond fencing. -/
def serviceGroups : List (List String × String) := [
  (["pressure", "wash"], "pressure_washing"),
  (["retaining", "sleeper"], "retaining_walls"),
  (["excav", "digger", "bobcat"], "excavation"),
  (["landscap", "turf", "garden"], "landscaping"),
  (["colorbond", "colourbond"], "colorbond_fencing"),
  (["aluminium", "aluminum", "pool fence"], "aluminium_fencing"),
  (["timber", "paling", "pailing"], "timber_fencing"),
  (["fence", "fencing"], "colorbond_fencing")]

/-- A keyword of the group occurs in the text `t`. -/
def groupOccurs (t : String) (g : List String × String) : Bool :=
  g.1.any fun k => jsIncludes t k

/-- A text with keywords of three groups: excavation, landscaping, fencing. -/
def mixedServiceText : String := "Timber FENCE around the garden, bobcat needed"

/-- The character in front of a position of the text: the last character of
the part `pre` before the position, or `prev` when that part is empty. -/
def charBefore (prev : Option Char) (pre : List Char) : Option Char :=
  match pre.getLast? with
  | some c => some c
  | none => prev

/-- The four height tokens. -/
def heightTokens : List (List Char) := ["1.2".data, "1.5".data, "1.8".data, "2.1".data]

/-- A height token stands at the head of `suf` as a measure of its own: no
word character precedes it, and white space (possibly none) and an `m` follow,
with no word character after that `m`. -/
def HeightTokenAt (prev : Option Char) (suf tok : List Char) : Prop :=
  tok ∈ heightTokens ∧ (∀ c, prev = some c → isWordChar c = false) ∧
  ∃ ws post, suf = tok ++ ws ++ 'm' :: post ∧ (∀ c ∈ ws, isJsSpace c = true) ∧
    (∀ c, post.head? = some c → isWordChar c = false)

/-- A text in which the token `1.5` is followed by the `m` of `metres`. -/
def metresHeightText : String := "timber fence 1.5metres high"

/-- A text in which the token `1.2` is the tail of the number `11.2`. -/
def longNumberText : String := "fence run of 11.2m"

/-- The scenario configuration with a height factor of 1.1 for `1.8m`. -/
def heightFactorCore : Core :=
  { scenarioCore with
    pricing_engine := { scenarioCore.pricing_engine with
      multipliers := { scenarioCore.pricing_engine.multipliers with
        height := [("1.2m", double (9 / 10)), ("1.8m", double (11 / 10))] } } }

/-- The lead of scenario A with an empty (or missing) height. -/
def noHeightLead : Lead :=
  ⟨"colorbond_fencing", .fin 1500, .fin 20, "", "easy", "unknown", false⟩

/-- The lead of scenario A with a height that is no number and has no unit. -/
def wordHeightLead : Lead :=
  ⟨"colorbond_fencing", .fin 1500, .fin 20, "tall", "easy", "unknown", false⟩

/-- A character that lower-casing leaves alone and that is no white space. -/
def isPlainChar (c : Char) : Bool := c.toLower == c && !isJsSpace c

/-- The outcome of reading a literal that starts with a digit: `NaN`, or a
number that is not negative. -/
def JsNumber.nanOrNonneg : JsNumber → Prop
  | .fin q => 0 ≤ q
  | .nan => True
  | .posInf => True
  | .negInf => False

/-- A number that is not `NaN` and not negative: a finite number from `0` up,
or `+Infinity`. -/
def JsNumber.nonNegative : JsNumber → Prop
  | .fin q => 0 ≤ q
  | .posInf => True
  | _ => False

/-- A text with a quantity above `1e6` and a budget above `1e9`. -/
def hugeText : String := "colorbond fence 5000000m, budget $20,000,000,000"

/-- The scenario configuration with a negative `minimum_job_value`. -/
def negativeMinimumCore : Core :=
  { scenarioCore with
    business_rules := { scenarioCore.business_rules with minimum_job_value := -100 } }

/-- `Math.round(n / 10) * 10` in exact arithmetic: the value `round10` has when
no step of it rounds. -/
def exactRound10 (n : ℚ) : ℤ := mathRound (n / 10) * 10

/-- A lead of 37.5 metres of colorbond fencing in the wet season. -/
def wetSeasonLead : Lead :=
  ⟨"colorbond_fencing", .fin 5000, .fin (75 / 2), "1.8m", "easy", "unknown", true⟩

/-- The lead as an input object: every text field a string, the quantity a
number, the season flag a boolean. -/
def Lead.toInput (lead : Lead) : Input :=
  ⟨.str lead.service, .num lead.qty, .str lead.height, .str lead.access, .str lead.ground,
    .bool lead.wet_season⟩

/-- The input of the comment in `normalizeHeight` ("Allow numeric like 1.8"):
colorbond fencing, 20 metres, the height given as the number `1.8`, the other
fields missing. -/
def numericHeightInput : Input :=
  ⟨.str "colorbond_fencing", .num (.fin 20), .num (.fin (double (18 / 10))), .undefined,
    .undefined, .undefined⟩

/-- The scenario configuration with a base rate of 100000000001 for colorbond
fencing. -/
def bigRateCore : Core :=
  { scenarioCore with
    pricing_engine := { scenarioCore.pricing_engine with
      base_rates := [("colorbond_fencing", .fin 100000000001)] } }

/-- A lead of 333333 metres of colorbond fencing. -/
def bigQuantityLead : Lead :=
  ⟨"colorbond_fencing", .fin 5000, .fin 333333, "1.8m", "easy", "unknown", false⟩

/-- The binary64 number `1e308`. -/
def hugeRate : ℚ := double (10 ^ 308)

/-- The scenario configuration with a base rate of `1e308` for colorbond
fencing and the range factors 0 and 1.2. -/
def overflowCore : Core :=
  { scenarioCore with
    pricing_engine := { scenarioCore.pricing_engine with
      base_rates := [("colorbond_fencing", .fin hugeRate)]
      range := { low_factor := 0, high_factor := double (12 / 10) } } }

/-- A lead of a million metres of colorbond fencing. -/
def maxQuantityLead : Lead :=
  ⟨"colorbond_fencing", .fin 5000, .fin 1000000, "1.8m", "easy", "unknown", false⟩

/-- The scenario configuration with `deposit_percentage_default` set to
`0.35`. -/
def depositCore : Core :=
  { scenarioCore with
    business_rules := { scenarioCore.business_rules with
      deposit_percentage_default := .fin (double (35 / 100)) } }

/-- A text whose quantity and whose budget are runs of 310 digits. -/
def longDigitsText : String :=
  "fence " ++ ⟨List.replicate 310 '9'⟩ ++ "m, $" ++ ⟨List.replicate 310 '9'⟩

/-! ## Theorems -/

/-! ### Rounding to binary64 -/

/-- With enough fuel, `bitLength` is the number of binary digits of `n > 0`:
`2^(b-1) ≤ n < 2^b`. -/
theorem bitLength_spec (fuel n : ℕ) (hf : n ≤ fuel) (hn : 0 < n) :
    2 ^ (bitLength fuel n - 1) ≤ n ∧ n < 2 ^ bitLength fuel n ∧ 0 < bitLength fuel n := by
  induction fuel generalizing n with
  | zero => omega
  | succ fuel ih =>
    have hne : n ≠ 0 := by omega
    simp only [bitLength, if_neg hne]
    by_cases h1 : n = 1
    · subst h1
      cases fuel <;> simp [bitLength]
    · have h2 : 0 < n / 2 := Nat.div_pos (by omega) (by norm_num)
      have h3 : n / 2 ≤ fuel := by omega
      obtain ⟨a, b, c⟩ := ih (n / 2) h3 h2
      refine ⟨?_, ?_, by omega⟩
      · rw [Nat.add_sub_cancel]
        have : 2 ^ bitLength fuel (n / 2) = 2 ^ (bitLength fuel (n / 2) - 1) * 2 := by
          rw [← pow_succ]; congr 1; omega
        omega
      · rw [pow_succ]; omega

/-- The function `pow2` is the integer power of 2. -/
theorem pow2_eq_zpow (e : ℤ) : pow2 e = (2 : ℚ) ^ e := by
  unfold pow2
  split_ifs with h
  · obtain ⟨n, rfl⟩ := Int.eq_ofNat_of_zero_le h
    simp
  · obtain ⟨n, hn⟩ : ∃ n : ℕ, e = -(n : ℤ) := ⟨(-e).toNat, by
      rw [Int.toNat_of_nonneg (by omega)]; ring⟩
    subst hn
    simp [zpow_neg]

/-- A power of 2 is positive. -/
theorem pow2_pos (e : ℤ) : 0 < pow2 e := by
  rw [pow2_eq_zpow]; positivity

/-- Powers of 2 multiply by adding exponents. -/
theorem pow2_add (a b : ℤ) : pow2 (a + b) = pow2 a * pow2 b := by
  simp only [pow2_eq_zpow]
  exact zpow_add₀ (by norm_num) a b

/-- The powers of 2 increase with the exponent. -/
theorem pow2_le_pow2 {a b : ℤ} (h : a ≤ b) : pow2 a ≤ pow2 b := by
  simp only [pow2_eq_zpow]
  exact zpow_le_zpow_right₀ (by norm_num) h

/-- The powers of 2 increase strictly with the exponent. -/
theorem pow2_lt_pow2 {a b : ℤ} (h : a < b) : pow2 a < pow2 b := by
  simp only [pow2_eq_zpow]
  exact zpow_lt_zpow_right₀ (by norm_num) h

/-- Powers of 2 compare as their exponents do. -/
theorem pow2_lt_pow2_iff {a b : ℤ} : pow2 a < pow2 b ↔ a < b := by
  constructor
  · intro h
    by_contra hc
    exact absurd (pow2_le_pow2 (not_lt.mp hc)) (not_le.mpr h)
  · exact pow2_lt_pow2

/-- The next power of 2 is twice the power. -/
theorem pow2_succ (a : ℤ) : pow2 (a + 1) = 2 * pow2 a := by
  rw [pow2_add, mul_comm]
  congr 1

/-- A power of 2 with a natural exponent. -/
theorem pow2_natCast (n : ℕ) : pow2 (n : ℤ) = (2 : ℚ) ^ n := by
  rw [pow2_eq_zpow]; simp

/-- The binary exponent brackets a positive number. -/
theorem ilog2_spec (a : ℚ) (ha : 0 < a) : pow2 (ilog2 a) ≤ a ∧ a < pow2 (ilog2 a + 1) := by
  have hnum : 0 < a.num := Rat.num_pos.mpr ha
  set N := a.num.natAbs with hN
  set D := a.den with hD
  have hNpos : N ≠ 0 := by
    rw [hN]; intro h; rw [Int.natAbs_eq_zero] at h; omega
  have hDpos : D ≠ 0 := a.den_nz
  have ha_eq : a = (N : ℚ) / (D : ℚ) := by
    have h1 : (a.num : ℚ) = (N : ℚ) := by
      have : (a.num : ℤ) = (N : ℤ) := by rw [hN]; exact (Int.natAbs_of_nonneg hnum.le).symm
      exact_mod_cast this
    rw [← h1]
    exact (Rat.num_div_den a).symm
  obtain ⟨hN1', hN2', hN3⟩ := bitLength_spec N N le_rfl (Nat.pos_of_ne_zero hNpos)
  obtain ⟨hD1', hD2', hD3⟩ := bitLength_spec D D le_rfl (Nat.pos_of_ne_zero hDpos)
  obtain ⟨n, hn⟩ : ∃ n, bitLength N N = n + 1 := ⟨bitLength N N - 1, by omega⟩
  obtain ⟨d, hd⟩ : ∃ d, bitLength D D = d + 1 := ⟨bitLength D D - 1, by omega⟩
  have hN1 : 2 ^ n ≤ N := by rw [hn] at hN1'; simpa using hN1'
  have hN2 : N < 2 ^ (n + 1) := by rw [hn] at hN2'; exact hN2'
  have hD1 : 2 ^ d ≤ D := by rw [hd] at hD1'; simpa using hD1'
  have hD2 : D < 2 ^ (d + 1) := by rw [hd] at hD2'; exact hD2'
  have hk : ((bitLength N N : ℕ) : ℤ) - ((bitLength D D : ℕ) : ℤ) = (n : ℤ) - d := by
    rw [hn, hd]; push_cast; ring
  have hDq : (0 : ℚ) < D := by exact_mod_cast Nat.pos_of_ne_zero hDpos
  have hN1q : (2 : ℚ) ^ n ≤ N := by exact_mod_cast hN1
  have hN2q : (N : ℚ) < 2 ^ (n + 1) := by exact_mod_cast hN2
  have hD1q : (2 : ℚ) ^ d ≤ D := by exact_mod_cast hD1
  have hD2q : (D : ℚ) < 2 ^ (d + 1) := by exact_mod_cast hD2
  have hpd : (0 : ℚ) < 2 ^ d := by positivity
  -- the two outer bounds
  have hk_hi : a < pow2 ((n : ℤ) - d + 1) := by
    have : pow2 ((n : ℤ) - d + 1) = (2 : ℚ) ^ (n + 1) / 2 ^ d := by
      rw [pow2_eq_zpow, show ((n : ℤ) - d + 1) = ((n + 1 : ℕ) : ℤ) - (d : ℕ) by push_cast; ring,
        zpow_sub₀ (by norm_num), zpow_natCast, zpow_natCast]
    rw [this, ha_eq, div_lt_div_iff hDq hpd]
    calc (N : ℚ) * 2 ^ d ≤ N * D := by gcongr
      _ < 2 ^ (n + 1) * D := by gcongr
  have hk_lo : pow2 ((n : ℤ) - d - 1) < a := by
    have : pow2 ((n : ℤ) - d - 1) = (2 : ℚ) ^ n / 2 ^ (d + 1) := by
      rw [pow2_eq_zpow, show ((n : ℤ) - d - 1) = ((n : ℕ) : ℤ) - ((d + 1 : ℕ) : ℤ) by push_cast; ring,
        zpow_sub₀ (by norm_num), zpow_natCast, zpow_natCast]
    rw [this, ha_eq, div_lt_div_iff (by positivity) hDq]
    calc (2 : ℚ) ^ n * D < 2 ^ n * 2 ^ (d + 1) := by gcongr
      _ ≤ N * 2 ^ (d + 1) := by gcongr
  have hil : ilog2 a = if a < pow2 ((n : ℤ) - d) then (n : ℤ) - d - 1 else (n : ℤ) - d := by
    unfold ilog2
    simp only
    rw [← hN, ← hD, hk]
  rw [hil]
  split_ifs with h
  · refine ⟨hk_lo.le, ?_⟩
    rwa [show (n : ℤ) - d - 1 + 1 = (n : ℤ) - d by ring]
  · exact ⟨not_lt.mp h, hk_hi⟩

/-- The binary exponent is determined by the bracket. -/
theorem ilog2_unique (a : ℚ) (e : ℤ) (h1 : pow2 e ≤ a) (h2 : a < pow2 (e + 1)) :
    ilog2 a = e := by
  have ha : 0 < a := lt_of_lt_of_le (pow2_pos e) h1
  obtain ⟨s1, s2⟩ := ilog2_spec a ha
  have hA : ilog2 a < e + 1 := pow2_lt_pow2_iff.mp (lt_of_le_of_lt s1 h2)
  have hB : e < ilog2 a + 1 := pow2_lt_pow2_iff.mp (lt_of_le_of_lt h1 s2)
  omega

/-- The binary exponent is monotone. -/
theorem ilog2_mono (a b : ℚ) (ha : 0 < a) (hab : a ≤ b) : ilog2 a ≤ ilog2 b := by
  obtain ⟨s1, _⟩ := ilog2_spec a ha
  obtain ⟨_, t2⟩ := ilog2_spec b (lt_of_lt_of_le ha hab)
  have : ilog2 a < ilog2 b + 1 := pow2_lt_pow2_iff.mp (lt_of_le_of_lt (s1.trans hab) t2)
  omega

/-- A positive number below `2^k` has a binary exponent below `k`. -/
theorem ilog2_lt_of_lt (a : ℚ) (k : ℤ) (ha : 0 < a) (h : a < pow2 k) : ilog2 a < k :=
  pow2_lt_pow2_iff.mp (lt_of_le_of_lt (ilog2_spec a ha).1 h)

/-- A number from `2^k` up has a binary exponent from `k` up. -/
theorem le_ilog2_of_le (a : ℚ) (k : ℤ) (h : pow2 k ≤ a) : k ≤ ilog2 a := by
  have ha : 0 < a := lt_of_lt_of_le (pow2_pos k) h
  have := pow2_lt_pow2_iff.mp (lt_of_le_of_lt h (ilog2_spec a ha).2)
  omega

/-- Rounding an integer leaves it as it is. -/
theorem roundHalfEven_intCast (n : ℤ) : roundHalfEven (n : ℚ) = n := by
  simp [roundHalfEven]

/-- Rounding to the nearest integer gives the floor or the floor plus one, the
first only when the fractional part is at most a half, the second only when it
is at least a half. -/
theorem roundHalfEven_cases (m : ℚ) :
    (roundHalfEven m = ⌊m⌋ ∧ m - ⌊m⌋ ≤ 1 / 2) ∨ (roundHalfEven m = ⌊m⌋ + 1 ∧ 1 / 2 ≤ m - ⌊m⌋) := by
  unfold roundHalfEven
  simp only
  split_ifs with h1 h2 h3
  · exact Or.inl ⟨rfl, h1.le⟩
  · exact Or.inr ⟨rfl, h2.le⟩
  · exact Or.inl ⟨rfl, not_lt.mp h2⟩
  · exact Or.inr ⟨rfl, not_lt.mp h1⟩

/-- Rounding to the nearest integer moves a value by a half at most. -/
theorem roundHalfEven_error (m : ℚ) : |(roundHalfEven m : ℚ) - m| ≤ 1 / 2 := by
  have h0 := Int.floor_le m
  have h1 := Int.lt_floor_add_one m
  rcases roundHalfEven_cases m with ⟨h, hr⟩ | ⟨h, hr⟩
  · rw [h, abs_le]; constructor <;> linarith
  · rw [h, abs_le]; push_cast; constructor <;> linarith

/-- Rounding to the nearest integer, ties to even, is monotone. -/
theorem roundHalfEven_mono {a b : ℚ} (h : a ≤ b) : roundHalfEven a ≤ roundHalfEven b := by
  have hf : ⌊a⌋ ≤ ⌊b⌋ := Int.floor_le_floor h
  rcases lt_or_eq_of_le hf with hlt | heq
  · have ha : roundHalfEven a ≤ ⌊a⌋ + 1 := by
      rcases roundHalfEven_cases a with ⟨h, _⟩ | ⟨h, _⟩ <;> omega
    have hb : ⌊b⌋ ≤ roundHalfEven b := by
      rcases roundHalfEven_cases b with ⟨h, _⟩ | ⟨h, _⟩ <;> omega
    omega
  · unfold roundHalfEven
    simp only
    rw [← heq]
    have hr : a - ⌊a⌋ ≤ b - ⌊a⌋ := by linarith
    split_ifs <;> first | omega | (exfalso; linarith)

/-- Rounding a non-negative value gives a non-negative integer. -/
theorem roundHalfEven_nonneg {m : ℚ} (h : 0 ≤ m) : 0 ≤ roundHalfEven m := by
  have := roundHalfEven_mono h
  rwa [show (0 : ℚ) = ((0 : ℤ) : ℚ) by simp, roundHalfEven_intCast] at this

/-- Zero is a binary64 number. -/
theorem roundQ_zero : roundQ 0 = 0 := by simp [roundQ]

/-- Rounding a positive value: the nearest multiple of the spacing. -/
theorem roundQ_of_pos (x : ℚ) (hx : 0 < x) :
    roundQ x = (roundHalfEven (x / pow2 (quantumExp x)) : ℚ) * pow2 (quantumExp x) := by
  unfold roundQ
  simp only [if_neg hx.ne', abs_of_pos hx, if_neg (not_lt.mpr hx.le)]

/-- Rounding to binary64 is an odd function. -/
theorem roundQ_neg (x : ℚ) : roundQ (-x) = -roundQ x := by
  rcases lt_trichotomy x 0 with h | h | h
  · unfold roundQ
    simp only [neg_eq_zero, if_neg h.ne, abs_neg, if_pos h, neg_neg,
      if_neg (not_lt.mpr (neg_nonneg.mpr h.le))]
  · subst h; simp [roundQ]
  · unfold roundQ
    simp only [neg_eq_zero, if_neg h.ne', abs_neg, if_neg (not_lt.mpr h.le),
      if_pos (neg_lt_zero.mpr h)]

/-- Rounding to binary64 keeps a non-negative value non-negative. -/
theorem roundQ_nonneg {x : ℚ} (hx : 0 ≤ x) : 0 ≤ roundQ x := by
  rcases eq_or_lt_of_le hx with h | h
  · subst h; simp [roundQ]
  · rw [roundQ_of_pos x h]
    have h1 : (0 : ℚ) ≤ x / pow2 (quantumExp x) := div_nonneg hx (pow2_pos _).le
    have h2 := roundHalfEven_nonneg h1
    have h3 : (0 : ℚ) ≤ (roundHalfEven (x / pow2 (quantumExp x)) : ℚ) := by exact_mod_cast h2
    exact mul_nonneg h3 (pow2_pos _).le

/-- Rounding to binary64 commutes with the absolute value. -/
theorem roundQ_abs (x : ℚ) : |roundQ x| = roundQ |x| := by
  rcases le_total 0 x with h | h
  · rw [abs_of_nonneg h, abs_of_nonneg (roundQ_nonneg h)]
  · rw [abs_of_nonpos h, roundQ_neg, abs_of_nonpos]
    have := roundQ_nonneg (neg_nonneg.mpr h)
    rw [roundQ_neg] at this
    linarith

/-- The rounding error is at most half the spacing. -/
theorem roundQ_error (x : ℚ) : |roundQ x - x| ≤ pow2 (quantumExp |x|) / 2 := by
  have key : ∀ y : ℚ, 0 < y → |roundQ y - y| ≤ pow2 (quantumExp y) / 2 := by
    intro y hy
    rw [roundQ_of_pos y hy]
    have hq := pow2_pos (quantumExp y)
    have he := roundHalfEven_error (y / pow2 (quantumExp y))
    have : (roundHalfEven (y / pow2 (quantumExp y)) : ℚ) * pow2 (quantumExp y) - y =
        ((roundHalfEven (y / pow2 (quantumExp y)) : ℚ) - y / pow2 (quantumExp y)) *
          pow2 (quantumExp y) := by
      field_simp
    rw [this, abs_mul, abs_of_pos hq]
    calc _ ≤ 1 / 2 * pow2 (quantumExp y) := by gcongr
      _ = _ := by ring
  rcases lt_trichotomy x 0 with h | h | h
  · have := key (-x) (neg_pos.mpr h)
    rw [roundQ_neg] at this
    rw [abs_of_neg h]
    rwa [show -roundQ x - -x = -(roundQ x - x) by ring, abs_neg] at this
  · subst h
    simp only [roundQ_zero, sub_zero, abs_zero]
    exact div_nonneg (pow2_pos _).le (by norm_num)
  · rw [abs_of_pos h]; exact key x h

/-- Below `2^(e+53)`, with `e` no less than `-1074`, the spacing of the binary64
numbers is `2^e` at most. -/
theorem quantumExp_le (a : ℚ) (e : ℤ) (ha : 0 < a) (h : a < pow2 (e + 53)) (he : -1074 ≤ e) :
    quantumExp a ≤ e := by
  have := ilog2_lt_of_lt a _ ha h
  unfold quantumExp
  omega

/-- The spacing of the binary64 numbers is `2^-1074` at least. -/
theorem quantumExp_ge (a : ℚ) : -1074 ≤ quantumExp a := by
  unfold quantumExp; omega

/-- A positive multiple of `2^e`, with `2^e` no finer than the spacing at that
value, is a binary64 number. -/
theorem roundQ_exact_aux (x : ℚ) (n : ℤ) (e : ℤ) (hx : 0 < x) (hn : x = n * pow2 e)
    (he : quantumExp x ≤ e) : roundQ x = x := by
  rw [roundQ_of_pos x hx]
  obtain ⟨k, hk⟩ : ∃ k : ℕ, e = quantumExp x + k := ⟨(e - quantumExp x).toNat, by
    rw [Int.toNat_of_nonneg (by omega)]; ring⟩
  have hq := pow2_pos (quantumExp x)
  have hx2 : x = ((n * 2 ^ k : ℤ) : ℚ) * pow2 (quantumExp x) := by
    have hp : pow2 e = pow2 (quantumExp x) * 2 ^ k := by rw [hk, pow2_add, pow2_natCast]
    calc x = n * pow2 e := hn
      _ = _ := by rw [hp]; push_cast; ring
  have h1 : x / pow2 (quantumExp x) = ((n * 2 ^ k : ℤ) : ℚ) := (div_eq_iff hq.ne').mpr hx2
  rw [h1, roundHalfEven_intCast]
  exact hx2.symm

/-- A number `n * 2^e` with `|n| ≤ 2^53` and `e ≥ -1074` is a binary64 number:
rounding leaves it as it is. -/
theorem roundQ_exact (x : ℚ) (n : ℤ) (e : ℤ) (hn : x = n * pow2 e) (hb : |n| ≤ 2 ^ 53)
    (he : -1074 ≤ e) : roundQ x = x := by
  have key : ∀ (y : ℚ) (m : ℤ), 0 < y → y = m * pow2 e → m ≤ 2 ^ 53 → roundQ y = y := by
    intro y m hy hm hle
    rcases lt_or_eq_of_le hle with hlt | heq
    · apply roundQ_exact_aux y m e hy hm
      apply quantumExp_le y e hy _ he
      rw [hm, add_comm, pow2_add]
      have : ((m : ℤ) : ℚ) < pow2 53 := by
        rw [pow2_eq_zpow]; exact_mod_cast hlt
      exact mul_lt_mul_of_pos_right this (pow2_pos e)
    · apply roundQ_exact_aux y (2 ^ 52) (e + 1) hy
      · rw [hm, heq, pow2_succ]; push_cast; ring
      · apply quantumExp_le y (e + 1) hy _ (by omega)
        rw [hm, heq, show e + 1 + 53 = 54 + e by ring, pow2_add]
        have : (((2 ^ 53 : ℤ) : ℤ) : ℚ) < pow2 54 := by
          rw [pow2_eq_zpow]; norm_num
        exact mul_lt_mul_of_pos_right this (pow2_pos e)
  rcases lt_trichotomy x 0 with h | h | h
  · have hneg : -x = (-n : ℤ) * pow2 e := by rw [hn]; push_cast; ring
    have hnle : -n ≤ 2 ^ 53 := (neg_le_abs n).trans hb
    have := key (-x) (-n) (neg_pos.mpr h) hneg hnle
    rw [roundQ_neg] at this
    linarith
  · subst h; exact roundQ_zero
  · exact key x n h hn ((le_abs_self n).trans hb)

/-- An integer of magnitude up to `2^53` is a binary64 number. -/
theorem roundQ_intCast (n : ℤ) (hb : |n| ≤ 2 ^ 53) : roundQ (n : ℚ) = n := by
  apply roundQ_exact (n : ℚ) n 0 _ hb (by norm_num)
  simp [pow2]

/-- The spacing of the binary64 numbers grows with the magnitude. -/
theorem quantumExp_mono (a b : ℚ) (ha : 0 < a) (hab : a ≤ b) : quantumExp a ≤ quantumExp b := by
  have := ilog2_mono a b ha hab
  unfold quantumExp
  omega

/-- In units of the spacing, a positive value is below `2^53`. -/
theorem scaled_lt (x : ℚ) (hx : 0 < x) : x / pow2 (quantumExp x) < 2 ^ 53 := by
  have hq := pow2_pos (quantumExp x)
  rw [div_lt_iff hq]
  have h1 := (ilog2_spec x hx).2
  have h2 : pow2 (ilog2 x + 1) ≤ pow2 (quantumExp x + 53) := by
    apply pow2_le_pow2; unfold quantumExp; omega
  have h3 : pow2 (quantumExp x + 53) = 2 ^ 53 * pow2 (quantumExp x) := by
    rw [add_comm, pow2_add, show ((53 : ℤ)) = ((53 : ℕ) : ℤ) by rfl, pow2_natCast]
  linarith

/-- In units of the spacing, a positive value in the normal range is `2^52` at
least. -/
theorem scaled_ge (x : ℚ) (hx : 0 < x) (hn : -1022 ≤ ilog2 x) :
    2 ^ 52 ≤ x / pow2 (quantumExp x) := by
  have hq := pow2_pos (quantumExp x)
  rw [le_div_iff hq]
  have h1 := (ilog2_spec x hx).1
  have h2 : pow2 (ilog2 x) = 2 ^ 52 * pow2 (quantumExp x) := by
    have : ilog2 x = 52 + quantumExp x := by unfold quantumExp; omega
    rw [this, pow2_add, show ((52 : ℤ)) = ((52 : ℕ) : ℤ) by rfl, pow2_natCast]
  linarith

/-- The significand of a rounded positive value is `2^53` at most. -/
theorem roundHalfEven_scaled_le (x : ℚ) (hx : 0 < x) :
    roundHalfEven (x / pow2 (quantumExp x)) ≤ 2 ^ 53 := by
  have h := roundHalfEven_mono (scaled_lt x hx).le
  rwa [show ((2 : ℚ) ^ 53) = (((2 ^ 53 : ℤ) : ℤ) : ℚ) by norm_num, roundHalfEven_intCast] at h

/-- The significand of a rounded positive value in the normal range is `2^52`
at least. -/
theorem roundHalfEven_scaled_ge (x : ℚ) (hx : 0 < x) (hn : -1022 ≤ ilog2 x) :
    2 ^ 52 ≤ roundHalfEven (x / pow2 (quantumExp x)) := by
  have h := roundHalfEven_mono (scaled_ge x hx hn)
  rwa [show ((2 : ℚ) ^ 52) = (((2 ^ 52 : ℤ) : ℤ) : ℚ) by norm_num, roundHalfEven_intCast] at h

/-- Rounding a positive value does not pass the next power of 2. -/
theorem roundQ_le_pow2 (x : ℚ) (hx : 0 < x) : roundQ x ≤ pow2 (quantumExp x + 53) := by
  rw [roundQ_of_pos x hx, add_comm, pow2_add, show ((53 : ℤ)) = ((53 : ℕ) : ℤ) by rfl,
    pow2_natCast]
  have h : ((roundHalfEven (x / pow2 (quantumExp x)) : ℤ) : ℚ) ≤ 2 ^ 53 := by
    exact_mod_cast roundHalfEven_scaled_le x hx
  exact mul_le_mul_of_nonneg_right h (pow2_pos _).le

/-- Rounding a positive value in the normal range does not go below the power
of 2 under it. -/
theorem pow2_le_roundQ (x : ℚ) (hx : 0 < x) (hn : -1022 ≤ ilog2 x) :
    pow2 (ilog2 x) ≤ roundQ x := by
  have h2 : pow2 (ilog2 x) = 2 ^ 52 * pow2 (quantumExp x) := by
    have : ilog2 x = 52 + quantumExp x := by unfold quantumExp; omega
    rw [this, pow2_add, show ((52 : ℤ)) = ((52 : ℕ) : ℤ) by rfl, pow2_natCast]
  rw [roundQ_of_pos x hx, h2]
  have h : (2 : ℚ) ^ 52 ≤ ((roundHalfEven (x / pow2 (quantumExp x)) : ℤ) : ℚ) := by
    exact_mod_cast roundHalfEven_scaled_ge x hx hn
  exact mul_le_mul_of_nonneg_right h (pow2_pos _).le

/-- A rounded value is a 53-bit integer times a power of two. -/
theorem roundQ_form (x : ℚ) :
    ∃ n : ℤ, roundQ x = n * pow2 (quantumExp |x|) ∧ |n| ≤ 2 ^ 53 := by
  rcases lt_trichotomy x 0 with h | h | h
  · refine ⟨-roundHalfEven (-x / pow2 (quantumExp (-x))), ?_, ?_⟩
    · have := roundQ_of_pos (-x) (neg_pos.mpr h)
      rw [roundQ_neg] at this
      rw [abs_of_neg h]; push_cast; linarith
    · rw [abs_neg, abs_of_nonneg (roundHalfEven_nonneg
        (div_nonneg (neg_pos.mpr h).le (pow2_pos _).le))]
      exact roundHalfEven_scaled_le (-x) (neg_pos.mpr h)
  · subst h; exact ⟨0, by simp [roundQ_zero], by simp⟩
  · refine ⟨roundHalfEven (x / pow2 (quantumExp x)), ?_, ?_⟩
    · rw [abs_of_pos h]; exact roundQ_of_pos x h
    · rw [abs_of_nonneg (roundHalfEven_nonneg (div_nonneg h.le (pow2_pos _).le))]
      exact roundHalfEven_scaled_le x h

/-- Rounding a rounded value changes nothing. -/
theorem roundQ_idem (x : ℚ) : roundQ (roundQ x) = roundQ x := by
  obtain ⟨n, hn, hb⟩ := roundQ_form x
  exact roundQ_exact (roundQ x) n _ hn hb (quantumExp_ge _)

/-- Rounding to binary64 is monotone on positive values. -/
theorem roundQ_mono_pos {x y : ℚ} (hx : 0 < x) (h : x ≤ y) : roundQ x ≤ roundQ y := by
  have hy : 0 < y := lt_of_lt_of_le hx h
  have hE := quantumExp_mono x y hx h
  rcases lt_or_eq_of_le hE with hlt | heq
  · have hn : -1022 ≤ ilog2 y := by
      have := quantumExp_ge x
      unfold quantumExp at hlt this
      omega
    have h1 := roundQ_le_pow2 x hx
    have h2 := pow2_le_roundQ y hy hn
    have h3 : pow2 (quantumExp x + 53) ≤ pow2 (ilog2 y) := by
      apply pow2_le_pow2
      unfold quantumExp at hlt ⊢
      omega
    linarith
  · rw [roundQ_of_pos x hx, roundQ_of_pos y hy, heq]
    have hq := pow2_pos (quantumExp y)
    have h1 : x / pow2 (quantumExp y) ≤ y / pow2 (quantumExp y) :=
      div_le_div_of_nonneg_right h hq.le
    have h2 : ((roundHalfEven (x / pow2 (quantumExp y)) : ℤ) : ℚ) ≤
        ((roundHalfEven (y / pow2 (quantumExp y)) : ℤ) : ℚ) := by
      exact_mod_cast roundHalfEven_mono h1
    exact mul_le_mul_of_nonneg_right h2 hq.le

/-- Rounding to binary64 is monotone. -/
theorem roundQ_mono {x y : ℚ} (h : x ≤ y) : roundQ x ≤ roundQ y := by
  rcases lt_or_le 0 x with hx | hx
  · exact roundQ_mono_pos hx h
  · rcases le_or_lt 0 y with hy | hy
    · have h1 := roundQ_nonneg (neg_nonneg.mpr hx)
      rw [roundQ_neg] at h1
      have h2 := roundQ_nonneg hy
      linarith
    · have := roundQ_mono_pos (neg_pos.mpr hy) (neg_le_neg h)
      rw [roundQ_neg, roundQ_neg] at this
      linarith

/-- The number of a real value, by cases on overflow. -/
theorem roundDouble_def (x : ℚ) :
    roundDouble x = if pow2 1024 ≤ roundQ x then .posInf
      else if roundQ x ≤ -pow2 1024 then .negInf else .fin (roundQ x) := rfl

/-- The number of a real value that rounds below `2^1024` in magnitude is
finite. -/
theorem roundDouble_of_lt (x : ℚ) (h : |roundQ x| < pow2 1024) :
    roundDouble x = .fin (roundQ x) := by
  obtain ⟨h1, h2⟩ := abs_lt.mp h
  rw [roundDouble_def, if_neg (not_le.mpr h2), if_neg (not_le.mpr h1)]

/-- The number of a real value bounded by a binary64 number is finite. -/
theorem roundDouble_of_abs_le (x b : ℚ) (hb : |x| ≤ b) (hexact : roundQ b = b)
    (hlt : b < pow2 1024) : roundDouble x = .fin (roundQ x) := by
  apply roundDouble_of_lt
  rw [roundQ_abs]
  have := roundQ_mono hb
  rw [hexact] at this
  exact lt_of_le_of_lt this hlt

/-- Rounding a real value never gives `NaN`. -/
theorem roundDouble_ne_nan (x : ℚ) : roundDouble x ≠ .nan := by
  rw [roundDouble_def]
  split_ifs <;> exact fun h => JsNumber.noConfusion h

/-- A finite rounded value is the nearest binary64 number and lies below
`2^1024` in magnitude. -/
theorem roundDouble_eq_fin (x r : ℚ) (h : roundDouble x = .fin r) :
    r = roundQ x ∧ |r| < pow2 1024 := by
  rw [roundDouble_def] at h
  split_ifs at h with h1 h2
  injection h with h
  subst h
  exact ⟨rfl, abs_lt.mpr ⟨not_le.mp h2, not_le.mp h1⟩⟩

/-- Rounding to a number is monotone in the order of numbers. -/
theorem roundDouble_mono {x y : ℚ} (h : x ≤ y) : (roundDouble x).le (roundDouble y) := by
  have hm := roundQ_mono h
  have hp := pow2_pos 1024
  rw [roundDouble_def, roundDouble_def]
  generalize pow2 1024 = P at hp ⊢
  split_ifs <;> simp only [JsNumber.le] <;> linarith

/-- Rounding a non-negative real value gives a number that is not negative. -/
theorem roundDouble_nonneg (x : ℚ) (h : 0 ≤ x) : (roundDouble x).nonNegative := by
  have hm := roundQ_nonneg h
  have hp := pow2_pos 1024
  rw [roundDouble_def]
  generalize pow2 1024 = P at hp ⊢
  split_ifs
  · trivial
  · linarith
  · exact hm

/-- The value of `2^53`. -/
theorem pow2_53 : pow2 53 = 9007199254740992 := by
  rw [show ((53 : ℤ)) = ((53 : ℕ) : ℤ) by rfl, pow2_natCast]; norm_num

/-- The power `2^53` is below `2^1024`. -/
theorem pow2_1024_gt : (9007199254740992 : ℚ) < pow2 1024 := by
  rw [← pow2_53]; exact pow2_lt_pow2 (by norm_num)

/-- An integer of magnitude up to `2^53` is a number. -/
theorem roundDouble_intCast (n : ℤ) (hb : |n| ≤ 2 ^ 53) : roundDouble (n : ℚ) = .fin n := by
  have he := roundQ_intCast n hb
  rw [roundDouble_of_lt, he]
  rw [he]
  have : |(n : ℚ)| ≤ 9007199254740992 := by
    have : ((|n| : ℤ) : ℚ) ≤ ((2 ^ 53 : ℤ) : ℚ) := by exact_mod_cast hb
    rw [Int.cast_abs] at this
    norm_num at this
    exact this
  exact lt_of_le_of_lt this pow2_1024_gt

/-! ### The rounding `round10` -/

/-- `Math.round(v)` lies within a half of `v`: `-1/2 < mathRound v - v ≤ 1/2`. -/
theorem mathRound_window (v : ℚ) :
    ((mathRound v : ℤ) : ℚ) - v ≤ 1 / 2 ∧ v - ((mathRound v : ℤ) : ℚ) < 1 / 2 := by
  have h1 : ((⌊v + 1 / 2⌋ : ℤ) : ℚ) ≤ v + 1 / 2 := Int.floor_le _
  have h2 : v + 1 / 2 < ((⌊v + 1 / 2⌋ : ℤ) : ℚ) + 1 := Int.lt_floor_add_one _
  simp only [mathRound]
  constructor <;> linarith

/-- `Math.round` of an integer is that integer. -/
theorem mathRound_intCast (m : ℤ) : mathRound (m : ℚ) = m := by
  simp only [mathRound]
  rw [Int.floor_int_add]
  have h0 : ⌊(1 / 2 : ℚ)⌋ = 0 := by
    rw [Int.floor_eq_iff]
    norm_num
  rw [h0, add_zero]

/-- `Math.round` is monotone. -/
theorem mathRound_mono {a b : ℚ} (h : a ≤ b) : mathRound a ≤ mathRound b :=
  Int.floor_le_floor (by linarith)

/-- The value of `2^-1`. -/
theorem pow2_neg_one : pow2 (-1) = 1 / 2 := by
  rw [pow2_eq_zpow]; norm_num

/-- The value of `2^-2`. -/
theorem pow2_neg_two : pow2 (-2) = 1 / 4 := by
  rw [pow2_eq_zpow]; norm_num [zpow_neg]

/-- The value of `2^3`. -/
theorem pow2_three : pow2 3 = 8 := by
  rw [pow2_eq_zpow]; norm_num

/-- For a binary64 number `x` of magnitude above 2 and below `2^53`, the
quotient `x / 10` is rounded by less than its distance from any half-integer
above it. -/
theorem roundQ_div10_lt (x : ℚ) (M : ℤ) (hx : roundQ x = x) (h2 : 2 < |x|)
    (hb : |x| < 9007199254740992) (hM : x / 10 < (M : ℚ) + 1 / 2) :
    roundQ (x / 10) < (M : ℚ) + 1 / 2 := by
  have ha : 0 < |x| := by linarith
  set e := ilog2 |x| with he
  obtain ⟨s1, s2⟩ := ilog2_spec |x| ha
  have he1 : 1 ≤ e := le_ilog2_of_le |x| 1 (by
    rw [show pow2 1 = 2 by rw [pow2_eq_zpow]; norm_num]; exact h2.le)
  have he2 : e < 53 := ilog2_lt_of_lt |x| 53 ha (by rw [pow2_53]; exact hb)
  have hp : quantumExp |x| = e - 52 := by unfold quantumExp; omega
  obtain ⟨k, hk⟩ : ∃ k : ℕ, e - 52 = -(k : ℤ) := ⟨(52 - e).toNat, by
    rw [Int.toNat_of_nonneg (by omega)]; ring⟩
  set q := pow2 (e - 52) with hq
  have hqpos : 0 < q := pow2_pos _
  have hqk : q * 2 ^ k = 1 := by
    rw [hq, hk, pow2_eq_zpow, zpow_neg, zpow_natCast]
    field_simp
  obtain ⟨n, hn, _⟩ := roundQ_form x
  rw [hx, hp] at hn
  -- the distance to the half-integer is a positive multiple of the spacing
  have hd : (10 * M + 5 : ℚ) - x = (((10 * M + 5) * 2 ^ k - n : ℤ) : ℚ) * q := by
    push_cast
    have : (10 * (M : ℚ) + 5) * 2 ^ k * q = 10 * M + 5 := by
      rw [mul_assoc, mul_comm (2 ^ k) q, hqk, mul_one]
    rw [sub_mul, this, ← hn]
  have hdpos : 0 < (10 * M + 5 : ℚ) - x := by linarith
  have hm : (1 : ℤ) ≤ (10 * M + 5) * 2 ^ k - n := by
    by_contra hcon
    have hle : ((10 * M + 5) * 2 ^ k - n : ℤ) ≤ 0 := by omega
    have : (((10 * M + 5) * 2 ^ k - n : ℤ) : ℚ) ≤ 0 := by exact_mod_cast hle
    have := mul_nonpos_of_nonpos_of_nonneg this hqpos.le
    linarith
  have hdq : q ≤ (10 * M + 5 : ℚ) - x := by
    rw [hd]
    have : (1 : ℚ) ≤ (((10 * M + 5) * 2 ^ k - n : ℤ) : ℚ) := by exact_mod_cast hm
    calc q = 1 * q := (one_mul q).symm
      _ ≤ _ := mul_le_mul_of_nonneg_right this hqpos.le
  -- the rounding error of the quotient
  have hta : |x / 10| = |x| / 10 := by rw [abs_div]; norm_num
  have htpos : 0 < |x / 10| := by rw [hta]; linarith
  have htl : |x / 10| < pow2 (e - 2) := by
    have : pow2 (e + 1) = 8 * pow2 (e - 2) := by
      rw [show e + 1 = 3 + (e - 2) by ring, pow2_add, pow2_three]
    rw [hta]
    have hp2 := pow2_pos (e - 2)
    linarith
  have hil : ilog2 |x / 10| < e - 2 := ilog2_lt_of_lt _ _ htpos htl
  have hqe : quantumExp |x / 10| ≤ e - 52 - 3 := by unfold quantumExp; omega
  have herr := roundQ_error (x / 10)
  have hq8 : pow2 (e - 52 - 3) * 8 = q := by
    rw [hq, show e - 52 = (e - 52 - 3) + 3 by ring, pow2_add, pow2_three]
    ring_nf
  have hle := pow2_le_pow2 hqe
  have h1 := (abs_le.mp herr).2
  linarith

/-- For a binary64 number `x` of magnitude up to `2^53`, rounding the quotient
`x / 10` to binary64 does not change what `Math.round` makes of it. -/
theorem mathRound_roundQ_div10 (x : ℚ) (hx : roundQ x = x) (hb : |x| ≤ 9007199254740992) :
    mathRound (roundQ (x / 10)) = mathRound (x / 10) := by
  obtain ⟨w1, w2⟩ := mathRound_window (x / 10)
  set M := mathRound (x / 10) with hM
  obtain ⟨b1, b2⟩ := abs_le.mp hb
  have hMq1 : (M : ℚ) < 900719925474100 := by linarith
  have hMq2 : (-900719925474100 : ℚ) < M := by linarith
  have hM1 : M < 900719925474100 := by exact_mod_cast hMq1
  have hM2 : -900719925474100 < M := by exact_mod_cast hMq2
  -- the lower half-integer is a number, so rounding keeps the quotient above it
  have hlo : (M : ℚ) - 1 / 2 ≤ roundQ (x / 10) := by
    have hex : roundQ ((M : ℚ) - 1 / 2) = (M : ℚ) - 1 / 2 := by
      apply roundQ_exact _ (2 * M - 1) (-1)
      · rw [pow2_neg_one]; push_cast; ring
      · rw [abs_le]; constructor <;> omega
      · norm_num
    have := roundQ_mono (show (M : ℚ) - 1 / 2 ≤ x / 10 by linarith)
    rwa [hex] at this
  have hhi : roundQ (x / 10) < (M : ℚ) + 1 / 2 := by
    rcases le_or_lt |x| 2 with hs | hs
    · have hq : roundQ (1 / 4 : ℚ) = 1 / 4 := by
        apply roundQ_exact _ 1 (-2)
        · rw [pow2_neg_two]; norm_num
        · norm_num
        · norm_num
      obtain ⟨c1, c2⟩ := abs_le.mp hs
      have := roundQ_mono (show x / 10 ≤ 1 / 4 by linarith)
      rw [hq] at this
      have hM0 : (0 : ℚ) ≤ M := by
        have : (-1 : ℚ) < M := by linarith
        have : (-1 : ℤ) < M := by exact_mod_cast this
        have : (0 : ℤ) ≤ M := by omega
        exact_mod_cast this
      linarith
    · rcases lt_or_eq_of_le hb with hlt | heq
      · exact roundQ_div10_lt x M hx hs hlt (by linarith)
      · have hcase : x = 9007199254740992 ∨ x = -9007199254740992 := by
          rcases abs_cases x with ⟨h, _⟩ | ⟨h, _⟩
          · left; linarith
          · right; linarith
        have e1 : roundQ ((9007199254740992 : ℚ) / 10) = 7205759403792794 / 8 := by decide!
        have e2 : roundQ ((-9007199254740992 : ℚ) / 10) = -7205759403792794 / 8 := by decide!
        have e3 : mathRound ((9007199254740992 : ℚ) / 10) = 900719925474099 := by decide!
        have e4 : mathRound ((-9007199254740992 : ℚ) / 10) = -900719925474099 := by decide!
        rcases hcase with h | h
        · rw [hM, h, e1, e3]; norm_num
        · rw [hM, h, e2, e4]; norm_num
  simp only [mathRound]
  rw [Int.floor_eq_iff]
  constructor <;> linarith

/-- On a binary64 number of magnitude up to `2^53`, `round10` makes no rounding
error: it returns `Math.round(x / 10) * 10` as computed in exact arithmetic. -/
theorem round10_eq_exact (x : ℚ) (hx : roundQ x = x) (hb : |x| ≤ 9007199254740992) :
    round10 (.fin x) = .fin (exactRound10 x) := by
  obtain ⟨w1, w2⟩ := mathRound_window (x / 10)
  obtain ⟨b1, b2⟩ := abs_le.mp hb
  have hMq1 : ((mathRound (x / 10) : ℤ) : ℚ) < 900719925474100 := by linarith
  have hMq2 : (-900719925474100 : ℚ) < ((mathRound (x / 10) : ℤ) : ℚ) := by linarith
  have hM1 : mathRound (x / 10) < 900719925474100 := by exact_mod_cast hMq1
  have hM2 : -900719925474100 < mathRound (x / 10) := by exact_mod_cast hMq2
  have hdiv : (JsNumber.fin x).div (.fin 10) = .fin (roundQ (x / 10)) := by
    have h10 : ¬ (10 : ℚ) = 0 := by norm_num
    simp only [JsNumber.div, if_neg h10]
    apply roundDouble_of_abs_le (x / 10) 9007199254740992
    · rw [abs_div]; norm_num; linarith
    · exact roundQ_intCast 9007199254740992 (by norm_num)
    · exact pow2_1024_gt
  have hmul : (JsNumber.fin ((mathRound (x / 10) : ℤ) : ℚ)).mul (.fin 10) =
      .fin ((exactRound10 x : ℤ) : ℚ) := by
    simp only [JsNumber.mul, exactRound10]
    rw [show ((mathRound (x / 10) : ℤ) : ℚ) * 10 = ((mathRound (x / 10) * 10 : ℤ) : ℚ) by
      push_cast; ring]
    apply roundDouble_intCast
    rw [abs_le]; constructor <;> omega
  simp only [round10, hdiv, JsNumber.round, mathRound_roundQ_div10 x hx hb, hmul]
/-- A finite value of `round10` is the rounded product of an integer and 10. -/
theorem round10_fin_cases (n : JsNumber) (q : ℚ) (h : round10 n = .fin q) :
    ∃ M : ℤ, q = roundQ ((M : ℚ) * 10) ∧ |q| < pow2 1024 := by
  have h10 : ¬ (10 : ℚ) = 0 := by norm_num
  have hpos : (0 : ℚ) < 10 := by norm_num
  unfold round10 at h
  cases hw : n.div (.fin 10) with
  | fin z =>
    rw [hw] at h
    simp only [JsNumber.round, JsNumber.mul] at h
    exact ⟨mathRound z, roundDouble_eq_fin _ _ h⟩
  | nan =>
    rw [hw] at h
    simp only [JsNumber.round, JsNumber.mul] at h
    exact JsNumber.noConfusion h
  | posInf =>
    rw [hw] at h
    simp only [JsNumber.round, JsNumber.mul, if_neg h10, if_pos hpos] at h
    exact JsNumber.noConfusion h
  | negInf =>
    rw [hw] at h
    simp only [JsNumber.round, JsNumber.mul, if_neg h10, if_pos hpos] at h
    exact JsNumber.noConfusion h

/-- A finite value of `round10` of magnitude up to `2^53` is ten times an
integer. -/
theorem round10_fin_multiple (n : JsNumber) (q : ℚ) (h : round10 n = .fin q)
    (hb : |q| ≤ 9007199254740992) :
    ∃ M : ℤ, q = (M : ℚ) * 10 ∧ |M * 10| ≤ 2 ^ 53 := by
  obtain ⟨M, hq, _⟩ := round10_fin_cases n q h
  refine ⟨M, ?_, ?_⟩
  all_goals
    have hM : |M * 10| ≤ 2 ^ 53 := by
      have hex : roundQ (9007199254741000 : ℚ) = 9007199254741000 := by
        apply roundQ_exact _ 1125899906842625 3
        · rw [pow2_three]; norm_num
        · norm_num
        · norm_num
      obtain ⟨b1, b2⟩ := abs_le.mp hb
      rw [abs_le]
      constructor
      · by_contra hc
        have h1 : M * 10 ≤ -9007199254741000 := by omega
        have h2 : (M : ℚ) * 10 ≤ -9007199254741000 := by exact_mod_cast h1
        have h3 := roundQ_mono h2
        rw [show (-9007199254741000 : ℚ) = -(9007199254741000 : ℚ) by norm_num, roundQ_neg, hex,
          ← hq] at h3
        linarith
      · by_contra hc
        have h1 : 9007199254741000 ≤ M * 10 := by omega
        have h2 : (9007199254741000 : ℚ) ≤ (M : ℚ) * 10 := by exact_mod_cast h1
        have h3 := roundQ_mono h2
        rw [hex, ← hq] at h3
        linarith
  · rw [hq, show (M : ℚ) * 10 = ((M * 10 : ℤ) : ℚ) by push_cast; ring]
    exact roundQ_intCast _ hM
  · exact hM

/-- The rounding `round10` keeps a multiple of 10 of magnitude up to `2^53`. -/
theorem round10_of_multiple (M : ℤ) (hM : |M * 10| ≤ 2 ^ 53) :
    round10 (.fin ((M : ℚ) * 10)) = .fin ((M : ℚ) * 10) := by
  have hc : (M : ℚ) * 10 = ((M * 10 : ℤ) : ℚ) := by push_cast; ring
  have hx : roundQ ((M : ℚ) * 10) = (M : ℚ) * 10 := by
    rw [hc]; exact roundQ_intCast _ hM
  have hb : |(M : ℚ) * 10| ≤ 9007199254740992 := by
    rw [hc]
    have : ((|M * 10| : ℤ) : ℚ) ≤ ((2 ^ 53 : ℤ) : ℚ) := by exact_mod_cast hM
    rw [Int.cast_abs] at this
    norm_num at this ⊢
    exact this
  rw [round10_eq_exact _ hx hb]
  congr 1
  simp only [exactRound10]
  rw [show (M : ℚ) * 10 / 10 = (M : ℚ) by ring, mathRound_intCast]
  push_cast
  ring

/-- The number `-Infinity` is below every number but `NaN`. -/
theorem JsNumber.negInf_le (b : JsNumber) (hb : b ≠ .nan) : JsNumber.le .negInf b := by
  cases b <;> simp_all [JsNumber.le]

/-- Every number but `NaN` is below `Infinity`. -/
theorem JsNumber.le_posInf (a : JsNumber) (ha : a ≠ .nan) : JsNumber.le a .posInf := by
  cases a <;> simp_all [JsNumber.le]

/-- Division by 10 is monotone. -/
theorem div10_mono (a b : JsNumber) (h : a.le b) :
    (a.div (.fin 10)).le (b.div (.fin 10)) := by
  have h10 : ¬ (10 : ℚ) = 0 := by norm_num
  have hpos : (0 : ℚ) ≤ 10 := by norm_num
  cases a <;> cases b <;>
    simp only [JsNumber.le, JsNumber.div, if_neg h10, if_pos hpos] at h ⊢ <;>
    first
    | exact roundDouble_mono (by linarith)
    | exact JsNumber.negInf_le _ (roundDouble_ne_nan _)
    | exact JsNumber.le_posInf _ (roundDouble_ne_nan _)

/-- `Math.round` is monotone on numbers. -/
theorem round_mono (a b : JsNumber) (h : a.le b) : a.round.le b.round := by
  cases a <;> cases b <;> simp only [JsNumber.le, JsNumber.round] at h ⊢
  exact (by exact_mod_cast mathRound_mono h)

/-- Multiplication by 10 is monotone. -/
theorem mul10_mono (a b : JsNumber) (h : a.le b) :
    (a.mul (.fin 10)).le (b.mul (.fin 10)) := by
  have h10 : ¬ (10 : ℚ) = 0 := by norm_num
  have hpos : (0 : ℚ) < 10 := by norm_num
  cases a <;> cases b <;>
    simp only [JsNumber.le, JsNumber.mul, if_neg h10, if_pos hpos] at h ⊢ <;>
    first
    | exact roundDouble_mono (by linarith)
    | exact JsNumber.negInf_le _ (roundDouble_ne_nan _)
    | exact JsNumber.le_posInf _ (roundDouble_ne_nan _)

/-- The rounding `round10` is monotone. -/
theorem round10_mono (a b : JsNumber) (h : a.le b) : (round10 a).le (round10 b) :=
  mul10_mono _ _ (round_mono _ _ (div10_mono _ _ h))

/-- A finite product has a finite first factor. -/
theorem mul_eq_fin (a : JsNumber) (c r : ℚ) (h : a.mul (.fin c) = .fin r) :
    ∃ x : ℚ, a = .fin x ∧ roundDouble (x * c) = .fin r := by
  cases a with
  | fin x => exact ⟨x, rfl, h⟩
  | nan => exact JsNumber.noConfusion h
  | posInf =>
    simp only [JsNumber.mul] at h
    split_ifs at h
  | negInf =>
    simp only [JsNumber.mul] at h
    split_ifs at h

/-- The non-finite numbers are fixed by `round10`. -/
theorem round10_nonfinite :
    round10 .nan = .nan ∧ round10 .posInf = .posInf ∧ round10 .negInf = .negInf := by
  have h10 : ¬ (10 : ℚ) = 0 := by norm_num
  have hpos : (0 : ℚ) < 10 := by norm_num
  have hpos' : (0 : ℚ) ≤ 10 := by norm_num
  refine ⟨rfl, ?_, ?_⟩ <;>
    simp only [round10, JsNumber.div, JsNumber.round, JsNumber.mul, if_neg h10, if_pos hpos,
      if_pos hpos']

/-! ### The claims -/

/-- `clampNumber` lands between its bounds. -/
theorem clampNumber_bounds (n : JsNumber) (lo hi : ℚ) (h : lo ≤ hi) :
    lo ≤ clampNumber n lo hi ∧ clampNumber n lo hi ≤ hi := by
  cases n <;> simp [clampNumber, h]

/-- C1, as stated, fails: a lead whose service is `" colorbond_fencing"` (not a
member of `supported_services`) is allowed, because `evaluateLead` trims the
service first; and a lead with access `"TIGHT"`, for which none of the three
conditions holds as written, is declined with `tight_access_min`, because the
access is normalised first. -/
theorem evaluateLead_literal_counterexample :
    (paddedLead.service ∉ scenarioCore.business_rules.supported_services ∧
      evaluateLead scenarioCore paddedLead = .allowed) ∧
    (capitalAccessLead.service ∈ scenarioCore.business_rules.supported_services ∧
      ¬ clampNumber capitalAccessLead.budget 0 1000000000 <
        scenarioCore.business_rules.minimum_job_value ∧
      capitalAccessLead.access ≠ "tight" ∧
      (evaluateLead scenarioCore capitalAccessLead).ruleId = some "tight_access_min") := by
  decide

/-- C1 (amended): with `service` the lead's service trimmed, `budget` the
lead's budget clamped into `[0, 1e9]` and `access` the lead's access
normalised, `evaluateLead` declines with `unsupported_service` exactly when
`service` is not supported, with `min_job_value` exactly when it is supported
and `budget` is below `minimum_job_value`, with `tight_access_min` exactly when
neither of these holds, `access` is tight and `budget` is below
`tight_access_minimum`, and allows the lead exactly when none of the three
conditions holds. -/
theorem evaluateLead_first_match (core : Core) (lead : Lead) :
    let budget := clampNumber lead.budget 0 1000000000
    let service := jsTrim lead.service
    let access := normalizeAccess lead.access
    let d := evaluateLead core lead
    (0 ≤ budget ∧ budget ≤ 1000000000) ∧
    (d = .declined "unsupported_service" "auto_decline"
        (getRuleMessage core "unsupported_service") ↔
      service ∉ core.business_rules.supported_services) ∧
    (d = .declined "min_job_value" "auto_decline" (getRuleMessage core "min_job_value") ↔
      service ∈ core.business_rules.supported_services ∧
        budget < core.business_rules.minimum_job_value) ∧
    (d = .declined "tight_access_min" "auto_decline" (getRuleMessage core "tight_access_min") ↔
      service ∈ core.business_rules.supported_services ∧
        ¬ budget < core.business_rules.minimum_job_value ∧
        access = "tight" ∧ budget < core.business_rules.tight_access_minimum) ∧
    (d = .allowed ↔
      service ∈ core.business_rules.supported_services ∧
        ¬ budget < core.business_rules.minimum_job_value ∧
        ¬ (access = "tight" ∧ budget < core.business_rules.tight_access_minimum)) := by
  intro budget service access d
  refine ⟨clampNumber_bounds _ _ _ (by norm_num), ?_⟩
  by_cases hs : jsTrim lead.service ∈ core.business_rules.supported_services
  · by_cases hm : clampNumber lead.budget 0 1000000000 < core.business_rules.minimum_job_value
    · simp [d, budget, service, access, evaluateLead, isServiceSupported, hs, hm]
    · by_cases ht : normalizeAccess lead.access = "tight" ∧
          clampNumber lead.budget 0 1000000000 < core.business_rules.tight_access_minimum
      · simp [d, budget, service, access, evaluateLead, isServiceSupported, hs, hm, ht]
      · simp [d, budget, service, access, evaluateLead, isServiceSupported, hs, hm, ht]
  · simp [d, budget, service, access, evaluateLead, isServiceSupported, hs]

/-- C2: when the (trimmed) service is supported and its base rate is a finite
number, `priceRange` returns an ok quote whose `raw` is `round10` of
`qty * base_rate * height_factor * access_factor * ground_factor *
season_factor`, whose `low` and `high` are `round10` of that unrounded product
times `range.low_factor` and `range.high_factor`; `qty` is the input quantity
clamped into `[0, 1e6]`, each multiplier is the table entry of the normalised
key or `1` when the table has none, and `season_factor` is
`wet_season_multiplier` when `wet_season` is set and `1` otherwise.  Every `*`
is the product of JavaScript numbers, taken from left to right and rounded to
binary64 at each step, and `round10` is computed in the same arithmetic. -/
theorem priceRange_formula (core : Core) (input : Lead) (baseRate : ℚ)
    (hs : jsTrim input.service ∈ core.business_rules.supported_services)
    (hb : core.pricing_engine.base_rates.lookup (jsTrim input.service) = some (.fin baseRate)) :
    let qty := clampNumber input.qty 0 1000000
    let heightKey := normalizeHeight input.height
    let accessKey := normalizeAccess input.access
    let groundKey := normalizeGround input.ground
    let heightFactor := ((core.pricing_engine.multipliers.height.lookup heightKey).getD 1 : ℚ)
    let accessFactor := ((core.pricing_engine.multipliers.access.lookup accessKey).getD 1 : ℚ)
    let groundFactor := ((core.pricing_engine.multipliers.ground.lookup groundKey).getD 1 : ℚ)
    let seasonFactor : ℚ :=
      if input.wet_season = true then core.business_rules.wet_season_multiplier else 1
    let product := (((((JsNumber.fin qty).mul (.fin baseRate)).mul (.fin heightFactor)).mul
      (.fin accessFactor)).mul (.fin groundFactor)).mul (.fin seasonFactor)
    (0 ≤ qty ∧ qty ≤ 1000000) ∧
    priceRange core input =
      .ok (jsTrim input.service) qty
        ⟨heightKey, heightFactor, accessKey, accessFactor, groundKey, groundFactor, seasonFactor⟩
        (round10 product)
        (round10 (product.mul (.fin core.pricing_engine.range.low_factor)))
        (round10 (product.mul (.fin core.pricing_engine.range.high_factor))) := by
  intro qty heightKey accessKey groundKey heightFactor accessFactor groundFactor seasonFactor product
  refine ⟨clampNumber_bounds _ _ _ (by norm_num), ?_⟩
  simp only [priceRange, isServiceSupported, hs, hb, decide_True, Bool.not_true, factorOf]
  rfl

/-- Scenario A for C2: colorbond fencing, 20 metres, 1.8m, easy access, base
rate 80, every factor 1, range factors 0.9 and 1.2 give raw 1600, low 1440 and
high 1920. -/
theorem priceRange_formula_witness :
    jsTrim scenarioALead.service ∈ scenarioCore.business_rules.supported_services ∧
    scenarioCore.pricing_engine.base_rates.lookup (jsTrim scenarioALead.service) =
      some (.fin 80) ∧
    priceRange scenarioCore scenarioALead =
      .ok "colorbond_fencing" 20 ⟨"1.8m", 1, "easy", 1, "unknown", 1, 1⟩
        (.fin 1600) (.fin 1440) (.fin 1920) :=
  ⟨by decide, by decide,
    (priceRange_formula scenarioCore scenarioALead 80 (by decide) (by decide)).2.trans
      (by decide!)⟩

/-- The products of `priceRange` are products of binary64 numbers: 37.5 metres
at base rate 80 in the wet season (multiplier 1.15, range factors 0.9 and 1.2)
give raw 3450, low 3100 and high 4140.  The unrounded product is the binary64
number just below 3450, and its 0.9 share lies just below 3105, so `low` is
3100, where the product of the decimals, 3105, would round to 3110. -/
theorem priceRange_wet_season_example :
    priceRange scenarioCore wetSeasonLead =
      .ok "colorbond_fencing" (75 / 2)
        ⟨"1.8m", 1, "easy", 1, "unknown", 1, double (115 / 100)⟩
        (.fin 3450) (.fin 3100) (.fin 4140) ∧
    exactRound10 ((75 / 2 : ℚ) * 80 * (115 / 100) * (9 / 10)) = 3110 := by
  decide!

/-- The number `0` is falsy. -/
theorem truthy_fin_zero : (JsNumber.fin 0).truthy = false := by
  simp [JsNumber.truthy]

/-- The quantity of a built lead is falsy only when it is the number `0`. -/
theorem buildLead_qty_falsy_iff (MONSTER_CORE : Option Core) (text : String) :
    (buildLeadFromText MONSTER_CORE text).qty.truthy = false ↔
      (buildLeadFromText MONSTER_CORE text).qty = .fin 0 := by
  simp only [buildLeadFromText]
  cases hq : extractMetres text with
  | none => simp [truthy_fin_zero]
  | some n =>
    by_cases hn : n.truthy = true
    · have hne : n ≠ .fin 0 := by
        intro h
        rw [h, truthy_fin_zero] at hn
        exact Bool.noConfusion hn
      simp [hn, hne]
    · simp [hn, truthy_fin_zero]

/-- C3: with engine and configuration present, `decideReplyFromText` answers
`pass` when the lead built from the text has an empty service or a zero
quantity, whatever the engine is; otherwise `decline` with exactly the message
of the engine's decision when the engine does not allow the lead; otherwise
`range`, with the message built from the quote's `low` and `high`, when the
engine's quote is ok; otherwise `pass`. -/
theorem decideReplyFromText_cases (engine : Engine) (core : Core) (text : String) :
    let lead := buildLeadFromText (some core) text
    let reply := decideReplyFromText (some engine) (some core) text
    ((lead.service = "" ∨ lead.qty = .fin 0) → reply = .pass) ∧
    (¬ (lead.service = "" ∨ lead.qty = .fin 0) →
      (∀ r a m, engine.evaluateLead core lead = .declined r a m → reply = .decline m) ∧
      (engine.evaluateLead core lead = .allowed →
        (∀ s q f raw low high, engine.priceRange core lead = .ok s q f raw low high →
          reply = .range (rangeMessage low high)) ∧
        (∀ reason, engine.priceRange core lead = .notOk reason → reply = .pass))) := by
  intro lead reply
  have hq := buildLead_qty_falsy_iff (some core) text
  refine ⟨fun h => ?_, fun h => ⟨fun r a m hd => ?_, fun hd => ⟨fun s q f raw low high hp => ?_,
    fun reason hp => ?_⟩⟩⟩
  · have h' : (buildLeadFromText (some core) text).service = "" ∨
        (buildLeadFromText (some core) text).qty.truthy = false := by
      rcases h with h | h
      · exact Or.inl h
      · exact Or.inr (hq.mpr h)
    simp only [reply, decideReplyFromText, if_pos h']
  all_goals
    have h' : ¬ ((buildLeadFromText (some core) text).service = "" ∨
        (buildLeadFromText (some core) text).qty.truthy = false) := by
      intro h''
      apply h
      rcases h'' with h'' | h''
      · exact Or.inl h''
      · exact Or.inr (hq.mp h'')
    simp only [reply, decideReplyFromText, if_neg h']
  · rw [show engine.evaluateLead core (buildLeadFromText (some core) text) = _ from hd]
  · rw [show engine.evaluateLead core (buildLeadFromText (some core) text) = _ from hd]
    simp only
    rw [show engine.priceRange core (buildLeadFromText (some core) text) = _ from hp]
  · rw [show engine.evaluateLead core (buildLeadFromText (some core) text) = _ from hd]
    simp only
    rw [show engine.priceRange core (buildLeadFromText (some core) text) = _ from hp]

/-- Scenario A through the orchestrator: the engine of `monsterCore.js` quotes
1440 to 1920. -/
theorem decideReply_scenarioA :
    decideReplyFromText (some monsterCore) (some scenarioCore) scenarioAText =
      .range ("Typical price range: $1440â€“$1920. " ++
        "Final price confirmed once we see photos/site conditions.") := by
  decide!

/-- Scenario B through the orchestrator: the text names no quantity, so the
reply is `pass`. -/
theorem decideReply_scenarioB :
    decideReplyFromText (some monsterCore) (some scenarioCore) scenarioBText = .pass := by
  decide!

/-- A lead below the minimum job value is declined with the configured
message. -/
theorem decideReply_decline :
    decideReplyFromText (some monsterCore) (some scenarioCore) "colorbond 20m $100" =
      .decline "That job is below our minimum." := by
  decide!

/-- A supported service without a base rate: the lead is allowed, the quote is
not ok, the reply is `pass`. -/
theorem decideReply_missing_rate :
    decideReplyFromText (some monsterCore) (some scenarioCore) "timber paling 20m" = .pass ∧
    evaluateLead scenarioCore (buildLeadFromText (some scenarioCore) "timber paling 20m") =
      .allowed := by
  decide!

/-- The budget stages of `buildLeadFromText` on the text of scenario B: the
text has no `$`, it has the word `budget`, and no amount follows that word. -/
theorem scenarioB_budget_stages :
    jsIncludes scenarioBText "$" = false ∧
    jsIncludes (jsLower scenarioBText) "budget" = true ∧
    suffixBudget scenarioBText = .fin 0 := by
  decide!

/-- The lead built from the text of scenario B has budget `0`, whatever the
configuration is. -/
theorem scenarioB_budget (MONSTER_CORE : Option Core) :
    (buildLeadFromText MONSTER_CORE scenarioBText).budget = .fin 0 := by
  obtain ⟨h1, h2, h3⟩ := scenarioB_budget_stages
  simp [buildLeadFromText, h1, h2, h3]

/-- The lead built from the text of scenario B: colorbond fencing, tight
access. -/
theorem scenarioB_fields (MONSTER_CORE : Option Core) :
    jsTrim (buildLeadFromText MONSTER_CORE scenarioBText).service = "colorbond_fencing" ∧
    (buildLeadFromText MONSTER_CORE scenarioBText).service = "colorbond_fencing" ∧
    (buildLeadFromText MONSTER_CORE scenarioBText).access = "tight" := by
  simp only [buildLeadFromText]
  decide!

/-- C4, as stated, fails: with minimum job value 1500, tight access minimum
3000 and colorbond fencing supported, the lead built from the text of
scenario B does not have budget 1500, and `evaluateLead` does not decline it
with `tight_access_min`. -/
theorem scenarioB_counterexample :
    (scenarioCore.business_rules.minimum_job_value = 1500 ∧
      scenarioCore.business_rules.tight_access_minimum = 3000 ∧
      "colorbond_fencing" ∈ scenarioCore.business_rules.supported_services) ∧
    (buildLeadFromText (some scenarioCore) scenarioBText).budget ≠ .fin 1500 ∧
    (evaluateLead scenarioCore (buildLeadFromText (some scenarioCore) scenarioBText)).ruleId ≠
      some "tight_access_min" := by
  decide!

/-- C4 (amended): for the text of scenario B and a configuration with minimum
job value 1500, tight access minimum 3000 and colorbond fencing supported, the
built lead has service colorbond fencing, budget 0 and tight access, and
`evaluateLead` declines it with rule `min_job_value`. -/
theorem scenarioB_decline (core : Core)
    (hmin : core.business_rules.minimum_job_value = 1500)
    (_htight : core.business_rules.tight_access_minimum = 3000)
    (hs : "colorbond_fencing" ∈ core.business_rules.supported_services) :
    let lead := buildLeadFromText (some core) scenarioBText
    lead.service = "colorbond_fencing" ∧ lead.budget = .fin 0 ∧ lead.access = "tight" ∧
    evaluateLead core lead =
      .declined "min_job_value" "auto_decline" (getRuleMessage core "min_job_value") := by
  intro lead
  obtain ⟨ht, hsv, ha⟩ := scenarioB_fields (some core)
  have hb := scenarioB_budget (some core)
  refine ⟨hsv, hb, ha, ?_⟩
  simp only [lead, evaluateLead, isServiceSupported, ht, hb, hs, hmin, clampNumber]
  norm_num

/-- Scenario B at the example configuration. -/
theorem scenarioB_decline_witness :
    scenarioCore.business_rules.minimum_job_value = 1500 ∧
    scenarioCore.business_rules.tight_access_minimum = 3000 ∧
    "colorbond_fencing" ∈ scenarioCore.business_rules.supported_services ∧
    evaluateLead scenarioCore (buildLeadFromText (some scenarioCore) scenarioBText) =
      .declined "min_job_value" "auto_decline" "That job is below our minimum." :=
  ⟨by decide, by decide, by decide,
    (scenarioB_decline scenarioCore (by decide) (by decide) (by decide)).2.2.2.trans
      (by decide)⟩

/-- The outcomes of `priceRange` on a lead are decided in this order: it returns
`{ok: false, reason: unsupported_service}` exactly when the trimmed service is
not in `supported_services` (whatever `base_rates` holds), it returns
`{ok: false, reason: missing_base_rate}` exactly when the service is supported
and `base_rates` has no finite number for it, and it returns an ok quote
exactly when the service is supported and has a finite base rate. -/
theorem priceRange_outcomes (core : Core) (input : Lead) :
    let service := jsTrim input.service
    let supported := service ∈ core.business_rules.supported_services
    let hasRate := ∃ r : ℚ, core.pricing_engine.base_rates.lookup service = some (.fin r)
    (priceRange core input = .notOk "unsupported_service" ↔ ¬ supported) ∧
    (priceRange core input = .notOk "missing_base_rate" ↔ supported ∧ ¬ hasRate) ∧
    ((priceRange core input).isOk = true ↔ supported ∧ hasRate) := by
  intro service supported hasRate
  by_cases hs : jsTrim input.service ∈ core.business_rules.supported_services
  · cases hb : core.pricing_engine.base_rates.lookup (jsTrim input.service) with
    | none =>
      simp [service, supported, hasRate, priceRange, isServiceSupported, hs, hb, Quote.isOk]
    | some n =>
      cases n <;>
        simp [service, supported, hasRate, priceRange, isServiceSupported, hs, hb, Quote.isOk]
  · simp [service, supported, hasRate, priceRange, isServiceSupported, hs, Quote.isOk]

/-- The receiver of a string method throws exactly on a truthy value that is
not a string. -/
theorem stringReceiver_error_iff (v : JsValue) :
    stringReceiver v = .throw .typeError ↔ (v.truthy = true ∧ ∀ s, v ≠ .str s) := by
  cases v with
  | undefined => simp [stringReceiver, JsValue.truthy]
  | null => simp [stringReceiver, JsValue.truthy]
  | bool b => cases b <;> simp [stringReceiver, JsValue.truthy]
  | num n =>
    by_cases h : n.truthy = true
    · simp [stringReceiver, JsValue.truthy, h]
    · simp [stringReceiver, JsValue.truthy, h]
  | str s => simp [stringReceiver]

/-- On an input object with fields of any primitive type, `priceRange` throws a
`TypeError` exactly when one of the four text fields (service, height, access,
ground) holds a truthy value that is not a string; otherwise it returns what
`priceRange` returns on the converted fields. -/
theorem priceRangeOf_throws_iff (core : Core) (input : Input) :
    (priceRangeOf core input = .throw .typeError ↔
      ∃ v ∈ [input.service, input.height, input.access, input.ground],
        v.truthy = true ∧ ∀ s, v ≠ .str s) ∧
    (∀ q, priceRangeOf core input = .normal q →
      ∃ lead : Lead, q = priceRange core lead ∧ lead.qty = input.qty.toNumber ∧
        lead.wet_season = input.wet_season.truthy) := by
  have e1 := stringReceiver_error_iff input.service
  have e2 := stringReceiver_error_iff input.height
  have e3 := stringReceiver_error_iff input.access
  have e4 := stringReceiver_error_iff input.ground
  simp only [priceRangeOf, List.mem_cons, List.mem_singleton, List.not_mem_nil, or_false,
    exists_eq_or_imp, exists_eq_left, ← e1, ← e2, ← e3, ← e4]
  cases h1 : stringReceiver input.service with
  | throw e =>
    cases e
    simp
  | normal s =>
    cases h2 : stringReceiver input.height with
    | throw e =>
      cases e
      simp
    | normal h =>
      cases h3 : stringReceiver input.access with
      | throw e =>
        cases e
        simp
      | normal a =>
        cases h4 : stringReceiver input.ground with
        | throw e =>
          cases e
          simp
        | normal g =>
          refine ⟨by simp, ?_⟩
          intro q hq
          injection hq with hq
          exact ⟨_, hq.symm, rfl, rfl⟩

/-- A lead is an input on which `priceRange` does not throw. -/
theorem priceRangeOf_lead (core : Core) (lead : Lead) :
    priceRangeOf core lead.toInput = .normal (priceRange core lead) := by
  simp only [priceRangeOf, Lead.toInput, stringReceiver, JsValue.toNumber, JsValue.truthy]
  rfl

/-- C5 at an input whose height is the number `1.8`: the service is supported
and has the finite base rate 80, and `priceRange` returns neither an ok quote
nor a not-ok result: it throws a `TypeError`, because a number has no method
`toLowerCase`.  With the height given as the text `"1.8"` the same input is
quoted. -/
theorem priceRange_numeric_height_throws :
    numericHeightInput.service = .str "colorbond_fencing" ∧
    "colorbond_fencing" ∈ scenarioCore.business_rules.supported_services ∧
    scenarioCore.pricing_engine.base_rates.lookup "colorbond_fencing" = some (.fin 80) ∧
    numericHeightInput.height = .num (.fin (double (18 / 10))) ∧
    priceRangeOf scenarioCore numericHeightInput = .throw .typeError ∧
    priceRangeOf scenarioCore { numericHeightInput with height := .str "1.8" } =
      .normal (.ok "colorbond_fencing" 20 ⟨"1.8m", 1, "easy", 1, "unknown", 1, 1⟩
        (.fin 1600) (.fin 1440) (.fin 1920)) := by
  decide!

/-- The value of `exactRound10 x` lies within 5 of `x`, the upper end excluded
on the side of `x`: `-5 < exactRound10 x - x ≤ 5`. -/
theorem exactRound10_window (x : ℚ) :
    ((exactRound10 x : ℤ) : ℚ) - x ≤ 5 ∧ x - ((exactRound10 x : ℤ) : ℚ) < 5 := by
  have h1 : ((⌊x / 10 + 1 / 2⌋ : ℤ) : ℚ) ≤ x / 10 + 1 / 2 := Int.floor_le _
  have h2 : x / 10 + 1 / 2 < ((⌊x / 10 + 1 / 2⌋ : ℤ) : ℚ) + 1 := Int.lt_floor_add_one _
  simp only [exactRound10, mathRound]
  push_cast
  constructor <;> linarith

/-- A multiple of 10 other than `exactRound10 x` is at distance at least 5 from
`x`, and at distance more than 5 when it is the larger of the two. -/
theorem exactRound10_other (x : ℚ) (k : ℤ) :
    (10 * k < exactRound10 x → 5 ≤ x - (10 * k : ℚ)) ∧
    (exactRound10 x < 10 * k → 5 < (10 * k : ℚ) - x) := by
  obtain ⟨h1, h2⟩ := exactRound10_window x
  have hm : exactRound10 x = ⌊x / 10 + 1 / 2⌋ * 10 := rfl
  constructor
  · intro h
    have hk : 10 * k + 10 ≤ exactRound10 x := by omega
    have hk' : (10 * k : ℚ) + 10 ≤ ((exactRound10 x : ℤ) : ℚ) := by exact_mod_cast hk
    linarith
  · intro h
    have hk : exactRound10 x + 10 ≤ 10 * k := by omega
    have hk' : ((exactRound10 x : ℤ) : ℚ) + 10 ≤ (10 * k : ℚ) := by exact_mod_cast hk
    linarith

/-- C6, as stated, fails.  For a negative value: `-25` lies halfway between
`-30` and `-20`, and `round10` returns `-20`, the multiple nearer to zero.  For
a large value: `33333300000333332` is a binary64 number, and `round10` returns
`33333300000333328`, which is not a multiple of 10 and is farther from the
value than the multiple `33333300000333330`. -/
theorem round10_counterexample :
    (round10 (.fin (-25)) = .fin (-20) ∧ round10 (.fin (-25)) ≠ .fin (-30) ∧
      |(-30 : ℚ) - (-25)| = |(-20 : ℚ) - (-25)|) ∧
    (roundQ 33333300000333332 = 33333300000333332 ∧
      round10 (.fin 33333300000333332) = .fin 33333300000333328 ∧
      ¬ (10 : ℤ) ∣ 33333300000333328 ∧
      |(33333300000333330 : ℚ) - 33333300000333332| <
        |(33333300000333328 : ℚ) - 33333300000333332|) := by
  refine ⟨⟨by decide!, by decide!, by norm_num⟩, by decide!, by decide!, by decide, by norm_num⟩

/-- C6 (amended): for a binary64 number `x` of magnitude up to `2^53`,
`round10 x` is a multiple of 10 nearest to `x`; when `x` lies halfway between
two multiples of 10 it is the larger of the two, which is the one farther from
zero when `x` is not negative; `round10 25 = 30`, `round10 245 = 250`,
`round10 244 = 240`. -/
theorem round10_nearest (x : ℚ) (hx : roundQ x = x) (hb : |x| ≤ 2 ^ 53) :
    ∃ r : ℤ, round10 (.fin x) = .fin r ∧ (10 ∣ r) ∧
    (∀ k : ℤ, |(r : ℚ) - x| ≤ |(10 * k : ℚ) - x|) ∧
    (∀ k : ℤ, |(10 * k : ℚ) - x| = |(r : ℚ) - x| → 10 * k ≤ r) ∧
    (0 ≤ x → ∀ k : ℤ, |(10 * k : ℚ) - x| = |(r : ℚ) - x| → |10 * k| ≤ |r|) ∧
    (round10 (.fin 25) = .fin 30 ∧ round10 (.fin 245) = .fin 250 ∧
      round10 (.fin 244) = .fin 240) := by
  have hr := round10_eq_exact x hx (by norm_num at hb ⊢; exact hb)
  obtain ⟨h1, h2⟩ := exactRound10_window x
  have hnear : |((exactRound10 x : ℤ) : ℚ) - x| ≤ 5 := abs_le.mpr ⟨by linarith, h1⟩
  have htie : ∀ k : ℤ, |(10 * k : ℚ) - x| = |((exactRound10 x : ℤ) : ℚ) - x| →
      10 * k ≤ exactRound10 x := by
    intro k hk
    by_contra hlt
    have h5 := (exactRound10_other x k).2 (not_le.mp hlt)
    have : 5 < |(10 * k : ℚ) - x| := lt_of_lt_of_le h5 (le_abs_self _)
    linarith
  refine ⟨exactRound10 x, hr, ⟨⌊x / 10 + 1 / 2⌋, by simp [exactRound10, mathRound, mul_comm]⟩,
    ?_, htie, ?_, by decide!, by decide!, by decide!⟩
  · intro k
    rcases lt_trichotomy (10 * k) (exactRound10 x) with h | h | h
    · have h5 := (exactRound10_other x k).1 h
      have : 5 ≤ |(10 * k : ℚ) - x| := by
        rw [abs_sub_comm]
        exact le_trans h5 (le_abs_self _)
      linarith
    · have : (10 * k : ℚ) = ((exactRound10 x : ℤ) : ℚ) := by exact_mod_cast h
      rw [this]
    · have h5 := (exactRound10_other x k).2 h
      have : 5 < |(10 * k : ℚ) - x| := lt_of_lt_of_le h5 (le_abs_self _)
      linarith
  · intro hx0 k hk
    have hle := htie k hk
    rcases eq_or_lt_of_le hle with h | h
    · rw [h]
    · have h5 := (exactRound10_other x k).1 h
      have hk5 : |(10 * k : ℚ) - x| = 5 := by
        apply le_antisymm
        · rw [hk]; exact hnear
        · rw [abs_sub_comm]; exact le_trans h5 (le_abs_self _)
      have hr5 : ((exactRound10 x : ℤ) : ℚ) - x = 5 := by
        rw [hk] at hk5
        rcases abs_eq (by norm_num : (0 : ℚ) ≤ 5) |>.mp hk5 with h' | h'
        · exact h'
        · linarith
      have hr0 : (5 : ℚ) ≤ ((exactRound10 x : ℤ) : ℚ) := by linarith
      have hr' : (5 : ℤ) ≤ exactRound10 x := by exact_mod_cast hr0
      have hk10 : exactRound10 x - 10 ≤ 10 * k := by
        have : ((exactRound10 x : ℤ) : ℚ) - 10 ≤ (10 * k : ℚ) := by
          have := abs_le.mp (le_of_eq hk5)
          linarith [this.1]
        exact_mod_cast this
      rw [abs_le]
      constructor
      · rw [abs_of_nonneg (by omega : (0 : ℤ) ≤ exactRound10 x)]; omega
      · rw [abs_of_nonneg (by omega : (0 : ℤ) ≤ exactRound10 x)]; omega

/-- The number 245 is a binary64 number below `2^53`, and `round10` takes it to
a multiple of 10. -/
theorem round10_nearest_witness :
    roundQ 245 = 245 ∧ |(245 : ℚ)| ≤ 2 ^ 53 ∧
    ∃ r : ℤ, round10 (.fin 245) = .fin r ∧ (10 ∣ r) :=
  ⟨by decide!, by norm_num,
    (round10_nearest 245 (by decide!) (by norm_num)).imp fun _ h => ⟨h.1, h.2.1⟩⟩

/-- C7, as stated, fails: 333333 metres at base rate 100000000001 give an ok
quote whose `raw` is `33333300000333328`, which is not a multiple of 10 (the
product lies beyond `2^53`, where not every integer is a number); and a million
metres at base rate `1e308` give an ok quote whose `raw` is `Infinity`. -/
theorem priceRange_not_multiple_counterexample :
    (priceRange bigRateCore bigQuantityLead =
        .ok "colorbond_fencing" 333333 ⟨"1.8m", 1, "easy", 1, "unknown", 1, 1⟩
          (.fin 33333300000333328) (.fin 29999970000300000) (.fin 39999960000400000) ∧
      ¬ (10 : ℤ) ∣ 33333300000333328) ∧
    priceRange overflowCore maxQuantityLead =
      .ok "colorbond_fencing" 1000000 ⟨"1.8m", 1, "easy", 1, "unknown", 1, 1⟩
        .posInf .nan .posInf := by
  refine ⟨⟨by decide!, by decide⟩, by decide!⟩

/-- C7 (amended): every figure of an ok quote that is a finite number of
magnitude up to `2^53` is an integer multiple of 10. -/
theorem priceRange_multiples_of_ten (core : Core) (input : Lead) (service : String) (qty : ℚ)
    (factors : Factors) (raw low high : JsNumber)
    (h : priceRange core input = .ok service qty factors raw low high) :
    ∀ v ∈ [raw, low, high], ∀ q : ℚ, v = .fin q → |q| ≤ 2 ^ 53 → ∃ m : ℤ, q = 10 * m := by
  have hdvd : ∀ (n : JsNumber) (q : ℚ), round10 n = .fin q → |q| ≤ 2 ^ 53 →
      ∃ m : ℤ, q = 10 * m := by
    intro n q hq hb
    obtain ⟨M, hM, _⟩ := round10_fin_multiple n q hq (by norm_num at hb ⊢; exact hb)
    exact ⟨M, by rw [hM]; ring⟩
  simp only [priceRange] at h
  split at h
  · exact Quote.noConfusion h
  · split at h
    · injection h with _ _ _ hr hl hh
      subst hr hl hh
      intro v hv q hq hb
      simp only [List.mem_cons, List.mem_singleton, List.not_mem_nil, or_false] at hv
      rcases hv with rfl | rfl | rfl <;> exact hdvd _ q hq hb
    · exact Quote.noConfusion h

/-- The quote of scenario A: its figure `low = 1440` is ten times an integer. -/
theorem priceRange_multiples_of_ten_witness :
    priceRange scenarioCore scenarioALead =
      .ok "colorbond_fencing" 20 ⟨"1.8m", 1, "easy", 1, "unknown", 1, 1⟩
        (.fin 1600) (.fin 1440) (.fin 1920) ∧
    ∃ m : ℤ, (1440 : ℚ) = 10 * m :=
  ⟨by decide!,
    priceRange_multiples_of_ten scenarioCore scenarioALead "colorbond_fencing" 20
      ⟨"1.8m", 1, "easy", 1, "unknown", 1, 1⟩ (.fin 1600) (.fin 1440) (.fin 1920) (by decide!)
      (.fin 1440) (by simp) 1440 rfl (by norm_num)⟩

/-- No integer is nearer to `v` than `Math.round(v)`. -/
theorem mathRound_nearest (v : ℚ) (k : ℤ) :
    |((mathRound v : ℤ) : ℚ) - v| ≤ |(k : ℚ) - v| := by
  obtain ⟨h1, h2⟩ := mathRound_window v
  have hnear : |((mathRound v : ℤ) : ℚ) - v| ≤ 1 / 2 := abs_le.mpr ⟨by linarith, h1⟩
  rcases lt_trichotomy k (mathRound v) with h | h | h
  · have hk : k + 1 ≤ mathRound v := h
    have hk' : (k : ℚ) + 1 ≤ ((mathRound v : ℤ) : ℚ) := by exact_mod_cast hk
    have : 1 / 2 ≤ |(k : ℚ) - v| := by
      rw [abs_sub_comm]
      exact le_trans (by linarith) (le_abs_self _)
    linarith
  · rw [h]
  · have hk : mathRound v + 1 ≤ k := h
    have hk' : ((mathRound v : ℤ) : ℚ) + 1 ≤ (k : ℚ) := by exact_mod_cast hk
    have : 1 / 2 ≤ |(k : ℚ) - v| := le_trans (by linarith) (le_abs_self _)
    linarith

/-- C17, as stated, fails: with `deposit_percentage_default = 0.35` the call
`depositAmount(10)` returns 4.  The stored percentage is the binary64 number
nearest to 0.35, which lies below 0.35, so the product of the two clamped
values lies below 3.5 and the integer nearest to it is 3; the source rounds the
binary64 product, which is 3.5. -/
theorem depositAmount_counterexample :
    depositCore.business_rules.deposit_percentage_default = .fin (double (35 / 100)) ∧
    clampNumber (.fin 10) 0 1000000000000 = 10 ∧
    clampNumber depositCore.business_rules.deposit_percentage_default 0 1 = double (35 / 100) ∧
    depositAmount depositCore (.fin 10) = .fin 4 ∧
    |(3 : ℚ) - 10 * double (35 / 100)| < |(4 : ℚ) - 10 * double (35 / 100)| ∧
    roundQ (10 * double (35 / 100)) = 7 / 2 := by
  decide!

/-- C17 (amended): `depositAmount` returns an integer nearest to the binary64
product of `clamp(total, 0, 1e12)` and `clamp(deposit_percentage_default, 0,
1)`: no integer is nearer to that product, which is the number nearest to the
exact product and within `2^-14` of it.  With `deposit_percentage_default =
0.2`, `depositAmount(2000)` is exactly `400`. -/
theorem depositAmount_nearest (core : Core) (total : JsNumber) :
    let t := clampNumber total 0 1000000000000
    let pct := clampNumber core.business_rules.deposit_percentage_default 0 1
    let product := roundQ (t * pct)
    (0 ≤ t ∧ t ≤ 1000000000000) ∧ (0 ≤ pct ∧ pct ≤ 1) ∧
    (JsNumber.fin t).mul (.fin pct) = .fin product ∧
    |product - t * pct| ≤ 1 / 2 ^ 14 ∧
    (∃ d : ℤ, depositAmount core total = .fin d ∧
      ∀ k : ℤ, |(d : ℚ) - product| ≤ |(k : ℚ) - product|) ∧
    (scenarioCore.business_rules.deposit_percentage_default = .fin (double (2 / 10)) ∧
      depositAmount scenarioCore (.fin 2000) = .fin 400) := by
  intro t pct product
  have ht : 0 ≤ t ∧ t ≤ 1000000000000 := clampNumber_bounds _ _ _ (by norm_num)
  have hp : 0 ≤ pct ∧ pct ≤ 1 := clampNumber_bounds _ _ _ (by norm_num)
  have hprod0 : 0 ≤ t * pct := mul_nonneg ht.1 hp.1
  have hprod1 : t * pct ≤ 1000000000000 := by
    calc t * pct ≤ t * 1 := mul_le_mul_of_nonneg_left hp.2 ht.1
      _ = t := mul_one t
      _ ≤ 1000000000000 := ht.2
  have hmul : (JsNumber.fin t).mul (.fin pct) = .fin product := by
    simp only [JsNumber.mul]
    apply roundDouble_of_abs_le (t * pct) 1000000000000
    · rw [abs_of_nonneg hprod0]; exact hprod1
    · exact roundQ_intCast 1000000000000 (by norm_num)
    · exact lt_trans (by norm_num) pow2_1024_gt
  have herr : |product - t * pct| ≤ 1 / 2 ^ 14 := by
    rcases eq_or_lt_of_le hprod0 with h0 | hpos
    · simp only [product, ← h0, roundQ_zero, sub_zero, abs_zero]
      positivity
    · have he := roundQ_error (t * pct)
      rw [abs_of_pos hpos] at he
      have hq : quantumExp (t * pct) ≤ -13 := by
        apply quantumExp_le _ _ hpos _ (by norm_num)
        have : pow2 (-13 + 53) = 1099511627776 := by
          rw [show ((-13 + 53 : ℤ)) = ((40 : ℕ) : ℤ) by norm_num, pow2_natCast]; norm_num
        rw [this]
        linarith
      have h13 : pow2 (-13) = 1 / 2 ^ 13 := by
        rw [pow2_eq_zpow]; norm_num [zpow_neg]
      have := pow2_le_pow2 hq
      rw [h13] at this
      calc |product - t * pct| ≤ pow2 (quantumExp (t * pct)) / 2 := he
        _ ≤ (1 / 2 ^ 13) / 2 := by linarith
        _ = 1 / 2 ^ 14 := by norm_num
  refine ⟨ht, hp, hmul, herr, ⟨mathRound product, ?_, fun k => mathRound_nearest _ k⟩, rfl,
    by decide!⟩
  show ((JsNumber.fin t).mul (.fin pct)).round = _
  rw [hmul]
  rfl

/-- C18, as stated, fails: `36496459960598056` is a binary64 number, `round10`
takes it to `36496459960598064`, and `round10` takes that to
`36496459960598072`. -/
theorem round10_idempotent_counterexample :
    roundQ 36496459960598056 = 36496459960598056 ∧
    round10 (.fin 36496459960598056) = .fin 36496459960598064 ∧
    round10 (round10 (.fin 36496459960598056)) = .fin 36496459960598072 := by
  decide!

/-- C18 (amended): `round10` is idempotent at every number `n` for which
`round10 n` is not a finite number beyond `2^53` in magnitude: it is then
`NaN`, an infinity, or a multiple of 10 that `round10` returns unchanged. -/
theorem round10_idempotent (n : JsNumber)
    (h : ∀ q : ℚ, round10 n = .fin q → |q| ≤ 2 ^ 53) :
    round10 (round10 n) = round10 n := by
  cases hr : round10 n with
  | fin q =>
    have hb := h q hr
    obtain ⟨M, hM, hMb⟩ := round10_fin_multiple n q hr (by norm_num at hb ⊢; exact hb)
    rw [hM]
    exact round10_of_multiple M hMb
  | nan => exact round10_nonfinite.1
  | posInf => exact round10_nonfinite.2.1
  | negInf => exact round10_nonfinite.2.2

/-- At 1445 `round10` returns 1450, and returns 1450 again on that. -/
theorem round10_idempotent_witness :
    round10 (.fin 1445) = .fin 1450 ∧ round10 (round10 (.fin 1445)) = round10 (.fin 1445) :=
  have h1 : round10 (.fin 1445) = .fin 1450 := by decide!
  ⟨h1, round10_idempotent (.fin 1445) (by
    intro q hq
    rw [h1] at hq
    injection hq with hq
    rw [← hq]
    norm_num)⟩

/-- The clamp is monotone in the clamped number. -/
theorem clampNumber_mono (b b' lo hi : ℚ) (h : b ≤ b') :
    clampNumber (.fin b) lo hi ≤ clampNumber (.fin b') lo hi := by
  simp only [clampNumber]
  exact min_le_min (max_le_max h le_rfl) le_rfl

/-- A factor looked up in a table of non-negative factors is non-negative. -/
theorem factorOf_nonneg (table : List (String × ℚ)) (key : String)
    (h : ∀ p ∈ table, 0 ≤ p.2) : 0 ≤ factorOf table key := by
  induction table with
  | nil => simp [factorOf, List.lookup]
  | cons p rest ih =>
    obtain ⟨k, v⟩ := p
    have hv : 0 ≤ v := h (k, v) (List.mem_cons_self _ _)
    have hrest : 0 ≤ factorOf rest key := ih fun q hq => h q (List.mem_cons_of_mem _ hq)
    simp only [factorOf, List.lookup] at hrest ⊢
    split
    · simpa using hv
    · exact hrest

/-- A base rate found in a table is an entry of that table. -/
theorem lookup_mem (table : List (String × JsNumber)) (key : String) (v : JsNumber)
    (h : table.lookup key = some v) : ∃ p ∈ table, p.2 = v := by
  induction table with
  | nil => simp [List.lookup] at h
  | cons p rest ih =>
    obtain ⟨k, w⟩ := p
    simp only [List.lookup] at h
    split at h
    · exact ⟨(k, w), List.mem_cons_self _ _, by simpa using h⟩
    · obtain ⟨q, hq, hv⟩ := ih h
      exact ⟨q, List.mem_cons_of_mem _ hq, hv⟩

/-- A finite product of a non-negative finite number and a non-negative factor
is not negative. -/
theorem mul_fin_nonneg (x c r : ℚ) (hx : 0 ≤ x) (hc : 0 ≤ c)
    (h : roundDouble (x * c) = .fin r) : 0 ≤ r := by
  rw [(roundDouble_eq_fin _ _ h).1]
  exact roundQ_nonneg (mul_nonneg hx hc)

/-- A number that is not `NaN` and not negative is at least `0`. -/
theorem le_of_nonNegative (a : JsNumber) (h : a.nonNegative) : (JsNumber.fin 0).le a := by
  cases a <;> simp_all [JsNumber.le, JsNumber.nonNegative]

/-- The three figures of a quote are ordered when the product of the
non-negative quantity, rate and factors is finite after `round10`. -/
theorem quote_ordered (a b c1 c2 c3 c4 lf hf : ℚ) (ha : 0 ≤ a) (hb : 0 ≤ b) (h1 : 0 ≤ c1)
    (h2 : 0 ≤ c2) (h3 : 0 ≤ c3) (h4 : 0 ≤ c4) (hlf0 : 0 ≤ lf) (hlf1 : lf ≤ 1) (hhf : 1 ≤ hf)
    (product : JsNumber)
    (hp : product = (((((JsNumber.fin a).mul (.fin b)).mul (.fin c1)).mul (.fin c2)).mul
      (.fin c3)).mul (.fin c4))
    (hfin : (round10 product).isFinite = true) :
    (JsNumber.fin 0).le (round10 (product.mul (.fin lf))) ∧
    (round10 (product.mul (.fin lf))).le (round10 product) ∧
    (round10 product).le (round10 (product.mul (.fin hf))) := by
  obtain ⟨r, hr⟩ : ∃ r, product = .fin r := by
    cases hprod : product with
    | fin r => exact ⟨r, rfl⟩
    | nan => rw [hprod, round10_nonfinite.1] at hfin; exact Bool.noConfusion hfin
    | posInf => rw [hprod, round10_nonfinite.2.1] at hfin; exact Bool.noConfusion hfin
    | negInf => rw [hprod, round10_nonfinite.2.2] at hfin; exact Bool.noConfusion hfin
  rw [hr] at hp
  obtain ⟨x4, e4, f4⟩ := mul_eq_fin _ _ _ hp.symm
  obtain ⟨x3, e3, f3⟩ := mul_eq_fin _ _ _ e4
  obtain ⟨x2, e2, f2⟩ := mul_eq_fin _ _ _ e3
  obtain ⟨x1, e1, f1⟩ := mul_eq_fin _ _ _ e2
  have f0 : roundDouble (a * b) = .fin x1 := e1
  have n1 := mul_fin_nonneg a b x1 ha hb f0
  have n2 := mul_fin_nonneg x1 c1 x2 n1 h1 f1
  have n3 := mul_fin_nonneg x2 c2 x3 n2 h2 f2
  have n4 := mul_fin_nonneg x3 c3 x4 n3 h3 f3
  have n5 := mul_fin_nonneg x4 c4 r n4 h4 f4
  obtain ⟨hrq, hrb⟩ := roundDouble_eq_fin _ _ f4
  have hidem : roundQ r = r := by rw [hrq, roundQ_idem]
  have hself : roundDouble r = .fin r := by
    rw [roundDouble_of_lt r (by rw [hidem]; exact hrb), hidem]
  rw [hr]
  have hlow : ((JsNumber.fin r).mul (.fin lf)).le (.fin r) := by
    have := roundDouble_mono (show r * lf ≤ r from mul_le_of_le_one_right n5 hlf1)
    rwa [hself] at this
  have hhigh : (JsNumber.fin r).le ((JsNumber.fin r).mul (.fin hf)) := by
    have := roundDouble_mono (show r ≤ r * hf from le_mul_of_one_le_right n5 hhf)
    rwa [hself] at this
  have hzero : (JsNumber.fin 0).le ((JsNumber.fin r).mul (.fin lf)) :=
    le_of_nonNegative _ (roundDouble_nonneg _ (mul_nonneg n5 hlf0))
  have hz10 : round10 (.fin 0) = .fin 0 := by
    have := round10_of_multiple 0 (by norm_num)
    simpa using this
  refine ⟨?_, round10_mono _ _ hlow, round10_mono _ _ hhigh⟩
  have := round10_mono _ _ hzero
  rwa [hz10] at this

/-- C20, as stated, fails: with base rate `1e308`, range factors 0 and 1.2 and
every multiplier 1 (all non-negative, `0 ≤ low_factor ≤ 1 ≤ high_factor`), a
million metres give an ok quote with `raw = Infinity` and `low = NaN` (the
product overflows, and `Infinity * 0` is `NaN`), so `0 ≤ low` does not hold. -/
theorem priceRange_overflow_counterexample :
    ((∀ p ∈ overflowCore.pricing_engine.base_rates, ∀ r : ℚ, p.2 = .fin r → 0 ≤ r) ∧
      (∀ p ∈ overflowCore.pricing_engine.multipliers.height, 0 ≤ p.2) ∧
      (∀ p ∈ overflowCore.pricing_engine.multipliers.access, 0 ≤ p.2) ∧
      (∀ p ∈ overflowCore.pricing_engine.multipliers.ground, 0 ≤ p.2) ∧
      0 ≤ overflowCore.business_rules.wet_season_multiplier ∧
      0 ≤ overflowCore.pricing_engine.range.low_factor ∧
      overflowCore.pricing_engine.range.low_factor ≤ 1 ∧
      1 ≤ overflowCore.pricing_engine.range.high_factor) ∧
    priceRange overflowCore maxQuantityLead =
      .ok "colorbond_fencing" 1000000 ⟨"1.8m", 1, "easy", 1, "unknown", 1, 1⟩
        .posInf .nan .posInf ∧
    ¬ (JsNumber.fin 0).le .nan := by
  refine ⟨⟨?_, ?_, ?_, ?_, by decide!, by decide!, by decide!, by decide!⟩, by decide!,
    fun h => h⟩
  · intro p hp r hr
    have hp' : p = ("colorbond_fencing", .fin hugeRate) := List.mem_singleton.mp hp
    subst hp'
    have hr2 : JsNumber.fin hugeRate = .fin r := hr
    rw [← JsNumber.fin.inj hr2]
    unfold hugeRate double
    apply roundQ_nonneg
    positivity
  · simp [overflowCore, scenarioCore]
  · simp [overflowCore, scenarioCore]
  · simp [overflowCore, scenarioCore]

/-- C20 (amended): when every base rate and every multiplier (height, access,
ground, wet season) of the configuration is non-negative and the range factors
satisfy `0 ≤ low_factor ≤ 1 ≤ high_factor`, the figures of an ok quote whose
`raw` is a finite number are ordered after rounding: `0 ≤ low ≤ raw ≤ high`,
where `high` may be `Infinity`. -/
theorem priceRange_ordered (core : Core) (input : Lead) (service : String) (qty : ℚ)
    (factors : Factors) (raw low high : JsNumber)
    (hrate : ∀ p ∈ core.pricing_engine.base_rates, ∀ r : ℚ, p.2 = .fin r → 0 ≤ r)
    (hheight : ∀ p ∈ core.pricing_engine.multipliers.height, 0 ≤ p.2)
    (haccess : ∀ p ∈ core.pricing_engine.multipliers.access, 0 ≤ p.2)
    (hground : ∀ p ∈ core.pricing_engine.multipliers.ground, 0 ≤ p.2)
    (hwet : 0 ≤ core.business_rules.wet_season_multiplier)
    (hlow0 : 0 ≤ core.pricing_engine.range.low_factor)
    (hlow1 : core.pricing_engine.range.low_factor ≤ 1)
    (hhigh : 1 ≤ core.pricing_engine.range.high_factor)
    (h : priceRange core input = .ok service qty factors raw low high)
    (hfin : raw.isFinite = true) :
    (JsNumber.fin 0).le low ∧ low.le raw ∧ raw.le high := by
  simp only [priceRange] at h
  split at h
  · exact Quote.noConfusion h
  · split at h
    · rename_i baseRate hb
      obtain ⟨p, hp, hpv⟩ := lookup_mem _ _ _ hb
      have hr : 0 ≤ baseRate := hrate p hp baseRate hpv
      have hq : 0 ≤ clampNumber input.qty 0 1000000 :=
        (clampNumber_bounds _ _ _ (by norm_num)).1
      have hhf := factorOf_nonneg _ (normalizeHeight input.height) hheight
      have haf := factorOf_nonneg _ (normalizeAccess input.access) haccess
      have hgf := factorOf_nonneg _ (normalizeGround input.ground) hground
      have hsf : 0 ≤ (if input.wet_season = true then core.business_rules.wet_season_multiplier
          else 1) := by
        split
        · exact hwet
        · norm_num
      injection h with _ _ _ hr' hl' hh'
      subst hr' hl' hh'
      exact quote_ordered _ _ _ _ _ _ _ _ hq hr hhf haf hgf hsf hlow0 hlow1 hhigh _ rfl hfin
    · exact Quote.noConfusion h

/-- The quote of scenario A is ordered: `0 ≤ 1440 ≤ 1600 ≤ 1920`. -/
theorem priceRange_ordered_witness :
    (0 ≤ scenarioCore.business_rules.wet_season_multiplier ∧
      0 ≤ scenarioCore.pricing_engine.range.low_factor ∧
      scenarioCore.pricing_engine.range.low_factor ≤ 1 ∧
      1 ≤ scenarioCore.pricing_engine.range.high_factor) ∧
    priceRange scenarioCore scenarioALead =
      .ok "colorbond_fencing" 20 ⟨"1.8m", 1, "easy", 1, "unknown", 1, 1⟩
        (.fin 1600) (.fin 1440) (.fin 1920) ∧
    ((JsNumber.fin 0).le (.fin 1440) ∧ (JsNumber.fin 1440).le (.fin 1600) ∧
      (JsNumber.fin 1600).le (.fin 1920)) :=
  ⟨by decide!, by decide!,
    priceRange_ordered scenarioCore scenarioALead "colorbond_fencing" 20
      ⟨"1.8m", 1, "easy", 1, "unknown", 1, 1⟩ (.fin 1600) (.fin 1440) (.fin 1920)
      (by
        intro p hp r hr
        simp only [scenarioCore, List.mem_singleton] at hp
        subst hp
        injection hr with hr
        rw [← hr]
        norm_num)
      (by simp [scenarioCore]) (by simp [scenarioCore]) (by simp [scenarioCore])
      (by decide!) (by decide!) (by decide!) (by decide!) (by decide!) rfl⟩

/-- A text with no `$`, no `budget`, no `k` and no `grand` gets the fallback
budget: the configured `minimum_job_value` when it is not `0`, else `1500`. -/
theorem buildLead_budget_default (MONSTER_CORE : Option Core) (text : String)
    (hd : jsIncludes text "$" = false)
    (hb : jsIncludes (jsLower text) "budget" = false)
    (hk : jsIncludes (jsLower text) "k" = false)
    (hg : jsIncludes (jsLower text) "grand" = false) :
    (buildLeadFromText MONSTER_CORE text).budget = .fin (fallbackBudget MONSTER_CORE) := by
  simp [buildLeadFromText, suffixBudget, dollarBudget, hd, hb, hk, hg, JsNumber.nonPositive]

/-- C8 at a configuration whose `minimum_job_value` is `0`: the text has no
`$`, no `budget`, no `k` and no `grand`, a configuration is available, and the
budget of the built lead is `1500`, not the configured minimum `0`. -/
theorem buildLead_budget_zero_minimum :
    (jsIncludes plainText "$" = false ∧ jsIncludes (jsLower plainText) "budget" = false ∧
      jsIncludes (jsLower plainText) "k" = false ∧
      jsIncludes (jsLower plainText) "grand" = false) ∧
    zeroMinimumCore.business_rules.minimum_job_value = 0 ∧
    (buildLeadFromText (some zeroMinimumCore) plainText).budget = .fin 1500 := by
  decide!

/-- C9: when the text has a `$` or the word `budget` and neither the `$` amount
pattern nor the `budget <number> k|grand` pattern matches, the budget of the
built lead is `0`, whatever the configuration is. -/
theorem buildLead_budget_unparsed (MONSTER_CORE : Option Core) (text : String)
    (hmark : jsIncludes text "$" = true ∨ jsIncludes (jsLower text) "budget" = true)
    (hdollar : matchDollar text = none)
    (hbudget : matchBudget (jsLower text) = none) :
    (buildLeadFromText MONSTER_CORE text).budget = .fin 0 := by
  have h1 : dollarBudget text = .fin 0 := by
    simp only [dollarBudget, hdollar]
    split <;> rfl
  have h2 : suffixBudget text = .fin 0 := by
    simp only [suffixBudget, h1, hbudget]
    split <;> rfl
  simp only [buildLeadFromText, h2]
  rcases hmark with h | h <;> simp [h]

/-- A text with both markers and no amount: the budget stays `0` under a
configuration whose minimum job value is 1500. -/
theorem buildLead_budget_unparsed_witness :
    (jsIncludes noAmountText "$" = true ∨ jsIncludes (jsLower noAmountText) "budget" = true) ∧
    matchDollar noAmountText = none ∧ matchBudget (jsLower noAmountText) = none ∧
    (buildLeadFromText (some scenarioCore) noAmountText).budget = .fin 0 :=
  ⟨Or.inl (by decide!), by decide!, by decide!,
    buildLead_budget_unparsed (some scenarioCore) noAmountText (Or.inl (by decide!))
      (by decide!) (by decide!)⟩

/-- A decline of `evaluateLead` carries `getRuleMessage` of its own rule id. -/
theorem evaluateLead_declined_message (core : Core) (lead : Lead) (r a m : String)
    (h : evaluateLead core lead = .declined r a m) : m = getRuleMessage core r := by
  simp only [evaluateLead] at h
  split at h
  · injection h with hr _ hm
    rw [← hr, ← hm]
  · split at h
    · injection h with hr _ hm
      rw [← hr, ← hm]
    · split at h
      · injection h with hr _ hm
        rw [← hr, ← hm]
      · exact Decision.noConfusion h

/-- C10, as stated, fails: the configuration has a rule `tight_access_min`
whose message is empty, and the decline with that rule id carries the generic
message instead of the rule's message. -/
theorem evaluateLead_empty_message_counterexample :
    (emptyMessageCore.lead_filtering.rules.find?
      (fun r => decide (r.id = "tight_access_min"))).map Rule.message = some "" ∧
    evaluateLead emptyMessageCore tightLead =
      .declined "tight_access_min" "auto_decline" "Thanks for reaching out." := by
  decide!

/-- C10 (amended): the message of a decline is the message of the first
configured rule whose id is the decision's `ruleId` when that message is not
empty, and the generic `Thanks for reaching out.` when that message is empty or
no rule has that id. -/
theorem evaluateLead_message (core : Core) (lead : Lead) (r a m : String)
    (h : evaluateLead core lead = .declined r a m) :
    (∀ rule, core.lead_filtering.rules.find? (fun x => decide (x.id = r)) = some rule →
      rule.message ≠ "" → m = rule.message) ∧
    (∀ rule, core.lead_filtering.rules.find? (fun x => decide (x.id = r)) = some rule →
      rule.message = "" → m = "Thanks for reaching out.") ∧
    ((∀ rule ∈ core.lead_filtering.rules, rule.id ≠ r) → m = "Thanks for reaching out.") := by
  have hm := evaluateLead_declined_message core lead r a m h
  refine ⟨fun rule hf hne => ?_, fun rule hf he => ?_, fun hnone => ?_⟩
  · simp [hm, getRuleMessage, hf, hne]
  · simp [hm, getRuleMessage, hf, he]
  · have hf : core.lead_filtering.rules.find? (fun x => decide (x.id = r)) = none := by
      rw [List.find?_eq_none]
      intro x hx
      simpa using hnone x hx
    simp [hm, getRuleMessage, hf]

/-- A decline below the minimum job value carries the configured message of
rule `min_job_value`. -/
theorem evaluateLead_message_witness :
    evaluateLead scenarioCore smallLead =
      .declined "min_job_value" "auto_decline" "That job is below our minimum." ∧
    scenarioCore.lead_filtering.rules.find? (fun x => decide (x.id = "min_job_value")) =
      some ⟨"min_job_value", "That job is below our minimum."⟩ ∧
    "That job is below our minimum." =
      (⟨"min_job_value", "That job is below our minimum."⟩ : Rule).message :=
  ⟨by decide!, rfl,
    (evaluateLead_message scenarioCore smallLead "min_job_value" "auto_decline"
      "That job is below our minimum." (by decide!)).1 _ rfl (by decide)⟩

/-- C15: for bounds `min ≤ max`, `clampNumber(n, min, max)` lies within
`[min, max]`, equals `n` when `n` is already within `[min, max]`, and equals
`min` when `n` is `NaN` or an infinity; in particular every budget is mapped
into `[0, 1e9]`. -/
theorem clampNumber_spec (n : JsNumber) (lo hi : ℚ) (h : lo ≤ hi) :
    (lo ≤ clampNumber n lo hi ∧ clampNumber n lo hi ≤ hi) ∧
    (∀ x : ℚ, n = .fin x → lo ≤ x → x ≤ hi → clampNumber n lo hi = x) ∧
    (n.isFinite = false → clampNumber n lo hi = lo) ∧
    (∀ budget : JsNumber,
      0 ≤ clampNumber budget 0 1000000000 ∧ clampNumber budget 0 1000000000 ≤ 1000000000) := by
  refine ⟨clampNumber_bounds n lo hi h, ?_, ?_, fun b => clampNumber_bounds b _ _ (by norm_num)⟩
  · intro x hn hlo hhi
    subst hn
    simp [clampNumber, hlo, hhi]
  · intro hfin
    cases n with
    | fin q => simp [JsNumber.isFinite] at hfin
    | nan => rfl
    | posInf => rfl
    | negInf => rfl

/-- A budget of two thousand million is clamped to `1e9`, a budget of `NaN` to
`0`. -/
theorem clampNumber_spec_witness :
    (0 : ℚ) ≤ 1000000000 ∧
    clampNumber (.fin 2000000000) 0 1000000000 = 1000000000 ∧
    clampNumber .nan 0 1000000000 = 0 :=
  ⟨by norm_num,
    le_antisymm (clampNumber_spec (.fin 2000000000) 0 1000000000 (by norm_num)).1.2
      (by decide!),
    (clampNumber_spec .nan 0 1000000000 (by norm_num)).2.2.1 rfl⟩

/-- C19: `evaluateLead` is monotone in the budget: when two leads differ only
in their finite budgets `b ≤ b'` and the lead with budget `b` is allowed, the
lead with budget `b'` is allowed. -/
theorem evaluateLead_monotone (core : Core) (lead : Lead) (b b' : ℚ) (hbb : b ≤ b')
    (h : evaluateLead core { lead with budget := .fin b } = .allowed) :
    evaluateLead core { lead with budget := .fin b' } = .allowed := by
  have hc := clampNumber_mono b b' 0 1000000000 hbb
  simp only [evaluateLead] at h ⊢
  split at h
  · exact Decision.noConfusion h
  · rename_i hs
    split at h
    · exact Decision.noConfusion h
    · rename_i hm
      split at h
      · exact Decision.noConfusion h
      · rename_i ht
        rw [if_neg hs, if_neg (fun hlt => hm (lt_of_le_of_lt hc hlt)),
          if_neg (fun hlt => ht ⟨hlt.1, lt_of_le_of_lt hc hlt.2⟩)]

/-- Scenario A is allowed with budget 1500, hence with budget 5000. -/
theorem evaluateLead_monotone_witness :
    (1500 : ℚ) ≤ 5000 ∧
    evaluateLead scenarioCore { largerBudgetLead with budget := .fin 1500 } = .allowed ∧
    evaluateLead scenarioCore { largerBudgetLead with budget := .fin 5000 } = .allowed :=
  ⟨by norm_num, by decide,
    evaluateLead_monotone scenarioCore largerBudgetLead 1500 5000 (by norm_num) (by decide)⟩

/-- C11: `pickServiceFromText` returns the category of the first keyword group,
in the fixed order of `serviceGroups`, that has a keyword occurring in the
lower-cased text, whatever later groups occur too, and it returns the empty
string exactly when no keyword of any group occurs. -/
theorem pickServiceFromText_first_group (text : String) :
    pickServiceFromText text =
      ((serviceGroups.find? (groupOccurs (jsLower text))).map Prod.snd).getD "" ∧
    (pickServiceFromText text = "" ↔
      ∀ g ∈ serviceGroups, ∀ k ∈ g.1, jsIncludes (jsLower text) k = false) := by
  constructor
  · simp only [pickServiceFromText, serviceGroups, groupOccurs, List.find?, List.any,
      Bool.or_false, Bool.or_assoc]
    split_ifs with h1 h2 h3 h4 h5 h6 h7 h8 <;> simp only [*] <;> rfl
  · simp only [pickServiceFromText, serviceGroups, List.mem_cons, List.mem_singleton,
      List.not_mem_nil, or_false, forall_eq_or_imp, forall_eq]
    split_ifs <;> simp_all <;> intros <;> simp_all

/-- A text naming a bobcat, a garden and a timber fence is an excavation
lead: the excavation group comes first. -/
theorem pickServiceFromText_mixed :
    pickServiceFromText mixedServiceText = "excavation" ∧
    pickServiceFromText "hello there" = "" := by
  decide!

/-- The character before a position moves along with the scan. -/
theorem charBefore_cons (prev : Option Char) (c : Char) (pre : List Char) :
    charBefore prev (c :: pre) = charBefore (some c) pre := by
  cases pre with
  | nil => rfl
  | cons d rest =>
    simp only [charBefore, List.getLast?_cons_cons]
    cases h : (d :: rest).getLast? with
    | none => simp at h
    | some x => rfl

/-- A result of the scan is the result of the matcher at some position. -/
theorem scanFrom_some_exists {α : Type} (f : Option Char → List Char → Option α)
    (prev : Option Char) (s : List Char) (r : α) (h : scanFrom f prev s = some r) :
    ∃ p suf, f p suf = some r := by
  induction s generalizing prev with
  | nil => exact ⟨prev, [], h⟩
  | cons c rest ih =>
    simp only [scanFrom] at h
    split at h
    · rename_i r' hr
      exact ⟨prev, c :: rest, by rw [hr, h]⟩
    · exact ih _ h

/-- When the matcher fails at every position, the scan finds nothing. -/
theorem scanFrom_none_of_forall {α : Type} (f : Option Char → List Char → Option α)
    (prev : Option Char) (s : List Char)
    (h : ∀ pre suf, s = pre ++ suf → f (charBefore prev pre) suf = none) :
    scanFrom f prev s = none := by
  induction s generalizing prev with
  | nil => exact h [] [] rfl
  | cons c rest ih =>
    have h0 : f prev (c :: rest) = none := h [] (c :: rest) rfl
    simp only [scanFrom, h0]
    apply ih
    intro pre suf hs
    have := h (c :: pre) suf (by rw [hs]; rfl)
    rwa [charBefore_cons] at this

/-- The scan returns the result of the matcher at the leftmost position where
it succeeds. -/
theorem scanFrom_leftmost {α : Type} (f : Option Char → List Char → Option α)
    (prev : Option Char) (pre suf : List Char) (r : α)
    (hm : f (charBefore prev pre) suf = some r)
    (hmin : ∀ pre' suf', pre ++ suf = pre' ++ suf' → pre'.length < pre.length →
      f (charBefore prev pre') suf' = none) :
    scanFrom f prev (pre ++ suf) = some r := by
  induction pre generalizing prev with
  | nil =>
    cases suf with
    | nil => exact hm
    | cons c rest =>
      have hm' : f prev (c :: rest) = some r := hm
      simp [scanFrom, hm']
  | cons c pre' ih =>
    have h0 : f prev (c :: (pre' ++ suf)) = none :=
      hmin [] (c :: (pre' ++ suf)) rfl (by simp)
    show scanFrom f prev (c :: (pre' ++ suf)) = some r
    simp only [scanFrom, h0]
    apply ih
    · rwa [charBefore_cons] at hm
    · intro p s hs hlen
      have := hmin (c :: p) s (by simp [hs]) (by simpa using hlen)
      rwa [charBefore_cons] at this

/-- Dropping a leading run of white space. -/
theorem dropWhile_append_of_all (p : Char → Bool) (ws l : List Char)
    (h : ∀ c ∈ ws, p c = true) : (ws ++ l).dropWhile p = l.dropWhile p := by
  induction ws with
  | nil => rfl
  | cons c rest ih =>
    have hc : p c = true := h c (List.mem_cons_self _ _)
    simp only [List.cons_append, List.dropWhile_cons, hc, if_true]
    exact ih fun d hd => h d (List.mem_cons_of_mem _ hd)

/-- The word boundary behind a character, read off the head of what follows. -/
theorem boundaryAfter_iff (post : List Char) :
    boundaryAfter post = true ↔ ∀ c, post.head? = some c → isWordChar c = false := by
  cases post with
  | nil => simp [boundaryAfter]
  | cons d rest => simp [boundaryAfter]

/-- The word boundary in front of a character. -/
theorem boundaryBefore_iff (prev : Option Char) :
    boundaryBefore prev = true ↔ ∀ c, prev = some c → isWordChar c = false := by
  cases prev with
  | none => simp [boundaryBefore]
  | some d => simp [boundaryBefore]

/-- The matcher `heightAt` succeeds exactly at a height token that stands as a
measure of its own. -/
theorem heightAt_eq_some_iff (prev : Option Char) (suf tok : List Char) :
    heightAt prev suf = some tok ↔ HeightTokenAt prev suf tok := by
  constructor
  · intro h
    simp only [heightAt] at h
    split at h
    · rename_i hc
      obtain ⟨hb, ht, hw⟩ := hc
      have htok : suf.take 3 = tok := by simpa using h
      subst htok
      refine ⟨ht, (boundaryBefore_iff prev).mp hb, ?_⟩
      simp only [wordAt, Bool.and_eq_true] at hw
      obtain ⟨hpre, hafter⟩ := hw
      obtain ⟨post, hpost⟩ := List.isPrefixOf_iff_prefix.mp hpre
      refine ⟨(suf.drop 3).takeWhile isJsSpace, post, ?_, ?_, ?_⟩
      · have h1 : suf = suf.take 3 ++ suf.drop 3 := (List.take_append_drop 3 suf).symm
        have h2 : suf.drop 3 = (suf.drop 3).takeWhile isJsSpace ++
            (suf.drop 3).dropWhile isJsSpace := (List.takeWhile_append_dropWhile _ _).symm
        rw [← hpost] at h2
        conv_lhs => rw [h1, h2]
        simp
      · intro c hc
        exact (List.mem_takeWhile_imp hc)
      · rw [← hpost] at hafter
        exact (boundaryAfter_iff post).mp (by simpa using hafter)
    · exact Option.noConfusion h
  · rintro ⟨ht, hb, ws, post, hs, hws, hpost⟩
    have hlen : tok.length = 3 := by
      simp only [heightTokens, List.mem_cons, List.mem_singleton, List.not_mem_nil,
        or_false] at ht
      rcases ht with rfl | rfl | rfl | rfl <;> rfl
    have htake : suf.take 3 = tok := by
      rw [hs, List.append_assoc, ← hlen, List.take_left]
    have hdrop : suf.drop 3 = ws ++ 'm' :: post := by
      rw [hs, List.append_assoc, ← hlen, List.drop_left]
    have hdw : (suf.drop 3).dropWhile isJsSpace = 'm' :: post := by
      rw [hdrop, dropWhile_append_of_all _ _ _ hws]
      simp [List.dropWhile_cons, show isJsSpace 'm' = false by decide]
    have hword : wordAt "m" ((suf.drop 3).dropWhile isJsSpace) = true := by
      rw [hdw]
      simp [wordAt, (boundaryAfter_iff post).mpr hpost]
    simp only [heightAt, htake]
    rw [if_pos ⟨(boundaryBefore_iff prev).mpr hb, ht, hword⟩]

/-- In front of the first position there is no character; further on, the
character in front is the last one of the part before. -/
theorem charBefore_none (pre : List Char) : charBefore none pre = pre.getLast? := by
  simp only [charBefore]
  cases pre.getLast? <;> rfl

/-- C12, as stated, fails: the text `timber fence 1.5metres high` contains the
token `1.5` followed by `m`, and the text `fence run of 11.2m` contains the
token `1.2` followed by `m`, yet `extractHeight` returns `1.8m` for both. -/
theorem extractHeight_counterexample :
    (jsIncludes (jsLower metresHeightText) "1.5m" = true ∧
      extractHeight metresHeightText = "1.8m") ∧
    (jsIncludes (jsLower longNumberText) "1.2m" = true ∧
      extractHeight longNumberText = "1.8m") := by
  decide!

/-- C12 (amended): `extractHeight` returns one of `1.2m`, `1.5m`, `1.8m`,
`2.1m`.  When the lower-cased text has a height token that stands as a measure
of its own (no letter, digit or underscore in front of it; white space,
possibly none, and an `m` behind it; no letter, digit or underscore behind
that `m`), it returns the token of the leftmost such place with the `m`
suffix; when the text has no such place it returns `1.8m`. -/
theorem extractHeight_spec (text : String) :
    extractHeight text ∈ ["1.2m", "1.5m", "1.8m", "2.1m"] ∧
    (∀ pre suf tok, (jsLower text).data = pre ++ suf → HeightTokenAt pre.getLast? suf tok →
      (∀ pre' suf' tok', (jsLower text).data = pre' ++ suf' → pre'.length < pre.length →
        ¬ HeightTokenAt pre'.getLast? suf' tok') →
      extractHeight text = ⟨tok⟩ ++ "m") ∧
    ((∀ pre suf tok, (jsLower text).data = pre ++ suf → ¬ HeightTokenAt pre.getLast? suf tok) →
      extractHeight text = "1.8m") := by
  refine ⟨?_, ?_, ?_⟩
  · simp only [extractHeight]
    cases hscan : scanFrom heightAt none (jsLower text).data with
    | none => decide
    | some tok =>
      obtain ⟨p, suf, hp⟩ := scanFrom_some_exists _ _ _ _ hscan
      have ht := ((heightAt_eq_some_iff p suf tok).mp hp).1
      simp only [heightTokens, List.mem_cons, List.mem_singleton, List.not_mem_nil,
        or_false] at ht
      rcases ht with rfl | rfl | rfl | rfl <;> decide
  · intro pre suf tok hsplit hat hmin
    have hm : heightAt (charBefore none pre) suf = some tok := by
      rw [charBefore_none]
      exact (heightAt_eq_some_iff _ _ _).mpr hat
    have hscan : scanFrom heightAt none (pre ++ suf) = some tok := by
      apply scanFrom_leftmost _ _ _ _ _ hm
      intro pre' suf' hs hlen
      rw [charBefore_none]
      cases hh : heightAt pre'.getLast? suf' with
      | none => rfl
      | some tok' =>
        exact absurd ((heightAt_eq_some_iff _ _ _).mp hh)
          (hmin pre' suf' tok' (hsplit.trans hs) hlen)
    simp only [extractHeight, hsplit, hscan]
  · intro hnone
    have hscan : scanFrom heightAt none (jsLower text).data = none := by
      apply scanFrom_none_of_forall
      intro pre suf hs
      rw [charBefore_none]
      cases hh : heightAt pre.getLast? suf with
      | none => rfl
      | some tok => exact absurd ((heightAt_eq_some_iff _ _ _).mp hh) (hnone pre suf tok hs)
    simp only [extractHeight, hscan]

/-- In `at 2.1m high` the token `2.1` stands as a measure of its own. -/
theorem heightTokenAt_example :
    HeightTokenAt (some ' ') "2.1m high".data "2.1".data :=
  ⟨by decide, by simp; decide, [], " high".data, rfl, by simp, by simp; decide⟩

/-- Heights that stand as a measure of their own are found, in capitals and
with white space before the unit too; the leftmost one wins. -/
theorem extractHeight_examples :
    extractHeight "colorbond 2.1m high" = "2.1m" ∧
    extractHeight "Fence 1.2 M, or 1.5m" = "1.2m" ∧
    extractHeight "fence, no height given" = "1.8m" := by
  decide!

/-- C13 at an empty height: `normalizeHeight("")` is `0.0m`, since `Number("")`
is `0`; the quote carries `heightKey = "0.0m"` and, the table having no such
key, the height factor `1` instead of the factor `1.1` configured for `1.8m`. -/
theorem normalizeHeight_empty :
    normalizeHeight "" = "0.0m" ∧
    priceRange heightFactorCore noHeightLead =
      .ok "colorbond_fencing" 20 ⟨"0.0m", 1, "easy", 1, "unknown", 1, 1⟩
        (.fin 1600) (.fin 1440) (.fin 1920) ∧
    factorOf heightFactorCore.pricing_engine.multipliers.height "1.8m" = double (11 / 10) := by
  decide!

/-- A height that does not end in `m` and is not a numeric literal resolves to
`1.8m`. -/
theorem normalizeHeight_unrecognised (height : String)
    (hm : jsEndsWith (jsTrim (jsLower height)) "m" = false)
    (hn : (stringToNumber (jsTrim (jsLower height))).isFinite = false) :
    normalizeHeight height = "1.8m" := by
  simp only [normalizeHeight, hm]
  cases h : stringToNumber (jsTrim (jsLower height)) with
  | fin q => rw [h] at hn; exact Bool.noConfusion hn
  | nan => rfl
  | posInf => rfl
  | negInf => rfl

/-- The height `tall` resolves to `1.8m` and its configured factor. -/
theorem normalizeHeight_word :
    normalizeHeight "tall" = "1.8m" ∧
    priceRange heightFactorCore wordHeightLead =
      .ok "colorbond_fencing" 20 ⟨"1.8m", double (11 / 10), "easy", 1, "unknown", 1, 1⟩
        (.fin 1760) (.fin 1580) (.fin 2110) := by
  decide!

/-- Lower-casing a character twice is lower-casing it once. -/
theorem toLower_idem (c : Char) : c.toLower.toLower = c.toLower := by
  by_cases h : c.toNat ≥ 65 ∧ c.toNat ≤ 90
  · have hc : ∃ n, 65 ≤ n ∧ n ≤ 90 ∧ c = Char.ofNat n :=
      ⟨c.toNat, h.1, h.2, (Char.ofNat_toNat c).symm⟩
    obtain ⟨n, h1, h2, rfl⟩ := hc
    interval_cases n <;> rfl
  · have h1 : c.toLower = c := by
      simp only [Char.toLower]
      rw [if_neg h]
    rw [h1, h1]

/-- Trimming keeps only characters of the text. -/
theorem mem_trimChars (l : List Char) (c : Char) (h : c ∈ trimChars l) : c ∈ l := by
  have h1 : trimChars l <+: l.dropWhile isJsSpace := List.rdropWhile_prefix _ _
  exact (List.dropWhile_suffix _).subset (h1.subset h)

/-- A text without white space at either end is its own trim. -/
theorem trimChars_of_ends (l : List Char)
    (hh : ∀ c, l.head? = some c → isJsSpace c = false)
    (hl : ∀ c, l.getLast? = some c → isJsSpace c = false) : trimChars l = l := by
  have h1 : l.dropWhile isJsSpace = l := by
    cases l with
    | nil => rfl
    | cons a t => simp [List.dropWhile_cons, hh a rfl]
  have h2 : l.rdropWhile isJsSpace = l := by
    rw [List.rdropWhile_eq_self_iff]
    intro hne
    have := hl (l.getLast hne) (List.getLast?_eq_getLast _ hne)
    simp [this]
  show (l.dropWhile isJsSpace).rdropWhile isJsSpace = l
  rw [h1, h2]

/-- A text without white space is its own trim. -/
theorem trimChars_of_no_space (l : List Char) (h : ∀ c ∈ l, isJsSpace c = false) :
    trimChars l = l :=
  trimChars_of_ends l (fun c hc => h c (List.mem_of_mem_head? hc))
    (fun c hc => h c (List.mem_of_mem_getLast? hc))

/-- A trimmed text has no white space at either end. -/
theorem trimChars_ends (l : List Char) :
    (∀ c, (trimChars l).head? = some c → isJsSpace c = false) ∧
    (∀ c, (trimChars l).getLast? = some c → isJsSpace c = false) := by
  constructor
  · intro c hc
    have hpre : trimChars l <+: l.dropWhile isJsSpace := List.rdropWhile_prefix _ _
    obtain ⟨t, ht⟩ := hpre
    have hhead : (l.dropWhile isJsSpace).head? = some c := by
      rw [← ht]
      cases htl : trimChars l with
      | nil => rw [htl] at hc; exact Option.noConfusion hc
      | cons a r => rw [htl] at hc; simpa using hc
    have := List.head?_dropWhile_not isJsSpace l
    rw [hhead] at this
    exact this
  · intro c hc
    have hne : trimChars l ≠ [] := by
      intro h
      rw [h] at hc
      exact Option.noConfusion hc
    have hlast : (trimChars l).getLast hne = c := by
      rw [List.getLast?_eq_getLast _ hne] at hc
      exact Option.some.inj hc
    have hnot : ¬ isJsSpace ((trimChars l).getLast hne) = true :=
      List.rdropWhile_last_not isJsSpace (l.dropWhile isJsSpace) hne
    rw [hlast] at hnot
    simpa using hnot

/-- Trimming twice is trimming once. -/
theorem trimChars_idempotent (l : List Char) : trimChars (trimChars l) = trimChars l :=
  trimChars_of_ends _ (trimChars_ends l).1 (trimChars_ends l).2

/-- A text of characters that lower-casing leaves alone is its own lower case. -/
theorem map_toLower_of_fixed (l : List Char) (h : ∀ c ∈ l, c.toLower = c) :
    l.map Char.toLower = l := by
  induction l with
  | nil => rfl
  | cons a t ih =>
    simp only [List.map_cons, h a (List.mem_cons_self _ _)]
    rw [ih fun c hc => h c (List.mem_cons_of_mem _ hc)]

/-- The trimmed lower case of a text is a fixed point of lower-casing and
trimming. -/
theorem trim_lower_fixed (s : String) :
    jsTrim (jsLower (jsTrim (jsLower s))) = jsTrim (jsLower s) := by
  have hfix : ∀ c ∈ trimChars (s.data.map Char.toLower), c.toLower = c := by
    intro c hc
    obtain ⟨d, _, hd⟩ := List.mem_map.mp (mem_trimChars _ _ hc)
    rw [← hd, toLower_idem]
  simp only [jsTrim, jsLower]
  rw [map_toLower_of_fixed _ hfix, trimChars_idempotent]

/-- Every digit character is plain. -/
theorem digitChar_plain (n : ℕ) : isPlainChar (Nat.digitChar n) = true := by
  by_cases h : n < 16
  · interval_cases n <;> decide
  · have hstar : Nat.digitChar n = '*' := by
      unfold Nat.digitChar
      repeat rw [if_neg (by omega)]
    rw [hstar]
    decide

/-- The digits that `Nat.toDigitsCore` adds are plain. -/
theorem toDigitsCore_plain (fuel n : ℕ) (ds : List Char)
    (h : ∀ c ∈ ds, isPlainChar c = true) :
    ∀ c ∈ Nat.toDigitsCore 10 fuel n ds, isPlainChar c = true := by
  induction fuel generalizing n ds with
  | zero => simpa [Nat.toDigitsCore] using h
  | succ fuel ih =>
    have hcons : ∀ c ∈ Nat.digitChar (n % 10) :: ds, isPlainChar c = true := by
      intro c hc
      rcases List.mem_cons.mp hc with rfl | hc
      · exact digitChar_plain _
      · exact h c hc
    simp only [Nat.toDigitsCore]
    split
    · exact hcons
    · exact ih _ _ hcons

/-- The decimal digits of a natural number are plain. -/
theorem natDigits_plain (n : ℕ) : ∀ c ∈ natDigits n, isPlainChar c = true :=
  toDigitsCore_plain _ _ _ (by simp)

/-- Stripping zeros keeps only characters of the digit string. -/
theorem mem_stripZeros (ds : List Char) (c : Char) (h : c ∈ stripZeros ds) : c ∈ ds := by
  have h1 : c ∈ ds.reverse.dropWhile (fun c => c = '0') := List.mem_reverse.mp h
  exact List.mem_reverse.mp ((List.dropWhile_suffix _).subset h1)

/-- The text of `Number::toString` is made of plain characters when its digits
are. -/
theorem formatDecimal_plain (ds : List Char) (n : ℤ) (h : ∀ c ∈ ds, isPlainChar c = true) :
    ∀ c ∈ formatDecimal ds n, isPlainChar c = true := by
  have hzero : ∀ k : ℕ, ∀ c ∈ List.replicate k '0', isPlainChar c = true := by
    intro k c hc
    rw [List.eq_of_mem_replicate hc]
    decide
  have hsign : isPlainChar (if n - 1 < 0 then '-' else '+') = true := by split <;> decide
  simp only [formatDecimal]
  generalize (if n - 1 < 0 then '-' else '+') = sg at hsign ⊢
  have htail : ∀ c ∈ 'e' :: sg :: natDigits (n - 1).natAbs, isPlainChar c = true := by
    intro c hc
    simp only [List.mem_cons] at hc
    rcases hc with rfl | rfl | hc
    · decide
    · exact hsign
    · exact natDigits_plain _ c hc
  split_ifs
  · intro c hc
    rcases List.mem_append.mp hc with hc | hc
    · exact h c hc
    · exact hzero _ c hc
  · intro c hc
    simp only [List.mem_append, List.mem_cons] at hc
    rcases hc with hc | rfl | hc
    · exact h c (List.mem_of_mem_take hc)
    · decide
    · exact h c (List.mem_of_mem_drop hc)
  · intro c hc
    simp only [List.mem_cons, List.mem_append] at hc
    rcases hc with rfl | rfl | hc | hc
    · decide
    · decide
    · exact hzero _ c hc
    · exact h c hc
  · split
    · intro c hc
      rcases List.mem_cons.mp hc with rfl | hc
      · decide
      · exact htail c hc
    · rename_i d
      intro c hc
      rcases List.mem_cons.mp hc with rfl | hc
      · exact h _ (List.mem_singleton_self _)
      · exact htail c hc
    · rename_i d rest _
      intro c hc
      simp only [List.mem_cons, List.mem_append] at hc
      rcases hc with rfl | rfl | hc | hc
      · exact h _ (List.mem_cons_self _ _)
      · decide
      · exact h c (List.mem_cons_of_mem _ hc)
      · exact htail c (by simpa using hc)

/-- The text of `Number::toString` of a positive number is made of plain
characters. -/
theorem positiveToString_plain (x : ℚ) : ∀ c ∈ positiveToString x, isPlainChar c = true :=
  formatDecimal_plain _ _ fun c hc => natDigits_plain _ c (mem_stripZeros _ _ hc)

/-- The text of `toFixed(1)` of a finite number is made of plain characters. -/
theorem toFixed1_plain (x : ℚ) : ∀ c ∈ (toFixed1 (.fin x)).data, isPlainChar c = true := by
  have hbody : ∀ c ∈ (if pow10 21 ≤ |x| then positiveToString |x|
      else natDigits ((mathRound (|x| * 10)).toNat / 10) ++
        '.' :: natDigits ((mathRound (|x| * 10)).toNat % 10)), isPlainChar c = true := by
    split
    · exact positiveToString_plain _
    · intro c hc
      simp only [List.mem_append, List.mem_cons] at hc
      rcases hc with hc | rfl | hc
      · exact natDigits_plain _ c hc
      · decide
      · exact natDigits_plain _ c hc
  simp only [toFixed1]
  split
  · intro c hc
    rcases List.mem_cons.mp hc with rfl | hc
    · decide
    · exact hbody c hc
  · exact hbody

/-- A finite value of `Number(s)` is a binary64 number. -/
theorem stringToNumber_fin (s : String) (num : ℚ) (h : stringToNumber s = .fin num) :
    roundQ num = num ∧ |num| < pow2 1024 := by
  simp only [stringToNumber] at h
  cases hl : literalValue s with
  | fin q =>
    rw [hl] at h
    obtain ⟨h1, h2⟩ := roundDouble_eq_fin q num h
    exact ⟨by rw [h1, roundQ_idem], h2⟩
  | nan => rw [hl] at h; exact JsNumber.noConfusion h
  | posInf => rw [hl] at h; exact JsNumber.noConfusion h
  | negInf => rw [hl] at h; exact JsNumber.noConfusion h

/-- The quotient of a binary64 number by a constant from 1 up is finite. -/
theorem div_fin_of_double (num c : ℚ) (hc : 1 ≤ c) (hd : roundQ num = num)
    (hb : |num| < pow2 1024) :
    (JsNumber.fin num).div (.fin c) = .fin (roundQ (num / c)) := by
  have hc0 : ¬ c = 0 := by linarith
  simp only [JsNumber.div, if_neg hc0]
  apply roundDouble_of_lt
  rw [roundQ_abs]
  have hle : |num / c| ≤ |num| := by
    rw [abs_div, abs_of_pos (by linarith : (0 : ℚ) < c)]
    exact div_le_self (abs_nonneg _) hc
  have := roundQ_mono hle
  rw [← roundQ_abs num, hd] at this
  exact lt_of_le_of_lt this hb

/-- A text of plain characters that ends in `m` is its own normalised height. -/
theorem normalizeHeight_of_plain (b : List Char) (h : ∀ c ∈ b, isPlainChar c = true) :
    normalizeHeight ⟨b ++ ['m']⟩ = ⟨b ++ ['m']⟩ := by
  have hall : ∀ c ∈ b ++ ['m'], isPlainChar c = true := by
    intro c hc
    rcases List.mem_append.mp hc with hc | hc
    · exact h c hc
    · rw [List.mem_singleton.mp hc]; decide
  have hlow : (b ++ ['m']).map Char.toLower = b ++ ['m'] :=
    map_toLower_of_fixed _ fun c hc => by
      have := hall c hc
      simp only [isPlainChar, Bool.and_eq_true, beq_iff_eq] at this
      exact this.1
  have htrim : trimChars (b ++ ['m']) = b ++ ['m'] :=
    trimChars_of_no_space _ fun c hc => by
      have := hall c hc
      simp only [isPlainChar, Bool.and_eq_true, Bool.not_eq_true'] at this
      exact this.2
  have hnorm : jsTrim (jsLower ⟨b ++ ['m']⟩) = ⟨b ++ ['m']⟩ := by
    simp only [jsTrim, jsLower, hlow, htrim]
  have hend : jsEndsWith ⟨b ++ ['m']⟩ "m" = true := by
    simp [jsEndsWith]
  simp only [normalizeHeight, hnorm, hend, if_true]

/-- C16: `normalizeAccess`, `normalizeGround` and `normalizeHeight` are
idempotent: applied to its own result, each returns that result unchanged. -/
theorem normalize_idempotent (s : String) :
    normalizeAccess (normalizeAccess s) = normalizeAccess s ∧
    normalizeGround (normalizeGround s) = normalizeGround s ∧
    normalizeHeight (normalizeHeight s) = normalizeHeight s := by
  refine ⟨?_, ?_, ?_⟩
  · have h : normalizeAccess s = "tight" ∨ normalizeAccess s = "restricted" ∨
        normalizeAccess s = "easy" := by
      simp only [normalizeAccess]
      split_ifs <;> simp
    rcases h with h | h | h <;> rw [h] <;> decide
  · have h : normalizeGround s = "rocky" ∨ normalizeGround s = "soft" ∨
        normalizeGround s = "unknown" := by
      simp only [normalizeGround]
      split_ifs <;> simp
    rcases h with h | h | h <;> rw [h] <;> decide
  · have hfixed : ∀ x : ℚ,
        normalizeHeight (toFixed1 (.fin x) ++ "m") = toFixed1 (.fin x) ++ "m" := by
      intro x
      have := normalizeHeight_of_plain (toFixed1 (.fin x)).data (toFixed1_plain x)
      exact this
    by_cases hm : jsEndsWith (jsTrim (jsLower s)) "m" = true
    · have hs : normalizeHeight s = jsTrim (jsLower s) := by
        simp only [normalizeHeight, hm, if_true]
      rw [hs]
      simp only [normalizeHeight, trim_lower_fixed, hm, if_true]
    · cases hn : stringToNumber (jsTrim (jsLower s)) with
      | fin num =>
        obtain ⟨hd, hb⟩ := stringToNumber_fin _ _ hn
        have hs : normalizeHeight s =
            if num > 100 then toFixed1 ((JsNumber.fin num).div (.fin 1000)) ++ "m"
            else toFixed1 (.fin num) ++ "m" := by
          simp only [normalizeHeight, hm, hn]
          rfl
        rw [hs, div_fin_of_double num 1000 (by norm_num) hd hb]
        split
        · exact hfixed _
        · exact hfixed _
      | nan =>
        have hs : normalizeHeight s = "1.8m" := by
          simp only [normalizeHeight, hm, hn]
          rfl
        rw [hs]
        decide
      | posInf =>
        have hs : normalizeHeight s = "1.8m" := by
          simp only [normalizeHeight, hm, hn]
          rfl
        rw [hs]
        decide
      | negInf =>
        have hs : normalizeHeight s = "1.8m" := by
          simp only [normalizeHeight, hm, hn]
          rfl
        rw [hs]
        decide

/-- An unsigned decimal literal is not negative. -/
theorem unsignedDecimal_nonneg (s : List Char) (q : ℚ) (h : unsignedDecimal s = some q) :
    0 ≤ q := by
  simp only [unsignedDecimal] at h
  split at h
  · exact Option.noConfusion h
  · split at h
    · exact Option.noConfusion h
    · rename_i e _
      have hq := Option.some.inj h
      rw [← hq]
      have h10 : (0 : ℚ) < 10 ^ e := zpow_pos (by norm_num) e
      positivity

/-- A digit is none of the characters that open a signed or spelled-out
literal, and it is no white space. -/
theorem digit_facts (c : Char) (h : c.isDigit = true) :
    c ≠ '+' ∧ c ≠ '-' ∧ c ≠ 'I' ∧ c ≠ 'x' ∧ c ≠ 'X' ∧ c ≠ 'o' ∧ c ≠ 'O' ∧ c ≠ 'b' ∧
      c ≠ 'B' ∧ c ≠ ',' ∧ c ≠ '.' ∧ isJsSpace c = false := by
  have hc : ∃ n, 48 ≤ n ∧ n ≤ 57 ∧ c = Char.ofNat n := by
    refine ⟨c.toNat, ?_, ?_, (Char.ofNat_toNat c).symm⟩
    · have := h
      simp only [Char.isDigit, Bool.and_eq_true, decide_eq_true_eq] at this
      exact this.1
    · have := h
      simp only [Char.isDigit, Bool.and_eq_true, decide_eq_true_eq] at this
      exact this.2
  obtain ⟨n, h1, h2, rfl⟩ := hc
  interval_cases n <;> decide

/-- A decimal literal that starts with a digit is `NaN` or not negative. -/
theorem strDecimalLiteral_of_digit (c : Char) (rest : List Char) (h : c.isDigit = true) :
    (strDecimalLiteral (c :: rest)).nanOrNonneg := by
  obtain ⟨hp, hm, hI, _⟩ := digit_facts c h
  have hneg : ((c :: rest).head? = some '-') = False := by simp [hm]
  have hbody : (match c :: rest with
      | '+' :: r => r
      | '-' :: r => r
      | _ => c :: rest) = c :: rest := by
    split
    · rename_i r heq
      exact absurd (List.cons.inj heq).1 hp
    · rename_i r heq
      exact absurd (List.cons.inj heq).1 hm
    · rfl
  have hinf : ¬ (c :: rest = "Infinity".data) := by
    intro heq
    exact hI (List.cons.inj heq).1
  simp only [strDecimalLiteral, hbody, hneg, if_neg hinf]
  cases hu : unsignedDecimal (c :: rest) with
  | none => trivial
  | some q =>
    simp only [JsNumber.nanOrNonneg, if_false]
    exact unsignedDecimal_nonneg _ _ hu

/-- Trimming a text that starts with a character other than white space keeps
that first character. -/
theorem trimChars_cons_head (c : Char) (rest : List Char) (h : isJsSpace c = false) :
    ∃ rest', trimChars (c :: rest) = c :: rest' := by
  have hd : (c :: rest).dropWhile isJsSpace = c :: rest := by
    simp [List.dropWhile_cons, h]
  have hpre : (c :: rest).rdropWhile isJsSpace <+: c :: rest := List.rdropWhile_prefix _ _
  have hne : (c :: rest).rdropWhile isJsSpace ≠ [] := by
    intro hnil
    have := List.rdropWhile_eq_nil_iff.mp hnil c (List.mem_cons_self _ _)
    rw [h] at this
    exact Bool.noConfusion this
  show ∃ rest', ((c :: rest).dropWhile isJsSpace).rdropWhile isJsSpace = c :: rest'
  rw [hd]
  cases hr : (c :: rest).rdropWhile isJsSpace with
  | nil => exact absurd hr hne
  | cons a t =>
    rw [hr] at hpre
    obtain ⟨u, hu⟩ := hpre
    have ha : a = c := (List.cons.inj hu).1
    exact ⟨t, by rw [ha]⟩

/-- A radix literal reads as `NaN` or as a natural number. -/
theorem radix_nanOrNonneg (r : Option ℕ) :
    (match r with
      | some n => JsNumber.fin (n : ℚ)
      | none => JsNumber.nan).nanOrNonneg := by
  cases r with
  | none => trivial
  | some n => exact Nat.cast_nonneg n

/-- The value of a literal that starts with a digit is `NaN` or not
negative. -/
theorem literalValue_of_digit (c : Char) (rest : List Char) (h : c.isDigit = true) :
    (literalValue ⟨c :: rest⟩).nanOrNonneg := by
  obtain ⟨rest', hr⟩ := trimChars_cons_head c rest (digit_facts c h).2.2.2.2.2.2.2.2.2.2.2
  simp only [literalValue, hr]
  split
  · rename_i heq
    exact List.noConfusion heq
  all_goals first
    | exact radix_nanOrNonneg _
    | exact strDecimalLiteral_of_digit c rest' h

/-- Rounding to binary64 keeps a value that is `NaN` or not negative such. -/
theorem rounded_nanOrNonneg (n : JsNumber) (h : n.nanOrNonneg) : n.rounded.nanOrNonneg := by
  cases n with
  | fin q =>
    have := roundDouble_nonneg q h
    simp only [JsNumber.rounded]
    cases hr : roundDouble q with
    | fin r => rw [hr] at this; exact this
    | nan => trivial
    | posInf => trivial
    | negInf => rw [hr] at this; exact this
  | nan => trivial
  | posInf => trivial
  | negInf => exact h

/-- Rounding to binary64 does not make a `NaN`. -/
theorem rounded_ne_nan (n : JsNumber) (h : n ≠ .nan) : n.rounded ≠ .nan := by
  cases n with
  | fin q => exact roundDouble_ne_nan q
  | nan => exact absurd rfl h
  | posInf => exact fun h => JsNumber.noConfusion h
  | negInf => exact fun h => JsNumber.noConfusion h

/-- `Number(s)` of a text that starts with a digit is `NaN` or not negative. -/
theorem stringToNumber_of_digit (c : Char) (rest : List Char) (h : c.isDigit = true) :
    (stringToNumber ⟨c :: rest⟩).nanOrNonneg :=
  rounded_nanOrNonneg _ (literalValue_of_digit c rest h)

/-- A number that is `NaN` or not negative, and is not `NaN`, is not negative. -/
theorem nonNegative_of_ne_nan (n : JsNumber) (h : n.nanOrNonneg) (hn : n ≠ .nan) :
    n.nonNegative := by
  cases n with
  | fin q => exact h
  | nan => exact absurd rfl hn
  | posInf => trivial
  | negInf => exact h

/-- The number group `(\d+(?:\.\d+)?)` captures a text that starts with a
digit. -/
theorem numberPrefix_head (s num rest : List Char) (h : numberPrefix s = some (num, rest)) :
    ∃ c t, num = c :: t ∧ c.isDigit = true := by
  have hip : ∀ c t, s.takeWhile Char.isDigit = c :: t → c.isDigit = true := by
    intro c t hct
    have hmem : c ∈ s.takeWhile Char.isDigit := by rw [hct]; exact List.mem_cons_self _ _
    exact List.mem_takeWhile_imp hmem
  simp only [numberPrefix] at h
  split at h
  · exact Option.noConfusion h
  · rename_i hne
    cases hip' : s.takeWhile Char.isDigit with
    | nil => exact absurd hip' hne
    | cons c t =>
      have hc := hip c t hip'
      rw [hip'] at h
      split at h
      · split at h
        · have := (Prod.mk.inj (Option.some.inj h)).1
          exact ⟨c, t, this.symm, hc⟩
        · have := (Prod.mk.inj (Option.some.inj h)).1
          exact ⟨c, _, this.symm, hc⟩
      · have := (Prod.mk.inj (Option.some.inj h)).1
        exact ⟨c, t, this.symm, hc⟩

/-- The quantity that `extractMetres` reads is `NaN` or not negative. -/
theorem extractMetres_nanOrNonneg (text : String) (n : JsNumber)
    (h : extractMetres text = some n) : n.nanOrNonneg := by
  simp only [extractMetres] at h
  split at h
  · rename_i num hscan
    obtain ⟨p, suf, hp⟩ := scanFrom_some_exists _ _ _ _ hscan
    simp only [metresAt] at hp
    split at hp
    · exact Option.noConfusion hp
    · rename_i num' rest hnp
      obtain ⟨c, t, hnum, hc⟩ := numberPrefix_head _ _ _ hnp
      split at hp
      · have hn : num' = num := Option.some.inj hp
        rw [← Option.some.inj h, ← hn, hnum]
        exact stringToNumber_of_digit c t hc
      · exact Option.noConfusion hp
  · exact Option.noConfusion h

/-- The quantity of a built lead is not `NaN` and not negative. -/
theorem buildLead_qty_nonneg (MONSTER_CORE : Option Core) (text : String) :
    (buildLeadFromText MONSTER_CORE text).qty.nonNegative := by
  have h0 : (JsNumber.fin 0).nonNegative := le_refl (0 : ℚ)
  simp only [buildLeadFromText]
  cases hq : extractMetres text with
  | none => exact h0
  | some n =>
    have hn := extractMetres_nanOrNonneg text n hq
    cases n with
    | fin q =>
      by_cases ht : (JsNumber.fin q).truthy = true
      · simp only [ht, if_true]; exact hn
      · simp only [ht]; exact h0
    | nan => exact h0
    | posInf => trivial
    | negInf => exact absurd hn (by simp [JsNumber.nanOrNonneg])

/-- The value of a run of digits is not `NaN`. -/
theorem literalValue_digits_ne_nan (c : Char) (rest : List Char)
    (hall : ∀ x ∈ c :: rest, x.isDigit = true) :
    literalValue ⟨c :: rest⟩ ≠ .nan := by
  have hc : c.isDigit = true := hall c (List.mem_cons_self _ _)
  have htrim : trimChars (c :: rest) = c :: rest :=
    trimChars_of_no_space _ fun x hx => (digit_facts x (hall x hx)).2.2.2.2.2.2.2.2.2.2.2
  have hrest : ∀ b t, rest = b :: t → b.isDigit = true := by
    intro b t hbt
    exact hall b (by rw [hbt]; simp)
  obtain ⟨hp, hm, hI, _⟩ := digit_facts c hc
  have htake : (c :: rest).takeWhile Char.isDigit = c :: rest :=
    List.takeWhile_eq_self_iff.mpr fun x hx => hall x hx
  have hdrop : (c :: rest).dropWhile Char.isDigit = [] :=
    List.dropWhile_eq_nil_iff.mpr fun x hx => hall x hx
  have hbody : (match c :: rest with
      | '+' :: r => r
      | '-' :: r => r
      | _ => c :: rest) = c :: rest := by
    split
    · rename_i r heq
      exact absurd (List.cons.inj heq).1 hp
    · rename_i r heq
      exact absurd (List.cons.inj heq).1 hm
    · rfl
  have hneg : ((c :: rest).head? = some '-') = False := by simp [hm]
  have hinf : ¬ (c :: rest = "Infinity".data) := fun heq => hI (List.cons.inj heq).1
  have hdec : strDecimalLiteral (c :: rest) ≠ .nan := by
    simp only [strDecimalLiteral, hbody, hneg, if_neg hinf, unsignedDecimal, htake, hdrop]
    simp [exponentPart]
  simp only [literalValue, htrim]
  split
  · exact fun h => JsNumber.noConfusion h
  all_goals first
    | (rename_i ds heq
       exact absurd (hrest _ _ (List.cons.inj heq).2) (by decide))
    | exact hdec

/-- `Number(s)` of a non-empty run of digits is not `NaN` and not negative: a
finite number from `0` up, or `Infinity` when the run is too long for one. -/
theorem stringToNumber_digits (l : List Char) (hne : l ≠ [])
    (hall : ∀ c ∈ l, c.isDigit = true) :
    (stringToNumber ⟨l⟩).nonNegative := by
  obtain ⟨c, rest, hl⟩ := List.exists_cons_of_ne_nil hne
  subst hl
  exact nonNegative_of_ne_nan _
    (stringToNumber_of_digit c rest (hall c (List.mem_cons_self _ _)))
    (rounded_ne_nan _ (literalValue_digits_ne_nan c rest hall))

/-- The group `(?:,\d{3})*` consumes commas and digits only. -/
theorem commaGroups_chars (s : List Char) :
    ∀ x ∈ commaGroups s, x = ',' ∨ x.isDigit = true := by
  induction s using commaGroups.induct with
  | case1 c d1 d2 d3 rest hcond ih =>
    intro x hx
    rw [commaGroups, if_pos hcond] at hx
    simp only [List.mem_cons] at hx
    rcases hx with rfl | rfl | rfl | rfl | hx
    · exact Or.inl hcond.1
    · exact Or.inr hcond.2.1
    · exact Or.inr hcond.2.2.1
    · exact Or.inr hcond.2.2.2
    · exact ih x hx
  | case2 c d1 d2 d3 rest hcond =>
    intro x hx
    rw [commaGroups, if_neg hcond] at hx
    exact absurd hx (List.not_mem_nil _)
  | case3 s hs =>
    intro x hx
    rw [commaGroups] at hx
    · exact absurd hx (List.not_mem_nil _)
    · exact hs

/-- The budget after the `$` stage is not `NaN` and not negative. -/
theorem dollarBudget_nonneg (raw : String) : (dollarBudget raw).nonNegative := by
  have h0 : (JsNumber.fin 0).nonNegative := le_refl (0 : ℚ)
  simp only [dollarBudget]
  split
  · cases hm : matchDollar raw with
    | none => exact h0
    | some m1 =>
      obtain ⟨p, suf, hp⟩ := scanFrom_some_exists _ _ _ _ hm
      simp only [dollarAt] at hp
      split at hp
      · rename_i c r
        split at hp
        · rename_i hcond
          have hm1 := Option.some.inj hp
          obtain ⟨d, t, hds⟩ := List.exists_cons_of_ne_nil hcond.2
          have hdig : ∀ x ∈ (r.dropWhile isJsSpace).takeWhile Char.isDigit,
              x.isDigit = true := fun x hx => List.mem_takeWhile_imp hx
          have hd : d.isDigit = true := hdig d (by rw [hds]; exact List.mem_cons_self _ _)
          have hall : ∀ x ∈ m1.filter (fun c => c ≠ ','), x.isDigit = true := by
            intro x hx
            obtain ⟨hxm, hxc⟩ := List.mem_filter.mp hx
            rw [← hm1] at hxm
            rcases List.mem_append.mp hxm with h | h
            · exact hdig x h
            · rcases commaGroups_chars _ x h with h' | h'
              · simp [h'] at hxc
              · exact h'
          have hne : m1.filter (fun c => c ≠ ',') ≠ [] := by
            have hmem : d ∈ m1.filter (fun c => c ≠ ',') := by
              apply List.mem_filter.mpr
              refine ⟨?_, ?_⟩
              · rw [← hm1, hds]
                simp
              · simpa using (digit_facts d hd).2.2.2.2.2.2.2.2.2.1
            exact List.ne_nil_of_mem hmem
          exact stringToNumber_digits _ hne hall
        · exact Option.noConfusion hp
      · exact Option.noConfusion hp
  · exact h0

/-- The budget after the `budget 5k` stage is not `NaN` and not negative. -/
theorem suffixBudget_nonneg (raw : String) : (suffixBudget raw).nonNegative := by
  have hd := dollarBudget_nonneg raw
  simp only [suffixBudget]
  split
  · cases hm : matchBudget (jsLower raw) with
    | none => exact hd
    | some m =>
      obtain ⟨mk1, mk2⟩ := m
      obtain ⟨p, suf, hp⟩ := scanFrom_some_exists _ _ _ _ hm
      have hhead : ∃ c t, mk1 = c :: t ∧ c.isDigit = true := by
        simp only [budgetAt] at hp
        split at hp
        · split at hp
          · exact Option.noConfusion hp
          · rename_i num rest hnp
            have hnum : num = mk1 := by
              split at hp
              · exact (Prod.mk.inj (Option.some.inj hp)).1
              · split at hp
                · exact (Prod.mk.inj (Option.some.inj hp)).1
                · exact Option.noConfusion hp
            rw [← hnum]
            exact numberPrefix_head _ _ _ hnp
        · exact Option.noConfusion hp
      obtain ⟨c, t, hmk, hc⟩ := hhead
      have hW := stringToNumber_of_digit c t hc
      rw [← hmk] at hW
      dsimp only
      cases hn : stringToNumber ⟨mk1⟩ with
      | fin n =>
        rw [hn] at hW
        have hn0 : 0 ≤ n := hW
        have hm0 : (0 : ℚ) ≤ if mk2 = "k" then 1000 else 1000 := by split <;> norm_num
        have hprod := roundDouble_nonneg _ (mul_nonneg hn0 hm0)
        show (((JsNumber.fin n).mul (.fin (if mk2 = "k" then 1000 else 1000))).round).nonNegative
        simp only [JsNumber.mul]
        cases hr : roundDouble (n * if mk2 = "k" then 1000 else 1000) with
        | fin r =>
          rw [hr] at hprod
          have hr0 : 0 ≤ r := hprod
          have : (0 : ℤ) ≤ mathRound r := by
            simp only [mathRound]
            apply Int.floor_nonneg.mpr
            positivity
          show (0 : ℚ) ≤ ((mathRound r : ℤ) : ℚ)
          exact_mod_cast this
        | nan => rw [hr] at hprod; exact hprod
        | posInf => trivial
        | negInf => rw [hr] at hprod; exact hprod
      | nan => exact hd
      | posInf => exact hd
      | negInf => exact hd
  · exact hd

/-- The fallback budget is not negative when the configured minimum is not. -/
theorem fallbackBudget_nonneg (MONSTER_CORE : Option Core)
    (hmin : ∀ core, MONSTER_CORE = some core → 0 ≤ core.business_rules.minimum_job_value) :
    0 ≤ fallbackBudget MONSTER_CORE := by
  cases MONSTER_CORE with
  | none => simp [fallbackBudget]
  | some core =>
    simp only [fallbackBudget]
    split
    · exact hmin core rfl
    · norm_num

/-- C14, as stated, fails: the lead built from a text with `5000000m` and
`$20,000,000,000` has quantity `5000000`, above `1e6`, and budget
`20000000000`, above `1e9`; a run of 310 digits is read as `Infinity`, both as
a quantity and as a budget; and under a configuration whose minimum job value
is `-100` a text without a budget gets the budget `-100`, below `0`. -/
theorem buildLead_bounds_counterexample :
    ((buildLeadFromText (some scenarioCore) hugeText).qty = .fin 5000000 ∧
      ¬ (5000000 : ℚ) ≤ 1000000) ∧
    ((buildLeadFromText (some scenarioCore) hugeText).budget = .fin 20000000000 ∧
      ¬ (20000000000 : ℚ) ≤ 1000000000) ∧
    ((buildLeadFromText (some scenarioCore) longDigitsText).qty = .posInf ∧
      (buildLeadFromText (some scenarioCore) longDigitsText).budget = .posInf) ∧
    ((buildLeadFromText (some negativeMinimumCore) plainText).budget = .fin (-100) ∧
      ¬ (0 : ℚ) ≤ -100) := by
  decide!

/-- C14 (amended): under a configuration whose minimum job value is not
negative (or with no configuration), the budget and the quantity of the lead
that `buildLeadFromText` returns are not `NaN` and not negative: each is a
finite number from `0` up, or `Infinity` when the digits in the text are too
many for a finite number.  `buildLeadFromText` puts no upper bound on them; the
bounds `[0, 1e9]` and `[0, 1e6]` hold for the values the engine reads off the
lead through `clampNumber`, which reads `Infinity` as `0`. -/
theorem buildLead_nonnegative (MONSTER_CORE : Option Core) (text : String)
    (hmin : ∀ core, MONSTER_CORE = some core → 0 ≤ core.business_rules.minimum_job_value) :
    let lead := buildLeadFromText MONSTER_CORE text
    lead.budget.nonNegative ∧ lead.qty.nonNegative ∧
    (0 ≤ clampNumber lead.budget 0 1000000000 ∧
      clampNumber lead.budget 0 1000000000 ≤ 1000000000) ∧
    (0 ≤ clampNumber lead.qty 0 1000000 ∧ clampNumber lead.qty 0 1000000 ≤ 1000000) ∧
    clampNumber .posInf 0 1000000000 = 0 := by
  intro lead
  refine ⟨?_, buildLead_qty_nonneg MONSTER_CORE text,
    clampNumber_bounds _ _ _ (by norm_num), clampNumber_bounds _ _ _ (by norm_num), rfl⟩
  simp only [lead, buildLeadFromText]
  split
  · exact fallbackBudget_nonneg MONSTER_CORE hmin
  · exact suffixBudget_nonneg text

/-- The lead built from the text with the large figures: its budget is not
negative, and the engine reads budget and quantity as `1e9` and `1e6`. -/
theorem buildLead_nonnegative_witness :
    (∀ core, some scenarioCore = some core → 0 ≤ core.business_rules.minimum_job_value) ∧
    (buildLeadFromText (some scenarioCore) hugeText).budget.nonNegative ∧
    clampNumber (buildLeadFromText (some scenarioCore) hugeText).budget 0 1000000000 =
      1000000000 ∧
    clampNumber (buildLeadFromText (some scenarioCore) hugeText).qty 0 1000000 = 1000000 :=
  ⟨fun core h => by rw [← Option.some.inj h]; decide!,
    (buildLead_nonnegative (some scenarioCore) hugeText
      (fun core h => by rw [← Option.some.inj h]; decide!)).1,
    by decide!, by decide!⟩

end SiteBoss
